import Mathlib

/-!
CasparCG GPU frame compositing: accumulation tree, renderer and device pools.

A shallow embedding of

* `src/accelerator/ogl/image/image_mixer.cpp` (the `push`/`visit`/`pop` protocol of
  `image_mixer::impl` and the recursive `draw` overloads of `image_renderer`),
* `src/accelerator/ogl/util/device.cpp` (texture and host-buffer pools, the upload cache),
* `src/core/video_format.h` (`video_format`, `field_mode`, `video_format_desc`).

Conventions of the embedding

* A C++ `std::vector` is a `List` whose head is index 0; `back()` is `getLast?`.
* A raw `layer*` is `Option (List Nat)`: `none` is the null pointer and `some p` is the
  index path of the layer from the root sequence `layers_`.
* A call returns an `outcome` together with the state reached: `ok`, a thrown C++
  exception, or undefined behaviour (with the state at the point where it occurs).
* Work submitted to the device executor runs in submission order, one task at a time.
-/

namespace caspar

/-! ## Outcomes -/

/-- The C++ exceptions the modelled code can raise. -/
inductive exception where
  | invalid_operation
  | length_error
  deriving DecidableEq, Repr

/-- The way a call ends: normally with a value, with a thrown exception, or in
undefined behaviour (null or out-of-range access). -/
inductive outcome (α : Type) where
  | ok (a : α)
  | thrown (e : exception)
  | undefined
  deriving DecidableEq, Repr

/-! ## `core/video_format.h` -/

/-- The enumeration `core::video_format`, `count` being its sentinel. -/
inductive video_format where
  | pal | ntsc | x576p2500 | x720p2500 | x720p5000 | x720p2398 | x720p2400 | x720p2997
  | x720p5994 | x720p3000 | x720p6000 | x1080p2398 | x1080p2400 | x1080i5000 | x1080i5994
  | x1080i6000 | x1080p2500 | x1080p2997 | x1080p3000 | x1080p5000 | x1080p5994 | x1080p6000
  | x1556p2398 | x1556p2400 | x1556p2500 | dci1080p2398 | dci1080p2400 | dci1080p2500
  | x2160p2398 | x2160p2400 | x2160p2500 | x2160p2997 | x2160p3000 | x2160p5000 | x2160p5994
  | x2160p6000 | dci2160p2398 | dci2160p2400 | dci2160p2500 | invalid | count
  deriving DecidableEq, Repr

/-- The enumeration `core::field_mode`: `empty = 0`, `lower = 1`, `upper = 2`,
`progressive = 3 = lower | upper`. -/
inductive field_mode where
  | empty | lower | upper | progressive
  deriving DecidableEq, Repr

/-- The underlying integer of a `field_mode`. -/
def field_mode.bits : field_mode → Nat
  | .empty => 0
  | .lower => 1
  | .upper => 2
  | .progressive => 3

/-- The `field_mode` of an underlying integer in `0..3`. -/
def field_mode.of_bits : Nat → field_mode
  | 0 => .empty
  | 1 => .lower
  | 2 => .upper
  | _ => .progressive

/-- Bitwise `&` on `field_mode`, as enabled by `ENUM_ENABLE_BITWISE(field_mode)`. -/
def field_mode.and (a b : field_mode) : field_mode :=
  field_mode.of_bits (a.bits &&& b.bits)

/-- The struct `core::video_format_desc` (integer members; `fps`, `framerate` and `name`
are not read by the modelled code). -/
structure video_format_desc where
  format : video_format
  width : Int
  height : Int
  square_width : Int
  square_height : Int
  field_mode : field_mode
  time_scale : Int
  duration : Int
  field_count : Int
  size : Nat
  audio_sample_rate : Int
  audio_cadence : List Int
  deriving DecidableEq, Repr

/-! ## Frame description types used by the mixer -/

/-- Modelled from the spec: the enumeration `core::blend_mode` of
`core/frame/frame_transform.h`, which is not under `src/`. The modelled code only
distinguishes `normal` (the default) from every other mode. -/
inductive blend_mode where
  | normal
  | other (code : Nat)
  deriving DecidableEq, Repr

/-- Modelled from the spec: the enumeration `core::pixel_format` of
`core/frame/pixel_format.h`, which is not under `src/`; the modelled code names
`bgra` and `invalid`. -/
inductive pixel_format where
  | gray | bgra | rgba | argb | abgr | ycbcr | ycbcra | luma | bgr | rgb | invalid
  deriving DecidableEq, Repr

/-- Modelled from the spec: `core::pixel_format_desc::plane`, a plane descriptor with
width, height, stride and byte size. -/
structure plane where
  width : Int
  height : Int
  stride : Int
  size : Int
  deriving DecidableEq, Repr

/-- The constructor `plane(width, height, stride)`, whose size is the product. -/
def plane.create (width height stride : Int) : plane :=
  { width := width, height := height, stride := stride, size := width * height * stride }

/-- Modelled from the spec: `core::pixel_format_desc`, a format tag and an ordered
sequence of planes. -/
structure pixel_format_desc where
  format : pixel_format
  planes : List plane
  deriving DecidableEq, Repr

/-- Modelled from the spec: `core::image_transform` of `core/frame/frame_transform.h`,
which is not under `src/`, restricted to the members the modelled code reads. A
default-constructed transform is `image_transform.identity`. -/
structure image_transform where
  field_mode : field_mode
  is_key : Bool
  is_mix : Bool
  use_mipmap : Bool
  blend_mode : blend_mode
  layer_depth : Int
  deriving DecidableEq, Repr

/-- Modelled from the spec: the default-constructed `image_transform()`, the identity
that the transform stack starts with: progressive, no flags, normal blend, depth 0. -/
def image_transform.identity : image_transform :=
  { field_mode := .progressive, is_key := false, is_mix := false, use_mipmap := false,
    blend_mode := .normal, layer_depth := 0 }

/-- Modelled from the spec: `operator*` of `image_transform`
(`core/frame/frame_transform.cpp`, not under `src/`): field modes intersect, flags
accumulate, a non-default blend mode of the parent overrides the child's, and layer
depths add. The mixer functions below take the composition as a parameter; this
instance is only used to evaluate them on concrete inputs. -/
def image_transform.mul (a b : image_transform) : image_transform :=
  { field_mode := a.field_mode.and b.field_mode
    is_key := a.is_key || b.is_key
    is_mix := a.is_mix || b.is_mix
    use_mipmap := a.use_mipmap || b.use_mipmap
    blend_mode := if a.blend_mode = .normal then b.blend_mode else a.blend_mode
    layer_depth := a.layer_depth + b.layer_depth }

/-- Modelled from the spec: `core::frame_transform`, of which the mixer reads the
member `image_transform`. -/
structure frame_transform where
  image_transform : image_transform
  deriving DecidableEq, Repr

/-- Modelled from the spec: `core::frame_geometry`; `tag = 0` is the default
full-canvas quad returned by `frame_geometry::get_default()`. -/
structure frame_geometry where
  tag : Nat
  deriving DecidableEq, Repr

/-- The default geometry `frame_geometry::get_default()`. -/
def frame_geometry.get_default : frame_geometry := { tag := 0 }

/-- A byte array `caspar::array<const std::uint8_t>`: the bytes reachable from its data
pointer up to the end of the allocation it points into, the size it reports, and the
identity of the host buffer object that backs it, if one does
(`storage<spl::shared_ptr<buffer>>()`). -/
structure array where
  data : List Nat
  size : Nat
  storage : Option Nat
  deriving DecidableEq, Repr

/-- The byte at index `i` of an array: defined inside the reported size and inside the
allocation the data pointer refers to. -/
def array.byte (a : array) (i : Nat) : Option Nat :=
  if i < a.size then a.data.get? i else none

/-- Modelled from the spec: `core::const_frame`, read through `pixel_format_desc()`,
`geometry()` and `image_data(n)`. -/
structure const_frame where
  pixel_format_desc : pixel_format_desc
  geometry : frame_geometry
  image_data : Nat → array

/-- A pending upload `future_texture`: the arguments of the `copy_async` call that
produces it. -/
structure future_texture where
  source : array
  width : Int
  height : Int
  stride : Int
  mipmapped : Bool
  deriving DecidableEq, Repr

/-! ## `image_mixer.cpp`: items and layers -/

/-- The struct `item` of `image_mixer.cpp`. -/
structure item where
  pix_desc : pixel_format_desc
  textures : List future_texture
  transform : image_transform
  geometry : frame_geometry
  deriving DecidableEq, Repr

/-- The struct `layer` of `image_mixer.cpp`; `layer(blend_mode)` builds it with no
sublayers and no items. -/
structure layer where
  sublayers : List layer
  items : List item
  blend_mode : blend_mode
  deriving Repr

/-- The constructor `layer(core::blend_mode blend_mode)`. -/
def layer.create (b : caspar.blend_mode) : layer :=
  { sublayers := [], items := [], blend_mode := b }

/-- The layer a pointer path refers to: `[i]` is `layers[i]`, and `i :: p` continues
inside the sublayers of `layers[i]`. The empty path refers to no layer. -/
def layer_at : List layer → List Nat → Option layer
  | _, [] => none
  | ls, i :: p =>
    match ls.get? i with
    | none => none
    | some l => if p = [] then some l else layer_at l.sublayers p

/-- Apply `f` in place to the layer a pointer path refers to; `none` when the path
refers to no layer. -/
def modify_at (f : layer → layer) : List layer → List Nat → Option (List layer)
  | _, [] => none
  | ls, i :: p =>
    match ls.get? i with
    | none => none
    | some l =>
      if p = [] then some (ls.set i (f l))
      else
        match modify_at f l.sublayers p with
        | none => none
        | some subs => some (ls.set i { l with sublayers := subs })

/-- The effect of `l.sublayers.push_back(new_layer)`. -/
def layer.push_sublayer (new_layer : layer) (l : layer) : layer :=
  { l with sublayers := l.sublayers ++ [new_layer] }

/-- The effect of `l.items.push_back(item)`. -/
def layer.push_item (it : item) (l : layer) : layer :=
  { l with items := l.items ++ [it] }

/-- The effect of `std::vector::resize(n)` on a vector of raw pointers: truncation, or
padding with null pointers. -/
def resize (stack : List (Option (List Nat))) (n : Nat) : List (Option (List Nat)) :=
  stack.take n ++ List.replicate (n - stack.length) none

namespace image_mixer

/-- The state of `image_mixer::impl`: `transform_stack_`, `layers_`, `layer_stack_`, and
for `ogl_` the uploads requested from the device so far, in call order. -/
structure impl where
  transform_stack_ : List image_transform
  layers_ : List layer
  layer_stack_ : List (Option (List Nat))
  ogl_ : List future_texture

/-- The state after the constructor of `impl`: `transform_stack_(1)` holds one
default-constructed transform; no layers, empty layer stack. -/
def fresh : impl :=
  { transform_stack_ := [image_transform.identity], layers_ := [], layer_stack_ := [],
    ogl_ := [] }

/-- The method `impl::push` (lines 287-309), for the composition `mul` of transforms. -/
def push (mul : image_transform → image_transform → image_transform) (m : impl)
    (transform : frame_transform) : outcome Unit × impl :=
  match m.transform_stack_.getLast? with
  | none => (.undefined, m)
  | some top =>
    let previous_layer_depth := top.layer_depth
    let composed := mul top transform.image_transform
    let m1 := { m with transform_stack_ := m.transform_stack_ ++ [composed] }
    let new_layer_depth := composed.layer_depth
    if previous_layer_depth < new_layer_depth then
      let new_layer := layer.create composed.blend_mode
      match m1.layer_stack_.getLast? with
      | none =>
        (.ok (), { m1 with layers_ := m1.layers_ ++ [new_layer],
                           layer_stack_ := m1.layer_stack_ ++ [some [m1.layers_.length]] })
      | some none => (.undefined, m1)
      | some (some p) =>
        match layer_at m1.layers_ p, modify_at (layer.push_sublayer new_layer) m1.layers_ p with
        | some l, some ls =>
          (.ok (), { m1 with layers_ := ls,
                             layer_stack_ := m1.layer_stack_ ++ [some (p ++ [l.sublayers.length])] })
        | _, _ => (.undefined, m1)
    else
      (.ok (), m1)

/-- The uploads `visit` requests for an item: one `copy_async` per plane, in plane
order, of `frame.image_data(n)` with the plane's width, height and stride and the
transform's mipmap flag. -/
def plane_uploads (frame : const_frame) (use_mipmap : Bool) (planes : List plane) :
    List future_texture :=
  planes.enum.map fun np =>
    { source := frame.image_data np.1, width := np.2.width, height := np.2.height,
      stride := np.2.stride, mipmapped := use_mipmap }

/-- The method `impl::visit` (lines 311-332). -/
def visit (m : impl) (frame : const_frame) : outcome Unit × impl :=
  if frame.pixel_format_desc.format = pixel_format.invalid then (.ok (), m)
  else if frame.pixel_format_desc.planes.isEmpty then (.ok (), m)
  else
    match m.transform_stack_.getLast? with
    | none => (.undefined, m)
    | some top =>
      if top.field_mode = field_mode.empty then (.ok (), m)
      else
        let it : item :=
          { pix_desc := frame.pixel_format_desc
            textures := plane_uploads frame top.use_mipmap frame.pixel_format_desc.planes
            transform := top
            geometry := frame.geometry }
        let m1 := { m with ogl_ := m.ogl_ ++ it.textures }
        match m1.layer_stack_.getLast? with
        | none => (.undefined, m1)
        | some none => (.undefined, m1)
        | some (some p) =>
          match modify_at (layer.push_item it) m1.layers_ p with
          | none => (.undefined, m1)
          | some ls => (.ok (), { m1 with layers_ := ls })

/-- The method `impl::pop` (lines 334-338): `pop_back`, then `resize` of the layer stack
to the layer depth of the new top, an `int` converted to `std::size_t` (a negative
depth becomes a size above `max_size()` and `resize` throws `std::length_error`). -/
def pop (m : impl) : outcome Unit × impl :=
  match m.transform_stack_ with
  | [] => (.undefined, m)
  | _ :: _ =>
    let m1 := { m with transform_stack_ := m.transform_stack_.dropLast }
    match m1.transform_stack_.getLast? with
    | none => (.undefined, m1)
    | some top =>
      if top.layer_depth < 0 then (.thrown .length_error, m1)
      else (.ok (), { m1 with layer_stack_ := resize m1.layer_stack_ top.layer_depth.toNat })

/-- One call of the producer-visitor protocol. -/
inductive call where
  | push (transform : frame_transform)
  | visit (frame : const_frame)
  | pop

/-- Perform one call. -/
def step (mul : image_transform → image_transform → image_transform) (m : impl) :
    call → outcome Unit × impl
  | .push t => push mul m t
  | .visit f => visit m f
  | .pop => pop m

/-- Perform a sequence of calls, stopping at the first one that does not end normally. -/
def run (mul : image_transform → image_transform → image_transform) :
    impl → List call → outcome Unit × impl
  | m, [] => (.ok (), m)
  | m, c :: cs =>
    match step mul m c with
    | (.ok _, m1) => run mul m1 cs
    | (.thrown e, m1) => (.thrown e, m1)
    | (.undefined, m1) => (.undefined, m1)

/-- The consistency of a mixer state that the depth discipline maintains: layer depths
on the transform stack are non-negative and non-decreasing, the layer stack has as many
entries as the layer depth on top, and every entry points to a layer of the tree. -/
structure consistent (m : impl) : Prop where
  depths_nonneg : ∀ t ∈ m.transform_stack_, 0 ≤ t.layer_depth
  depths_sorted : m.transform_stack_.Pairwise fun a b => a.layer_depth ≤ b.layer_depth
  stack_size : ∀ top, m.transform_stack_.getLast? = some top →
    (m.layer_stack_.length : Int) = top.layer_depth
  stack_valid : ∀ e ∈ m.layer_stack_, ∃ p l, e = some p ∧ layer_at m.layers_ p = some l

/-- A frame transform that enters a nested layer: identity except for layer depth 1. -/
def enter_layer : frame_transform :=
  { image_transform := { image_transform.identity with layer_depth := 1 } }

/-- A frame transform that stays at the same layer depth (the identity). -/
def same_layer : frame_transform :=
  { image_transform := image_transform.identity }

/-- A one-plane BGRA frame of 2 x 2 pixels whose plane data is backed by host buffer 7. -/
def sample_frame : const_frame :=
  { pixel_format_desc := { format := .bgra, planes := [plane.create 2 2 4] }
    geometry := frame_geometry.get_default
    image_data := fun _ => { data := List.replicate 16 0, size := 16, storage := some 7 } }

/-- A sample tick: enter a layer, visit a frame, push a sibling item scope, visit, and
leave both scopes. -/
def sample_calls : List call :=
  [.push enter_layer, .visit sample_frame, .push same_layer, .visit sample_frame, .pop, .pop]

/-- The mixer state after `push(enter_layer)` on a fresh mixer under the additive
composition: one root layer, which the layer stack points to. -/
def inside_layer : impl :=
  { transform_stack_ := [image_transform.identity, enter_layer.image_transform]
    layers_ := [layer.create .normal]
    layer_stack_ := [some [0]]
    ogl_ := [] }

/-- What a layer node holds itself: its items, its blend mode and the number of its
sublayers. -/
def node (l : layer) : List item × blend_mode × Nat :=
  (l.items, l.blend_mode, l.sublayers.length)

/-- A frame with an invalid pixel format. -/
def invalid_frame : const_frame :=
  { sample_frame with pixel_format_desc := { format := .invalid, planes := [] } }

/-- The item `visit(sample_frame)` builds in the state `inside_layer`. -/
def sample_visited : item :=
  { pix_desc := sample_frame.pixel_format_desc
    textures := [{ source := sample_frame.image_data 0, width := 2, height := 2, stride := 4,
                   mipmapped := false }]
    transform := enter_layer.image_transform
    geometry := sample_frame.geometry }

/-- A frame transform that raises the layer depth by 2 at once. -/
def deep_jump : frame_transform :=
  { image_transform := { image_transform.identity with layer_depth := 2 } }

/-- The mixer state after `push(deep_jump)` and `push(same_layer)` on a fresh mixer
under the additive composition: three transforms, the upper two of depth 2, one root
layer and one entry on the layer stack. -/
def after_jump : impl :=
  (run image_transform.mul fresh [.push deep_jump, .push same_layer]).2

end image_mixer

/-! ## `image_mixer.cpp`: the renderer -/

/-- A texture with the shape it was created with. `id` tells textures apart: in the
renderer it is the ordinal of the `create_texture` call that returned the handle, in
the device it is the ordinal of the allocation of the texture object. -/
structure texture where
  id : Nat
  width : Int
  height : Int
  stride : Int
  mipmapped : Bool
  deriving DecidableEq, Repr

/-- Modelled from the spec: the enumeration `ogl::keyer` of `image_kernel.h`, which is
not under `src/`; `linear` is the default of `draw_params`. -/
inductive keyer where
  | linear
  | additive
  deriving DecidableEq, Repr

/-- A texture a draw samples from: the result of a pending upload of an item, or an
off-screen buffer of the renderer. -/
inductive texture_source where
  | upload (f : future_texture)
  | buffer (t : texture)
  deriving DecidableEq, Repr

/-- Modelled from the spec: the struct `draw_params` of `image_kernel.h`, which is not
under `src/`: the fully described draw request handed to `image_kernel::draw`. The
aspect ratio, a quotient of doubles in the code, is kept as the pair it is computed
from. -/
structure draw_params where
  pix_desc : pixel_format_desc
  textures : List texture_source
  transform : image_transform
  geometry : frame_geometry
  blend_mode : blend_mode
  keyer : keyer
  background : Option texture
  local_key : Option texture
  layer_key : Option texture
  aspect_ratio : Int × Int
  deriving DecidableEq, Repr

/-- A default-constructed `draw_params`. -/
def draw_params.default : draw_params :=
  { pix_desc := { format := .invalid, planes := [] }
    textures := []
    transform := image_transform.identity
    geometry := frame_geometry.get_default
    blend_mode := .normal
    keyer := .linear
    background := none
    local_key := none
    layer_key := none
    aspect_ratio := (1, 1) }

/-- A call the renderer issues to the device or to the kernel. -/
inductive gl_call where
  | create_texture (t : texture) (clear : Bool)
  | draw (params : draw_params)
  | post_process (target : texture) (straighten_alpha : Bool)
  | attach (target : texture)
  | copy_async (source : texture)
  deriving DecidableEq, Repr

/-- The device and kernel as the renderer sees them: the calls issued so far, in order,
and the number of texture handles handed out. -/
structure gpu where
  calls : List gl_call
  created : Nat
  deriving DecidableEq, Repr

/-- The result of `image_renderer::operator()`: a future that is already resolved to a
byte array, or one that resolves to the readback of the target. -/
inductive render_result where
  | ready (a : array)
  | readback (target : texture)
  deriving DecidableEq, Repr

/-- Modelled from the spec: `enum_constants<core::video_format>()` of
`common/enum_class.h`, which is not under `src/`: all known formats, that is every
enumerator below the sentinel `count`. -/
def enum_constants : List video_format :=
  [.pal, .ntsc, .x576p2500, .x720p2500, .x720p5000, .x720p2398, .x720p2400, .x720p2997,
   .x720p5994, .x720p3000, .x720p6000, .x1080p2398, .x1080p2400, .x1080i5000, .x1080i5994,
   .x1080i6000, .x1080p2500, .x1080p2997, .x1080p3000, .x1080p5000, .x1080p5994,
   .x1080p6000, .x1556p2398, .x1556p2400, .x1556p2500, .dci1080p2398, .dci1080p2400,
   .dci1080p2500, .x2160p2398, .x2160p2400, .x2160p2500, .x2160p2997, .x2160p3000,
   .x2160p5000, .x2160p5994, .x2160p6000, .dci2160p2398, .dci2160p2400, .dci2160p2500,
   .invalid]

/-- The function `get_max_video_format_size` (lines 74-80): the largest `size` over the
descriptors of all known formats. The table `video_format_desc(format)` of
`core/video_format.cpp` is not under `src/` and is the parameter `desc_of`. -/
def get_max_video_format_size (desc_of : video_format → video_format_desc) : Nat :=
  (enum_constants.map fun format => (desc_of format).size).foldl max 0

namespace image_renderer

/-- The call `ogl_->create_texture(width, height, stride, mipmapped)` made on the
execution context: `device::create_texture` (`device.cpp` line 489), which always asks
for a cleared texture. -/
def create_texture (g : gpu) (width height stride : Int) (mipmapped : Bool) : texture × gpu :=
  let t : texture :=
    { id := g.created, width := width, height := height, stride := stride,
      mipmapped := mipmapped }
  (t, { calls := g.calls ++ [.create_texture t true], created := g.created + 1 })

/-- The call `kernel_.draw(std::move(draw_params))`. -/
def kernel_draw (g : gpu) (params : draw_params) : gpu :=
  { g with calls := g.calls ++ [.draw params] }

/-- The overload `draw(target_texture, source_buffer, blend_mode)` (lines 251-268). The
rvalue-reference parameter `source_buffer` is only read, so the pointer of the caller
keeps its value. -/
def draw_buffer (target : texture) (source_buffer : Option texture) (blend : blend_mode)
    (g : gpu) : gpu :=
  match source_buffer with
  | none => g
  | some src =>
    kernel_draw g
      { draw_params.default with
        pix_desc := { format := .bgra, planes := [plane.create src.width src.height 4] }
        textures := [.buffer src]
        transform := image_transform.identity
        blend_mode := blend
        background := some target
        geometry := frame_geometry.get_default }

/-- The local key and local mix buffers of a layer draw together with the device state. -/
structure locals where
  local_key : Option texture
  local_mix : Option texture
  g : gpu
  deriving DecidableEq, Repr

/-- The draw request `draw(item)` fills in before it selects a role (lines 208-215). -/
def item_params (it : item) (format_desc : video_format_desc) : draw_params :=
  { draw_params.default with
    pix_desc := it.pix_desc
    transform := it.transform
    geometry := it.geometry
    aspect_ratio := (format_desc.square_width, format_desc.square_height)
    textures := it.textures.map .upload }

/-- The overload `draw(target_texture, item, layer_key_texture, local_key_texture,
local_mix_texture, format_desc)` (lines 201-249). -/
def draw_item (target : texture) (it : item) (layer_key : Option texture)
    (format_desc : video_format_desc) (s : locals) : locals :=
  let params := item_params it format_desc
  if it.transform.is_key then
    let r := match s.local_key with
      | some k => (k, s.g)
      | none => create_texture s.g target.width target.height 1 params.transform.use_mipmap
    { local_key := some r.1
      local_mix := s.local_mix
      g := kernel_draw r.2
        { params with background := some r.1, local_key := none, layer_key := none } }
  else if it.transform.is_mix then
    let r := match s.local_mix with
      | some x => (x, s.g)
      | none => create_texture s.g target.width target.height 4 params.transform.use_mipmap
    { local_key := none
      local_mix := some r.1
      g := kernel_draw r.2
        { params with
          background := some r.1, local_key := s.local_key, layer_key := layer_key,
          keyer := .additive } }
  else
    let g1 := draw_buffer target s.local_mix .normal s.g
    { local_key := none
      local_mix := s.local_mix
      g := kernel_draw g1
        { params with
          background := some target, local_key := s.local_key, layer_key := layer_key } }

/-- The loops `for (auto& item : layer.items) draw(...)` (lines 184 and 192). -/
def draw_items (target : texture) (layer_key : Option texture)
    (format_desc : video_format_desc) : List item → locals → locals
  | [], s => s
  | it :: its, s =>
    draw_items target layer_key format_desc its (draw_item target it layer_key format_desc s)

/-- The items of a layer that remain in a field pass (lines 164-172): every field-mode
mask is intersected with the pass, and items whose mask became empty are removed. -/
def visible_items (items : List item) (pass : field_mode) : List item :=
  (items.map fun it =>
    { it with transform := { it.transform with field_mode := it.transform.field_mode.and pass } }
  ).filter fun it => decide (it.transform.field_mode ≠ field_mode.empty)

/-- The overload `draw(target_texture, layer, layer_key_texture, format_desc,
field_mode)` (lines 137-199); it returns the new value of `layer_key_texture`. -/
def draw_layer (target : texture) (l : layer) (layer_key : Option texture)
    (format_desc : video_format_desc) (pass : field_mode) (g : gpu) : Option texture × gpu :=
  let items := visible_items l.items pass
  if items.isEmpty then (layer_key, g)
  else if l.blend_mode ≠ blend_mode.normal then
    let r := create_texture g target.width target.height 4 false
    let s := draw_items r.1 layer_key format_desc items
      { local_key := none, local_mix := none, g := r.2 }
    let g3 := draw_buffer r.1 s.local_mix .normal s.g
    let g4 := draw_buffer target (some r.1) l.blend_mode g3
    (s.local_key, g4)
  else
    let s := draw_items target layer_key format_desc items
      { local_key := none, local_mix := none, g := g }
    let g3 := draw_buffer target s.local_mix .normal s.g
    (s.local_key, g3)

mutual
/-- The loop of the overload `draw(target_texture, layers, format_desc, field_mode)`
(lines 130-134), entered with the current `layer_key_texture`. -/
def draw_loop (target : texture) (format_desc : video_format_desc) (pass : field_mode) :
    List layer → Option texture → gpu → gpu
  | [], _, g => g
  | l :: ls, layer_key, g =>
    let g1 := draw_sublayers target format_desc pass l g
    let r := draw_layer target l layer_key format_desc pass g1
    draw_loop target format_desc pass ls r.1 r.2
/-- The recursive call `draw(target_texture, layer.sublayers, format_desc, field_mode)`,
which starts with a null `layer_key_texture` of its own. -/
def draw_sublayers (target : texture) (format_desc : video_format_desc) (pass : field_mode) :
    layer → gpu → gpu
  | ⟨sublayers, _, _⟩, g => draw_loop target format_desc pass sublayers none g
end

/-- The overload `draw(target_texture, layers, format_desc, field_mode)` (lines
123-135). -/
def draw (target : texture) (layers : List layer) (format_desc : video_format_desc)
    (pass : field_mode) (g : gpu) : gpu :=
  draw_loop target format_desc pass layers none g

/-- The call operator `image_renderer::operator()` (lines 93-119). The task given to
`begin_invoke` runs on the execution context. -/
def render (desc_of : video_format → video_format_desc) (layers : List layer)
    (format_desc : video_format_desc) (straighten_alpha : Bool) (g : gpu) :
    render_result × gpu :=
  if layers.isEmpty then
    (.ready { data := List.replicate (get_max_video_format_size desc_of) 0
              size := format_desc.size
              storage := none }, g)
  else
    let r := create_texture g format_desc.width format_desc.height 4 false
    let g2 :=
      if format_desc.field_mode ≠ field_mode.progressive then
        draw r.1 layers format_desc .lower (draw r.1 layers format_desc .upper r.2)
      else
        draw r.1 layers format_desc .progressive r.2
    (.readback r.1,
      { g2 with calls := g2.calls ++
          [.post_process r.1 straighten_alpha, .attach r.1, .copy_async r.1] })

/-- The kernel draws among a sequence of calls whose background is the texture `t`. -/
def draws_into (t : texture) (calls : List gl_call) : Nat :=
  calls.countP fun c =>
    match c with
    | .draw p => decide (p.background = some t)
    | _ => false

/-- A draw request that samples pending uploads only: the draw of an item, as opposed to
the blend of an off-screen buffer, which samples exactly one buffer. -/
def is_item_draw (p : draw_params) : Bool :=
  p.textures.all fun s =>
    match s with
    | .upload _ => true
    | .buffer _ => false

/-- The item draws among a sequence of calls, in order. -/
def item_draws (calls : List gl_call) : List draw_params :=
  calls.filterMap fun c =>
    match c with
    | .draw p => if is_item_draw p then some p else none
    | _ => none

/-- What a draw request takes over from the item it draws. -/
def item_part (p : draw_params) :
    pixel_format_desc × List texture_source × image_transform × frame_geometry :=
  (p.pix_desc, p.textures, p.transform, p.geometry)

/-- What the draw of an item takes over from it. -/
def drawn_part (it : item) :
    pixel_format_desc × List texture_source × image_transform × frame_geometry :=
  (it.pix_desc, it.textures.map .upload, it.transform, it.geometry)

/-! ### Sample inputs -/

/-- A stand-in for the format table of `core/video_format.cpp` (not under `src/`), used
to evaluate the renderer: every known format is described as a 1920 x 1080 frame of
8294400 bytes. -/
def sample_table (format : video_format) : video_format_desc :=
  { format := format, width := 1920, height := 1080, square_width := 1920,
    square_height := 1080, field_mode := .progressive, time_scale := 25000, duration := 1000,
    field_count := 1, size := 8294400, audio_sample_rate := 48000, audio_cadence := [1920] }

/-- The descriptor of a progressive 1920 x 1080 format. -/
def sample_format : video_format_desc := sample_table .x1080p2500

/-- A format descriptor built for a frame of 10000 x 10000 pixels, 400000000 bytes:
larger than every known format. -/
def oversized_format : video_format_desc :=
  { sample_format with
    format := .invalid, width := 10000, height := 10000, square_width := 10000,
    square_height := 10000, size := 400000000 }

/-- The target of a render, the first texture handed out. -/
def sample_target : texture :=
  { id := 0, width := 1920, height := 1080, stride := 4, mipmapped := false }

/-- A key buffer left over by an earlier sibling layer, the second texture handed out. -/
def sample_layer_key : texture :=
  { id := 1, width := 1920, height := 1080, stride := 1, mipmapped := false }

/-- The device state in which the two textures above have been created. -/
def sample_gpu : gpu :=
  { calls := [.create_texture sample_target true, .create_texture sample_layer_key true]
    created := 2 }

/-- An item with the given flags and field mode, made of one BGRA plane uploaded from
host buffer `buf`. -/
def sample_item (is_key is_mix : Bool) (mode : field_mode) (buf : Nat) : item :=
  { pix_desc := { format := .bgra, planes := [plane.create 1920 1080 4] }
    textures := [{ source := { data := [], size := 8294400, storage := some buf }
                   width := 1920, height := 1080, stride := 4, mipmapped := false }]
    transform := { image_transform.identity with
                   is_key := is_key, is_mix := is_mix, field_mode := mode }
    geometry := frame_geometry.get_default }

/-- A key item `K`. -/
def item_K : item := sample_item true false .progressive 10

/-- A mix item `M`. -/
def item_M : item := sample_item false true .progressive 11

/-- A normal item `N`. -/
def item_N : item := sample_item false false .progressive 12

/-- A normal-blend layer with the items `[K, M, N]`. -/
def layer_KMN : layer :=
  { sublayers := [], items := [item_K, item_M, item_N], blend_mode := .normal }

/-- A layer with a non-default blend mode whose only item is the key item `K`. -/
def layer_blend_K : layer :=
  { sublayers := [], items := [item_K], blend_mode := .other 1 }

/-- The local key buffer the sample layers request: the third texture handed out. -/
def sample_local_key : texture :=
  { id := 2, width := 1920, height := 1080, stride := 1, mipmapped := false }

/-- The local mix buffer `layer_KMN` requests: the fourth texture handed out. -/
def sample_local_mix : texture :=
  { id := 3, width := 1920, height := 1080, stride := 4, mipmapped := false }

/-- The blend of an off-screen buffer onto a background, as `draw_buffer` requests it. -/
def blend_params (source background : texture) (blend : blend_mode) : draw_params :=
  { draw_params.default with
    pix_desc := { format := .bgra, planes := [plane.create source.width source.height 4] }
    textures := [.buffer source]
    blend_mode := blend
    background := some background }

/-- A call of a layer draw that stays off the shared target: a kernel draw whose
background is the off-screen image `image`, or a buffer created from handle number
`first` on for an item with the key or the mix flag; any call that is not a draw. -/
def drawn_off_screen (image : texture) (first : Nat) : gl_call → Bool
  | .draw p =>
    decide (p.background = some image) ||
      (match p.background with
       | some t => decide (first ≤ t.id) && (p.transform.is_key || p.transform.is_mix)
       | none => false)
  | _ => true

/-- The local buffers and the handle counter of a layer draw all date from handle
number `first` on. -/
def locals.since (first : Nat) (s : locals) : Prop :=
  first ≤ s.g.created ∧ (∀ t, s.local_key = some t → first ≤ t.id) ∧
    (∀ t, s.local_mix = some t → first ≤ t.id)

/-- The device state `g1` is the state `g` followed by further calls, each of which
passes the check `ok`. -/
def followed_by (ok : gl_call → Bool) (g g1 : gpu) : Prop :=
  ∃ new, g1.calls = g.calls ++ new ∧ ∀ c ∈ new, ok c = true

mutual
/-- The items a field pass draws for a list of sibling layers, in drawing order: for
each layer the items of its sublayers, then its own visible items. -/
def pass_items (pass : field_mode) : List layer → List item
  | [] => []
  | l :: ls => sublayer_items pass l ++ (visible_items l.items pass ++ pass_items pass ls)
/-- The items a field pass draws for the sublayers of a layer. -/
def sublayer_items (pass : field_mode) : layer → List item
  | ⟨sublayers, _, _⟩ => pass_items pass sublayers
end

/-- A call a recursive draw can issue: a texture request or a kernel draw. -/
def is_create_or_draw : gl_call → Bool
  | .create_texture _ _ => true
  | .draw _ => true
  | _ => false

/-- The target `operator()` requests for a format: the next texture handed out, with
four channels, the width and height of the format and no mipmaps. -/
def render_target (format_desc : video_format_desc) (g : gpu) : texture :=
  { id := g.created, width := format_desc.width, height := format_desc.height, stride := 4,
    mipmapped := false }

/-- An interlaced variant of `sample_format` that declares the lower field first. -/
def lower_first_format : video_format_desc :=
  { sample_format with format := .x1080i5000, field_mode := .lower, field_count := 2 }

/-- An item that is visible in the upper field only. -/
def item_upper : item := sample_item false false .upper 13

/-- An item that is visible in the lower field only. -/
def item_lower : item := sample_item false false .lower 14

/-- A tree of one root layer that holds two items, the first lower-only and the second
upper-only. -/
def field_layers : List layer :=
  [{ sublayers := [], items := [item_lower, item_upper], blend_mode := .normal }]

/-- The field-mode mask of an item intersected with the field mode of a pass
(line 166). -/
def masked (pass : field_mode) (it : item) : item :=
  { it with transform := { it.transform with field_mode := it.transform.field_mode.and pass } }

/-- A tree with a root layer `A` that holds item 21 and has a sublayer `B` with item 22,
followed by a root layer `C` with item 23. -/
def nested_layers : List layer :=
  [{ sublayers := [{ sublayers := [], items := [sample_item false false .progressive 22],
                     blend_mode := .normal }]
     items := [sample_item false false .progressive 21]
     blend_mode := .normal },
   { sublayers := [], items := [sample_item false false .progressive 23],
     blend_mode := .normal }]

/-- A layer draw hands the carried layer key to its items: a kernel draw for an item
has no layer key when the item has the key flag and the layer key `layer_key`
otherwise. Blends of off-screen buffers and other calls are not concerned. -/
def keyed_by (layer_key : Option texture) : gl_call → Bool
  | .draw p =>
    !is_item_draw p ||
      decide (p.layer_key = if p.transform.is_key then none else layer_key)
  | _ => true

/-- A normal-blend layer whose only item is the key item `K`. -/
def layer_K : layer := { sublayers := [], items := [item_K], blend_mode := .normal }

/-- A normal-blend layer whose only item is the normal item `N`. -/
def layer_N : layer := { sublayers := [], items := [item_N], blend_mode := .normal }

/-- A normal-blend layer whose only item is another normal item. -/
def layer_N2 : layer :=
  { sublayers := [], items := [sample_item false false .progressive 15], blend_mode := .normal }

/-- A normal-blend layer whose only item is visible in the upper field only. -/
def layer_upper : layer := { sublayers := [], items := [item_upper], blend_mode := .normal }

/-- A second normal item `N2`. -/
def item_N2 : item := sample_item false false .progressive 15

/-- A normal-blend layer with the items `[M, N, N2]`: a mix item followed by two normal
items. -/
def layer_MNN : layer :=
  { sublayers := [], items := [item_M, item_N, item_N2], blend_mode := .normal }

/-- The local mix buffer `layer_MNN` requests: the third texture handed out. -/
def sample_mix_only : texture :=
  { id := 2, width := 1920, height := 1080, stride := 4, mipmapped := false }

/-- The number of blends of the buffer `source` onto `background` with the normal blend
mode among a sequence of calls. -/
def mix_flushes (source background : texture) (calls : List gl_call) : Nat :=
  calls.count (.draw (blend_params source background .normal))

/-- The check C25 makes on a call: a kernel draw for a request with the key flag has a
one-channel background of the given width and height and neither a local key nor a
layer key. -/
def key_draw_ok (width height : Int) : gl_call → Bool
  | .draw p =>
    !p.transform.is_key ||
      ((match p.background with
        | some t => decide (t.stride = 1 ∧ t.width = width ∧ t.height = height)
        | none => false) &&
        decide (p.local_key = none) && decide (p.layer_key = none))
  | _ => true

/-- A pending local key buffer is a one-channel texture of the given width and
height. -/
def key_shaped (width height : Int) (s : locals) : Prop :=
  ∀ k, s.local_key = some k → k.stride = 1 ∧ k.width = width ∧ k.height = height

/-- A second key item `K2`. -/
def item_K2 : item := sample_item true false .progressive 16

/-- A normal-blend layer with the items `[K, K2]`, both key items. -/
def layer_KK : layer :=
  { sublayers := [], items := [item_K, item_K2], blend_mode := .normal }

/-- An item with both the key flag and the mix flag. -/
def item_KM : item := sample_item true true .progressive 17

/-- Locals of a layer draw in which both a local key buffer and a local mix buffer are
pending. -/
def both_pending : locals :=
  { local_key := some sample_local_key
    local_mix := some sample_local_mix
    g :=
      { calls := sample_gpu.calls ++
          [.create_texture sample_local_key true, .create_texture sample_local_mix true]
        created := 4 } }

/-- A tree of one root layer that holds a progressive item, an upper-only item and a
lower-only item, in this order. -/
def mixed_field_layers : List layer :=
  [{ sublayers := [], items := [item_N, item_upper, item_lower], blend_mode := .normal }]

end image_renderer

/-! ## `device.cpp`: pools and the upload cache -/

/-- The enumeration `buffer::usage` of `buffer.h`: `write_only = 0`, `read_only = 1`. -/
inductive usage where
  | write_only
  | read_only
  deriving DecidableEq, Repr

/-- The underlying integer `static_cast<int>(usage)`. -/
def usage.index : usage → Nat
  | .write_only => 0
  | .read_only => 1

/-- A host buffer object `buffer(size, usage)`; `id` is its identity (the pointer the
upload cache is keyed by). -/
structure buffer where
  id : Nat
  size : Nat
  usage : usage
  deriving DecidableEq, Repr

/-- The handle `create_texture` returns: the texture and the pool bucket its deleter
pushes the texture back to. -/
structure texture_handle where
  tex : texture
  pool_index : Nat
  pool_key : Nat
  deriving DecidableEq, Repr

/-- What the device does that is visible from outside: requests served by
`create_texture` (with `fresh` when a new texture was allocated rather than popped from
its pool), clears, host-to-GPU uploads `texture::copy_from(buffer)`, host buffer allocations, and
GPU-to-host transfers `texture::copy_to(buffer)`. -/
inductive device_event where
  | create_texture (h : texture_handle) (fresh : Bool)
  | clear (t : texture)
  | copy_from (t : texture) (buf : Nat)
  | allocate_buffer (b : buffer)
  | copy_to (t : texture) (buf : Nat)
  deriving DecidableEq, Repr

/-- Conversion of an `int` to a 32-bit `unsigned`. -/
def u32 (x : Int) : Nat := (x % 4294967296).toNat

/-- The key of an image pool bucket (line 311):
`((width << 16) & 0xFFFF0000) | (height & 0x0000FFFF)`, computed on 32-bit integers. -/
def pool_key (width height : Int) : Nat :=
  (u32 (width * 65536) &&& 0xFFFF0000) ||| (u32 height &&& 0x0000FFFF)

/-- The index of an image pool (line 311): `stride - 1 + (mipmapped ? 4 : 0)`. -/
def pool_index (stride : Int) (mipmapped : Bool) : Int :=
  stride - 1 + (if mipmapped then 4 else 0)

namespace device

/-- The state of `device::impl`: the upload cache keyed by buffer identity, the eight
image pools and the two host pools (a bucket is a queue whose head is its front; a
bucket that was never touched is empty), and what the device has done so far: the
number of texture and buffer objects allocated and the visible events in order. -/
structure impl where
  texture_cache_ : Nat → Option texture_handle
  device_pools_ : Nat → Nat → List texture
  host_pools_ : Nat → Nat → List buffer
  textures_allocated : Nat
  buffers_allocated : Nat
  events : List device_event

/-- A device right after construction: empty cache, empty pools, nothing allocated. -/
def fresh : impl :=
  { texture_cache_ := fun _ => none
    device_pools_ := fun _ _ => []
    host_pools_ := fun _ _ => []
    textures_allocated := 0
    buffers_allocated := 0
    events := [] }

/-- Replace the bucket `(index, key)` of a family of pools. -/
def set_bucket {α : Type} (pools : Nat → Nat → List α) (index key : Nat) (bucket : List α) :
    Nat → Nat → List α :=
  fun i k => if i = index ∧ k = key then bucket else pools i k

/-- The method `impl::create_texture` (lines 303-324), called from a thread for which
`executor_.is_current()` is `is_current`. `CASPAR_VERIFY` (`common/assert.h`, not under
`src/`) logs a failed check and continues, and the constructor of `texture`
(`texture.cpp`, not under `src/`) is taken to succeed. An index outside the array of
eight pools is undefined behaviour. -/
def create_texture (d : impl) (is_current : Bool) (width height stride : Int)
    (mipmapped clear : Bool) : outcome texture_handle × impl :=
  if !is_current then (.thrown .invalid_operation, d)
  else if pool_index stride mipmapped < 0 ∨ 8 ≤ pool_index stride mipmapped then
    (.undefined, d)
  else
    let index := (pool_index stride mipmapped).toNat
    let key := pool_key width height
    let r : texture × Bool × impl :=
      match d.device_pools_ index key with
      | tex :: rest =>
        (tex, false, { d with device_pools_ := set_bucket d.device_pools_ index key rest })
      | [] =>
        ({ id := d.textures_allocated, width := width, height := height, stride := stride,
           mipmapped := mipmapped },
          true, { d with textures_allocated := d.textures_allocated + 1 })
    let h : texture_handle := { tex := r.1, pool_index := index, pool_key := key }
    let d0 := r.2.2
    let d1 := { d0 with events := d0.events ++ [.create_texture h r.2.1] }
    (.ok h, if clear then { d1 with events := d1.events ++ [.clear r.1] } else d1)

/-- The deleter of a texture handle (lines 320-323): `pool->push(tex)`. -/
def release_texture (d : impl) (h : texture_handle) : impl :=
  { d with
    device_pools_ :=
      set_bucket d.device_pools_ h.pool_index h.pool_key
        (d.device_pools_ h.pool_index h.pool_key ++ [h.tex]) }

/-- The method `device::create_texture` (line 489): `impl::create_texture` with
`clear = true`. -/
def create_cleared_texture (d : impl) (is_current : Bool) (width height stride : Int)
    (mipmapped : Bool) : outcome texture_handle × impl :=
  create_texture d is_current width height stride mipmapped true

/-- The method `impl::create_buffer` (lines 326-371) up to the returned handle: pop an
idle buffer of that size and usage, or allocate one on the executor. -/
def create_buffer (d : impl) (size : Nat) (u : usage) : buffer × impl :=
  match d.host_pools_ u.index size with
  | buf :: rest => (buf, { d with host_pools_ := set_bucket d.host_pools_ u.index size rest })
  | [] =>
    let buf : buffer := { id := d.buffers_allocated, size := size, usage := u }
    (buf,
      { d with
        buffers_allocated := d.buffers_allocated + 1
        events := d.events ++ [.allocate_buffer buf] })

/-- The deleter of a host buffer handle while the device is alive (lines 350-365): erase
the upload-cache entry keyed by the buffer, then push the buffer back to its pool. The
erased entry drops the handle the cache held of its texture. When that was the last
handle of the texture, its deleter runs; this is the separate step `release_texture`,
so the image pools are not changed here. -/
def release_buffer (d : impl) (buf : buffer) : impl :=
  { d with
    texture_cache_ := fun b => if b = buf.id then none else d.texture_cache_ b
    host_pools_ :=
      set_bucket d.host_pools_ buf.usage.index buf.size
        (d.host_pools_ buf.usage.index buf.size ++ [buf]) }

/-- The method `impl::copy_to_buf` (lines 379-397): the host buffer that backs the
source when there is one, else a pooled write-only buffer the bytes are copied into.
The second component is that temporary buffer, whose handle the upload task owns. -/
def copy_to_buf (d : impl) (source : array) : Nat × Option buffer × impl :=
  match source.storage with
  | some b => (b, none, d)
  | none =>
    let r := create_buffer d source.size .write_only
    (r.1.id, some r.1, r.2)

/-- The task `copy_async` submits to the executor (lines 405-418), run on the execution
context: return the cached texture of the buffer, or create a texture, upload the
buffer into it and cache it. -/
def upload_task (d : impl) (buf : Nat) (width height stride : Int) (mipmapped : Bool) :
    outcome texture_handle × impl :=
  match d.texture_cache_ buf with
  | some h => (.ok h, d)
  | none =>
    match create_texture d true width height stride mipmapped false with
    | (.ok h, d1) =>
      (.ok h,
        { d1 with
          events := d1.events ++ [.copy_from h.tex buf]
          texture_cache_ := fun b => if b = buf then some h else d1.texture_cache_ b })
    | (.thrown e, d1) => (.thrown e, d1)
    | (.undefined, d1) => (.undefined, d1)

/-- The method `impl::copy_async(const array<const std::uint8_t>&, ...)` (lines 400-419)
together with the completion of its task: a temporary buffer made by `copy_to_buf` is
released when the task, its last owner, is done. -/
def copy_async (d : impl) (source : array) (width height stride : Int) (mipmapped : Bool) :
    outcome texture_handle × impl :=
  let b := copy_to_buf d source
  let r := upload_task b.2.2 b.1 width height stride mipmapped
  match b.2.1 with
  | none => r
  | some temp => (r.1, release_buffer r.2 temp)

/-- The task the overload `copy_async(const array<std::uint8_t>&, ...)` submits to the
executor (lines 426-432), run on the execution context: create a texture and upload the
buffer into it, without a look at the upload cache. -/
def upload_task_mutable (d : impl) (buf : Nat) (width height stride : Int)
    (mipmapped : Bool) : outcome texture_handle × impl :=
  match create_texture d true width height stride mipmapped false with
  | (.ok h, d1) => (.ok h, { d1 with events := d1.events ++ [.copy_from h.tex buf] })
  | (.thrown e, d1) => (.thrown e, d1)
  | (.undefined, d1) => (.undefined, d1)

/-- The method `impl::copy_async(const array<std::uint8_t>&, ...)` (lines 421-434) together
with the completion of its task: a temporary buffer made by `copy_to_buf` is released
when the task is done. -/
def copy_async_mutable (d : impl) (source : array) (width height stride : Int)
    (mipmapped : Bool) : outcome texture_handle × impl :=
  let b := copy_to_buf d source
  let r := upload_task_mutable b.2.2 b.1 width height stride mipmapped
  match b.2.1 with
  | none => r
  | some temp => (r.1, release_buffer r.2 temp)

/-- The method `impl::gc` (lines 458-483) together with the completion of its task:
`clear()` on the queue of every bucket of every image pool and of every host pool. The
buckets stay in their maps, so the bucket a handle points to is still there. -/
def gc (d : impl) : impl :=
  { d with
    device_pools_ := fun _ _ => []
    host_pools_ := fun _ _ => [] }

/-- A device together with the host buffers whose handles are held outside it: by a
caller, by the array that wraps the buffer, or by an upload task. -/
structure system where
  d : impl
  leased : List buffer

/-- A device right after construction, with no buffer handed out. -/
def start : system :=
  { d := fresh, leased := [] }

/-- The calls of the host buffer protocol: `create_buffer`, the release of the last
handle of a buffer, and the two upload overloads of `copy_async`. -/
inductive action where
  | create_buffer (size : Nat) (u : usage)
  | release (buf : buffer)
  | upload (source : array) (width height stride : Int) (mipmapped : Bool)
  | upload_mutable (source : array) (width height stride : Int) (mipmapped : Bool)

/-- The storage of an array is a buffer the caller holds, or the array has none. -/
def held (s : system) (source : array) : Bool :=
  match source.storage with
  | none => true
  | some n => s.leased.any fun b => b.id == n

/-- One call on the system. The result is `none` for a call that cannot be made (the
release of a buffer nobody holds, an upload from an array whose buffer nobody holds) and
for a call whose behaviour is undefined. -/
def apply : action → system → Option system
  | .create_buffer size u, s =>
    let r := device.create_buffer s.d size u
    some { d := r.2, leased := s.leased ++ [r.1] }
  | .release buf, s =>
    if buf ∈ s.leased then some { d := release_buffer s.d buf, leased := s.leased.erase buf }
    else none
  | .upload source width height stride mipmapped, s =>
    if held s source then
      match copy_async s.d source width height stride mipmapped with
      | (.undefined, _) => none
      | (_, d1) => some { d := d1, leased := s.leased }
    else none
  | .upload_mutable source width height stride mipmapped, s =>
    if held s source then
      match copy_async_mutable s.d source width height stride mipmapped with
      | (.undefined, _) => none
      | (_, d1) => some { d := d1, leased := s.leased }
    else none

/-- A sequence of calls from a state; the sequence ends at the first call that cannot be
made or is undefined. -/
def run : List action → system → system
  | [], s => s
  | a :: rest, s =>
    match apply a s with
    | some s1 => run rest s1
    | none => s

/-- The invariant of the host buffer protocol: every key of the upload cache is a buffer
held outside the device; idle and held buffers are known to the device and pairwise
different objects. -/
structure host_invariant (s : system) : Prop where
  cached_held : ∀ n, s.d.texture_cache_ n ≠ none → ∃ b ∈ s.leased, b.id = n
  idle_not_held : ∀ i k b, b ∈ s.d.host_pools_ i k → ∀ l ∈ s.leased, l.id ≠ b.id
  idle_known : ∀ i k b, b ∈ s.d.host_pools_ i k → b.id < s.d.buffers_allocated
  held_known : ∀ l ∈ s.leased, l.id < s.d.buffers_allocated
  idle_distinct : ∀ i k, ((s.d.host_pools_ i k).map buffer.id).Nodup
  idle_one_bucket : ∀ i k i1 k1 b b1, b ∈ s.d.host_pools_ i k → b1 ∈ s.d.host_pools_ i1 k1 →
    b.id = b1.id → i = i1 ∧ k = k1
  held_distinct : (s.leased.map buffer.id).Nodup

/-- Request a 16-byte write-only buffer, upload a 2 x 2 image from it, and release it. -/
def recycle_calls : List action :=
  [ .create_buffer 16 .write_only,
    .upload { data := List.replicate 16 255, size := 16, storage := some 0 } 2 2 4 false,
    .release { id := 0, size := 16, usage := .write_only } ]

/-- The method `impl::copy_async(const spl::shared_ptr<texture>&)` (lines 436-456) up to
the returned deferred future, called from a thread for which `executor_.is_current()` is
`is_current`: obtain a read-only host buffer of `size` bytes and start the transfer of
the texture into it. `size` is the value of `source->size()` (`texture.cpp`, not under
`src/`). The result is the buffer the deferred command will map and wrap. -/
def copy_async_texture (d : impl) (is_current : Bool) (source : texture) (size : Nat) :
    outcome buffer × impl :=
  if !is_current then (.thrown .invalid_operation, d)
  else
    let r := create_buffer d size .read_only
    (.ok r.1, { r.2 with events := r.2.events ++ [.copy_to source r.1.id] })

/-- Request a texture of one shape `n` times on the execution context, releasing each
handle before the next request; the textures returned, in order, and the final state.
A request that fails ends the sequence. -/
def request_release (width height stride : Int) (mipmapped : Bool) :
    Nat → impl → List texture × impl
  | 0, d => ([], d)
  | n + 1, d =>
    match create_cleared_texture d true width height stride mipmapped with
    | (.ok h, d1) =>
      let r := request_release width height stride mipmapped n (release_texture d1 h)
      (h.tex :: r.1, r.2)
    | (_, d1) => ([], d1)

/-- The number of texture allocations among device events. -/
def allocations (events : List device_event) : Nat :=
  events.countP fun e =>
    match e with
    | .create_texture _ fresh => fresh
    | _ => false

/-- The number of `create_texture` requests served among device events. -/
def creations (events : List device_event) : Nat :=
  events.countP fun e =>
    match e with
    | .create_texture _ _ => true
    | _ => false

/-- The number of host-to-GPU uploads among device events. -/
def uploads (events : List device_event) : Nat :=
  events.countP fun e =>
    match e with
    | .copy_from _ _ => true
    | _ => false

/-- The shapes whose width and height each fit 16 bits, with one to four planes. -/
def in_range (width height stride : Int) : Prop :=
  0 < width ∧ width < 65536 ∧ 0 < height ∧ height < 65536 ∧ 0 < stride ∧ stride < 5

instance (width height stride : Int) : Decidable (in_range width height stride) := by
  unfold in_range
  exact inferInstance

/-- Every idle texture lies in the bucket its own shape selects, and that shape is in
range. -/
def exact_pools (d : impl) : Prop :=
  ∀ (i k : Nat) (t : texture), t ∈ d.device_pools_ i k →
    in_range t.width t.height t.stride ∧
    i = (pool_index t.stride t.mipmapped).toNat ∧ k = pool_key t.width t.height

/-- The handle returns its texture to the bucket the shape of the texture selects, and
that shape is in range. -/
def exact_handle (h : texture_handle) : Prop :=
  in_range h.tex.width h.tex.height h.tex.stride ∧
  h.pool_index = (pool_index h.tex.stride h.tex.mipmapped).toNat ∧
  h.pool_key = pool_key h.tex.width h.tex.height

/-! ### Sample inputs -/

/-- The handle of the first 1920 x 1080 four-channel texture a fresh device allocates. -/
def handle_a : texture_handle :=
  { tex := { id := 0, width := 1920, height := 1080, stride := 4, mipmapped := false }
    pool_index := 3
    pool_key := pool_key 1920 1080 }

/-- The handle of the second texture of that shape the device allocates. -/
def handle_b : texture_handle :=
  { tex := { id := 1, width := 1920, height := 1080, stride := 4, mipmapped := false }
    pool_index := 3
    pool_key := pool_key 1920 1080 }

/-- A fresh device after one request for a 1920 x 1080 four-channel texture. -/
def one_leased : impl :=
  (create_cleared_texture fresh true 1920 1080 4 false).2

/-- The device after a second request of the same shape while the first is leased. -/
def two_leased : impl :=
  (create_cleared_texture one_leased true 1920 1080 4 false).2

/-- The device after both handles have been released, first `handle_a`, then
`handle_b`: the bucket of the shape holds two idle textures. -/
def two_idle : impl :=
  release_texture (release_texture two_leased handle_a) handle_b

/-- A 2 x 2 single-plane image of 16 bytes held in host buffer 5. -/
def source_five : array :=
  { data := List.replicate 16 255, size := 16, storage := some 5 }

/-- A fresh device after `source_five` has been uploaded once. -/
def uploaded_once : impl :=
  (copy_async fresh source_five 2 2 4 false).2

/-- The handle of the 2 x 2 four-channel texture a fresh device allocates for the upload
of `source_five`. -/
def handle_five : texture_handle :=
  { tex := { id := 0, width := 2, height := 2, stride := 4, mipmapped := false }
    pool_index := 3
    pool_key := pool_key 2 2 }

/-- The exclusive-lease invariant of one family of pools: `ident` names a resource,
`pools` are the idle queues, `held` lists the names of the resources whose handle is
live, and `allocated` counts the resources made so far. No idle resource is held, no
resource is idle twice (in one bucket or in two), no resource is held twice, and all
are known to the device. -/
structure pool_invariant {α : Type} (ident : α → Nat) (pools : Nat → Nat → List α)
    (held : List Nat) (allocated : Nat) : Prop where
  idle_not_held : ∀ i k t, t ∈ pools i k → ident t ∉ held
  idle_known : ∀ i k t, t ∈ pools i k → ident t < allocated
  held_known : ∀ n ∈ held, n < allocated
  idle_distinct : ∀ i k, ((pools i k).map ident).Nodup
  idle_one_bucket : ∀ i k i1 k1 t t1, t ∈ pools i k → t1 ∈ pools i1 k1 →
    ident t = ident t1 → i = i1 ∧ k = k1
  held_distinct : held.Nodup

/-- A device together with the texture handles and host buffer handles that are live:
handed out by `create_texture` or `create_buffer` and not yet released. -/
structure leases where
  d : impl
  textures : List texture_handle
  buffers : List buffer

/-- A new device with no live handle. -/
def no_leases : leases :=
  { d := fresh, textures := [], buffers := [] }

/-- The calls of the lease protocol: the two requests and the release of a live
handle. -/
inductive lease_action where
  | create_texture (is_current : Bool) (width height stride : Int) (mipmapped clear : Bool)
  | create_buffer (size : Nat) (u : usage)
  | release_texture (h : texture_handle)
  | release_buffer (buf : buffer)

/-- One call of the lease protocol. The result is `none` for the release of a handle
that is not live and for a request whose behaviour is undefined. A request that throws
hands out nothing. -/
def lease_step : lease_action → leases → Option leases
  | .create_texture is_current width height stride mipmapped clear, s =>
    match create_texture s.d is_current width height stride mipmapped clear with
    | (.ok h, d1) => some { d := d1, textures := s.textures ++ [h], buffers := s.buffers }
    | (.thrown _, d1) => some { d := d1, textures := s.textures, buffers := s.buffers }
    | (.undefined, _) => none
  | .create_buffer size u, s =>
    let r := create_buffer s.d size u
    some { d := r.2, textures := s.textures, buffers := s.buffers ++ [r.1] }
  | .release_texture h, s =>
    if h ∈ s.textures then
      some { d := release_texture s.d h, textures := s.textures.erase h, buffers := s.buffers }
    else none
  | .release_buffer buf, s =>
    if buf ∈ s.buffers then
      some { d := release_buffer s.d buf, textures := s.textures, buffers := s.buffers.erase buf }
    else none

/-- A sequence of calls of the lease protocol; it ends at the first call that cannot be
made or is undefined. -/
def lease_run : List lease_action → leases → leases
  | [], s => s
  | a :: rest, s =>
    match lease_step a s with
    | some s1 => lease_run rest s1
    | none => s

/-- The exclusive-lease invariant of a device with its live handles, for the image
pools and for the host pools. -/
def exclusive (s : leases) : Prop :=
  pool_invariant texture.id s.d.device_pools_ (s.textures.map fun h => h.tex.id)
      s.d.textures_allocated ∧
    pool_invariant buffer.id s.d.host_pools_ (s.buffers.map buffer.id) s.d.buffers_allocated

/-- Request a 1920 x 1080 texture, release it, request the shape twice more, and request
a 16-byte buffer: the first of the two later requests recycles the texture, the second
allocates another. -/
def lease_calls : List lease_action :=
  [ .create_texture true 1920 1080 4 false true,
    .release_texture handle_a,
    .create_texture true 1920 1080 4 false true,
    .create_texture true 1920 1080 4 false true,
    .create_buffer 16 .write_only ]

/-- Conversion of an `int` to `std::size_t` (64 bits). -/
def size_t (x : Int) : Nat := (x % 18446744073709551616).toNat

/-- A writable byte array `array<std::uint8_t>(buf->data(), buf->size(), false, buf)`:
the size it reports and the host buffer that backs it and that it keeps alive. The
bytes are those of the buffer. -/
structure mutable_array where
  size : Nat
  storage : buffer
  deriving DecidableEq, Repr

/-- The method `device::create_array(int size)` (line 490) with `impl::create_array`
(lines 373-377): the size is converted to `std::size_t`, a write-only host buffer of
that size is obtained from `create_buffer` and wrapped as an array. -/
def create_array (d : impl) (size : Int) : mutable_array × impl :=
  let r := create_buffer d (size_t size) .write_only
  ({ size := r.1.size, storage := r.1 }, r.2)

/-- Every idle host buffer lies in the bucket of its own usage and size. -/
def exact_host_pools (d : impl) : Prop :=
  ∀ (i k : Nat) (b : buffer), b ∈ d.host_pools_ i k → b.usage.index = i ∧ b.size = k

end device

/-! ## `image_mixer.cpp`: rendering and frame allocation of the mixer -/

namespace image_mixer

/-- The method `impl::render` (lines 340-343): `renderer_(std::move(layers_), ...)`. The
by-value parameter of the renderer is move-constructed from `layers_`, which leaves
`layers_` empty; the stacks are not touched. The result and the device state are those of
`image_renderer::operator()` on the layers handed over. -/
def render (desc_of : video_format → video_format_desc) (m : impl)
    (format_desc : video_format_desc) (straighten_alpha : Bool) (g : gpu) :
    (render_result × gpu) × impl :=
  (image_renderer.render desc_of m.layers_ format_desc straighten_alpha g,
    { m with layers_ := [] })

mutual
/-- All items held in a sequence of layers, sublayers included. -/
def tree_items : List layer → List item
  | [] => []
  | l :: ls => layer_items l ++ tree_items ls
/-- All items held in a layer, sublayers included. -/
def layer_items : layer → List item
  | ⟨sublayers, items, _⟩ => tree_items sublayers ++ items
end

/-- The frames visited by a sequence of calls. -/
def visited : List call → List const_frame
  | [] => []
  | .visit f :: cs => f :: visited cs
  | _ :: cs => visited cs

/-- The mixer state after the calls `sample_calls` on a fresh mixer: one root layer
holding two items, both stacks back at the root. -/
def after_tick : impl :=
  (run image_transform.mul fresh sample_calls).2

/-- The item `x` is one that `visit(f)` builds: it has the pixel description and the
geometry of the frame and the uploads of its planes. -/
def made_from (f : const_frame) (x : item) : Prop :=
  x.pix_desc = f.pixel_format_desc ∧ x.geometry = f.geometry ∧
    x.textures = plane_uploads f x.transform.use_mipmap f.pixel_format_desc.planes

/-- Modelled from the spec: `core::mutable_frame` of `core/frame/frame.h`, which is not
under `src/`: the value object built by
`mutable_frame(buffers, audio, tag, desc, channel_layout)`, with the tag pointer and the
channel layout kept as numbers and the audio buffer, which is empty here, left out. -/
structure mutable_frame where
  buffers : List device.mutable_array
  tag : Nat
  desc : pixel_format_desc
  channel_layout : Nat
  deriving DecidableEq, Repr

/-- The loop of `create_frame` (lines 347-349): one `ogl_->create_array(plane.size)` per
plane, in plane order. -/
def create_arrays : device.impl → List plane → List device.mutable_array × device.impl
  | d, [] => ([], d)
  | d, p :: ps =>
    let r := device.create_array d p.size
    let rs := create_arrays r.2 ps
    (r.1 :: rs.1, rs.2)

/-- The method `impl::create_frame` (lines 345-352), acting on the device `ogl_`. -/
def create_frame (ogl : device.impl) (tag : Nat) (desc : pixel_format_desc)
    (channel_layout : Nat) : mutable_frame × device.impl :=
  let r := create_arrays ogl desc.planes
  ({ buffers := r.1, tag := tag, desc := desc, channel_layout := channel_layout }, r.2)

/-- The pixel description of a planar frame with a 4 x 4 plane and two 2 x 2 planes of
one byte per pixel. -/
def planar_desc : pixel_format_desc :=
  { format := .ycbcr, planes := [plane.create 4 4 1, plane.create 2 2 1, plane.create 2 2 1] }

/-- The layer stack `stack` lies on the rightmost spine of the layers `ls`, whose own
path is `base`: its first entry points to the last layer of `ls`, and the entries after
it lie on the rightmost spine of the sublayers of that layer. -/
def on_spine : List layer → List Nat → List (Option (List Nat)) → Bool
  | _, _, [] => true
  | ls, base, e :: rest =>
    match ls.getLast? with
    | none => false
    | some l =>
      decide (e = some (base ++ [ls.length - 1])) &&
        on_spine l.sublayers (base ++ [ls.length - 1]) rest

/-- A call sequence run against a transform stack in which every push composes to the
layer depth of the current top or to one more. -/
def steady (mul : image_transform → image_transform → image_transform) :
    List image_transform → List call → Bool
  | _, [] => true
  | ts, .push t :: cs =>
    match ts.getLast? with
    | none => false
    | some top =>
      (decide ((mul top t.image_transform).layer_depth = top.layer_depth) ||
        decide ((mul top t.image_transform).layer_depth = top.layer_depth + 1)) &&
      steady mul (ts ++ [mul top t.image_transform]) cs
  | ts, .visit _ :: cs => steady mul ts cs
  | ts, .pop :: cs => steady mul ts.dropLast cs

/-- Enter a layer, visit a frame, and enter a sublayer of that layer. -/
def nesting_calls : List call :=
  [.push enter_layer, .visit sample_frame, .push enter_layer]

/-- A pixel description with one plane of negative size, the plane `plane(-1, 1, 1)`. -/
def negative_desc : pixel_format_desc :=
  { format := .gray, planes := [plane.create (-1) 1 1] }

end image_mixer
/-! ## Pointer paths into the layer tree -/

theorem modify_at_of_layer_at (f : layer → layer) (p : List Nat) :
    ∀ (ls : List layer) (l : layer), layer_at ls p = some l →
      ∃ ls1, modify_at f ls p = some ls1 := by
  induction p with
  | nil => intro ls l h; simp [layer_at] at h
  | cons i p ih =>
    intro ls l h
    rw [layer_at] at h
    rw [modify_at]
    cases hg : ls.get? i with
    | none => rw [hg] at h; simp at h
    | some l0 =>
      rw [hg] at h
      simp only at h ⊢
      by_cases hp : p = []
      · simp [hp]
      · simp only [hp, if_false] at h ⊢
        obtain ⟨subs, hs⟩ := ih _ _ h
        exact ⟨_, by rw [hs]⟩

theorem layer_at_modify_at (f : layer → layer) (p : List Nat) :
    ∀ (ls ls1 : List layer) (l : layer), layer_at ls p = some l →
      modify_at f ls p = some ls1 → layer_at ls1 p = some (f l) := by
  induction p with
  | nil => intro ls ls1 l h; simp [layer_at] at h
  | cons i p ih =>
    intro ls ls1 l h hm
    rw [layer_at] at h
    rw [modify_at] at hm
    cases hg : ls.get? i with
    | none => rw [hg] at h; simp at h
    | some l0 =>
      rw [hg] at h hm
      simp only at h hm
      have hi : i < ls.length := by
        rcases Nat.lt_or_ge i ls.length with h1 | h1
        · exact h1
        · rw [List.get?_eq_none.mpr h1] at hg; simp at hg
      by_cases hp : p = []
      · simp only [hp, if_true, Option.some.injEq] at h hm
        subst h hm
        rw [layer_at]
        simp [hp, hi]
      · simp only [hp, if_false] at h hm
        cases hs : modify_at f l0.sublayers p with
        | none => rw [hs] at hm; simp at hm
        | some subs =>
          rw [hs] at hm
          simp only [Option.some.injEq] at hm
          subst hm
          rw [layer_at]
          simp only [List.get?_eq_getElem?, List.getElem?_set_self hi, hp, if_false]
          exact ih _ _ _ h hs


theorem get_lt_of_some (ls : List layer) (i : Nat) (l : layer) (h : ls.get? i = some l) :
    i < ls.length := by
  rcases Nat.lt_or_ge i ls.length with h1 | h1
  · exact h1
  · rw [List.get?_eq_none.mpr h1] at h; simp at h

theorem layer_at_append (ys : List layer) (q : List Nat) (xs : List layer) (l : layer)
    (h : layer_at xs q = some l) : layer_at (xs ++ ys) q = some l := by
  cases q with
  | nil => simp [layer_at] at h
  | cons j q =>
    rw [layer_at] at h ⊢
    cases hg : xs.get? j with
    | none => rw [hg] at h; simp at h
    | some l0 =>
      have hj := get_lt_of_some _ _ _ hg
      rw [hg] at h
      have : (xs ++ ys).get? j = some l0 := by
        rw [List.get?_eq_getElem?] at hg ⊢
        rw [List.getElem?_append_left hj]; exact hg
      rw [this]
      exact h

theorem layer_at_valid_modify (f : layer → layer)
    (hf : ∀ l, ∃ extra, (f l).sublayers = l.sublayers ++ extra) (p : List Nat) :
    ∀ (ls ls1 : List layer), modify_at f ls p = some ls1 →
      ∀ (q : List Nat) (l : layer), layer_at ls q = some l → ∃ l1, layer_at ls1 q = some l1 := by
  induction p with
  | nil => intro ls ls1 h; simp [modify_at] at h
  | cons i p ih =>
    intro ls ls1 hm q l hq
    rw [modify_at] at hm
    cases hg : ls.get? i with
    | none => rw [hg] at hm; simp at hm
    | some l0 =>
      have hi := get_lt_of_some _ _ _ hg
      rw [hg] at hm
      simp only at hm
      cases q with
      | nil => simp [layer_at] at hq
      | cons j q =>
        rw [layer_at] at hq ⊢
        by_cases hji : j = i
        · subst hji
          rw [hg] at hq
          simp only at hq
          by_cases hp : p = []
          · simp only [hp, if_true, Option.some.injEq] at hm
            subst hm
            simp only [List.get?_eq_getElem?, List.getElem?_set_self hi]
            by_cases hq0 : q = []
            · simp [hq0]
            · simp only [hq0, if_false] at hq ⊢
              obtain ⟨extra, he⟩ := hf l0
              rw [he]
              exact ⟨l, layer_at_append _ _ _ _ hq⟩
          · simp only [hp, if_false] at hm
            cases hs : modify_at f l0.sublayers p with
            | none => rw [hs] at hm; simp at hm
            | some subs =>
              rw [hs] at hm
              simp only [Option.some.injEq] at hm
              subst hm
              simp only [List.get?_eq_getElem?, List.getElem?_set_self hi]
              by_cases hq0 : q = []
              · simp [hq0]
              · simp only [hq0, if_false] at hq ⊢
                exact ih _ _ hs q l hq
        · have hset : ∀ x, (ls.set i x).get? j = ls.get? j := by
            intro x
            simp only [List.get?_eq_getElem?]
            exact List.getElem?_set_ne (fun h => hji h.symm)
          by_cases hp : p = []
          · simp only [hp, if_true, Option.some.injEq] at hm
            subst hm
            rw [hset]
            exact ⟨l, hq⟩
          · simp only [hp, if_false] at hm
            cases hs : modify_at f l0.sublayers p with
            | none => rw [hs] at hm; simp at hm
            | some subs =>
              rw [hs] at hm
              simp only [Option.some.injEq] at hm
              subst hm
              rw [hset]
              exact ⟨l, hq⟩

theorem layer_at_pushed_sublayer (new_layer : layer) (p : List Nat) :
    ∀ (ls ls1 : List layer) (l : layer), layer_at ls p = some l →
      modify_at (layer.push_sublayer new_layer) ls p = some ls1 →
      layer_at ls1 (p ++ [l.sublayers.length]) = some new_layer := by
  induction p with
  | nil => intro ls ls1 l h; simp [layer_at] at h
  | cons i p ih =>
    intro ls ls1 l h hm
    rw [layer_at] at h
    rw [modify_at] at hm
    cases hg : ls.get? i with
    | none => rw [hg] at h; simp at h
    | some l0 =>
      have hi := get_lt_of_some _ _ _ hg
      rw [hg] at h hm
      simp only at h hm
      rw [List.cons_append, layer_at]
      by_cases hp : p = []
      · simp only [hp, if_true, Option.some.injEq] at h hm
        subst h hm
        simp only [List.get?_eq_getElem?, List.getElem?_set_self hi]
        subst hp
        simp [layer_at, layer.push_sublayer]
      · simp only [hp, if_false] at h hm
        cases hs : modify_at (layer.push_sublayer new_layer) l0.sublayers p with
        | none => rw [hs] at hm; simp at hm
        | some subs =>
          rw [hs] at hm
          simp only [Option.some.injEq] at hm
          subst hm
          simp only [List.get?_eq_getElem?, List.getElem?_set_self hi]
          simp only [List.append_eq_nil, hp, false_and, if_false]
          exact ih _ _ _ h hs

/-! ## Properties of the accumulation protocol -/

namespace image_mixer

theorem visit_ok_stack (m m1 : impl) (f : const_frame) (h : visit m f = (.ok (), m1)) :
    m1.transform_stack_ = m.transform_stack_ ∧ m1.layer_stack_ = m.layer_stack_ := by
  unfold visit at h
  split at h
  · simp only [Prod.mk.injEq, true_and] at h; subst h; exact ⟨rfl, rfl⟩
  · split at h
    · simp only [Prod.mk.injEq, true_and] at h; subst h; exact ⟨rfl, rfl⟩
    · split at h
      · simp at h
      · split at h
        · simp only [Prod.mk.injEq, true_and] at h; subst h; exact ⟨rfl, rfl⟩
        · simp only at h
          split at h
          · simp at h
          · simp at h
          · split at h
            · simp at h
            · simp only [Prod.mk.injEq, true_and] at h; subst h; exact ⟨rfl, rfl⟩

theorem pop_ok_stack (m m1 : impl) (h : pop m = (.ok (), m1)) :
    m1.transform_stack_ = m.transform_stack_.dropLast ∧
    ∃ top, m.transform_stack_.dropLast.getLast? = some top ∧
      m1.layer_stack_ = resize m.layer_stack_ top.layer_depth.toNat := by
  unfold pop at h
  split at h
  · simp at h
  · simp only at h
    split at h
    · simp at h
    · rename_i top htop
      split at h
      · simp at h
      · simp only [Prod.mk.injEq, true_and] at h
        subst h
        exact ⟨rfl, top, htop, rfl⟩

theorem le_top_of_sorted (ts : List image_transform) (top : image_transform)
    (hs : ts.Pairwise fun a b => a.layer_depth ≤ b.layer_depth)
    (htop : ts.getLast? = some top) : ∀ a ∈ ts, a.layer_depth ≤ top.layer_depth := by
  obtain ⟨ys, hys⟩ := List.getLast?_eq_some_iff.mp htop
  subst hys
  intro a ha
  rw [List.pairwise_append] at hs
  rcases List.mem_append.mp ha with h | h
  · exact hs.2.2 a h top (by simp)
  · simp only [List.mem_singleton] at h; rw [h]

theorem fresh_consistent : consistent fresh := by
  refine ⟨?_, ?_, ?_, ?_⟩
  · intro t ht
    simp only [fresh, List.mem_singleton] at ht
    rw [ht]; decide
  · simp [fresh]
  · intro top h
    simp only [fresh, List.getLast?_singleton, Option.some.injEq] at h
    rw [← h]; rfl
  · intro e he; simp [fresh] at he

theorem push_complete (mul : image_transform → image_transform → image_transform) (m : impl)
    (t : frame_transform) (top : image_transform) (hc : consistent m)
    (htop : m.transform_stack_.getLast? = some top)
    (hd : (mul top t.image_transform).layer_depth = top.layer_depth ∨
      (mul top t.image_transform).layer_depth = top.layer_depth + 1) :
    ∃ m1, push mul m t = (.ok (), m1) ∧ consistent m1 ∧
      m1.transform_stack_ = m.transform_stack_ ++ [mul top t.image_transform] := by
  have hle := le_top_of_sorted _ _ hc.depths_sorted htop
  have hnn : 0 ≤ top.layer_depth := hc.depths_nonneg _ (List.mem_of_getLast?_eq_some htop)
  have hsz := hc.stack_size top htop
  have hnonneg : ∀ x ∈ m.transform_stack_ ++ [mul top t.image_transform], 0 ≤ x.layer_depth := by
    intro x hx
    rcases List.mem_append.mp hx with h | h
    · exact hc.depths_nonneg x h
    · simp only [List.mem_singleton] at h; rw [h]; omega
  have hsorted : (m.transform_stack_ ++ [mul top t.image_transform]).Pairwise
      fun a b => a.layer_depth ≤ b.layer_depth := by
    rw [List.pairwise_append]
    refine ⟨hc.depths_sorted, by simp, ?_⟩
    intro a ha b hb
    simp only [List.mem_singleton] at hb
    rw [hb]
    have := hle a ha
    omega
  unfold push
  rw [htop]
  simp only
  by_cases hlt : top.layer_depth < (mul top t.image_transform).layer_depth
  · have hd1 : (mul top t.image_transform).layer_depth = top.layer_depth + 1 := by omega
    rw [if_pos hlt]
    cases hls : m.layer_stack_.getLast? with
    | none =>
      have hnil : m.layer_stack_ = [] := List.getLast?_eq_none_iff.mp hls
      refine ⟨_, rfl, ⟨hnonneg, hsorted, ?_, ?_⟩, rfl⟩
      · intro top1 h1
        simp only [List.getLast?_concat, Option.some.injEq] at h1
        rw [← h1, hd1, ← hsz, hnil]
        rfl
      · intro e he
        simp only [hnil, List.nil_append, List.mem_singleton] at he
        refine ⟨_, layer.create (mul top t.image_transform).blend_mode, he, ?_⟩
        simp [layer_at]
    | some e =>
      obtain ⟨p, l, hep, hl⟩ := hc.stack_valid e (List.mem_of_getLast?_eq_some hls)
      subst hep
      obtain ⟨ls1, hm⟩ := modify_at_of_layer_at
        (layer.push_sublayer (layer.create (mul top t.image_transform).blend_mode)) p _ _ hl
      simp only [hl, hm]
      refine ⟨_, rfl, ⟨hnonneg, hsorted, ?_, ?_⟩, rfl⟩
      · intro top1 h1
        simp only [List.getLast?_concat, Option.some.injEq] at h1
        rw [← h1, hd1, ← hsz]
        simp
      · intro e he
        rcases List.mem_append.mp he with h | h
        · obtain ⟨q, l2, heq, hq⟩ := hc.stack_valid e h
          obtain ⟨l3, hl3⟩ := layer_at_valid_modify _
            (fun l => ⟨[layer.create (mul top t.image_transform).blend_mode], rfl⟩) p _ _ hm q l2 hq
          exact ⟨q, l3, heq, hl3⟩
        · simp only [List.mem_singleton] at h
          exact ⟨_, _, h, layer_at_pushed_sublayer _ p _ _ l hl hm⟩
  · have hd0 : (mul top t.image_transform).layer_depth = top.layer_depth := by omega
    rw [if_neg hlt]
    refine ⟨_, rfl, ⟨hnonneg, hsorted, ?_, hc.stack_valid⟩, rfl⟩
    intro top1 h1
    simp only [List.getLast?_concat, Option.some.injEq] at h1
    rw [← h1, hd0, ← hsz]

theorem visit_complete (m : impl) (f : const_frame) (top : image_transform)
    (hc : consistent m) (htop : m.transform_stack_.getLast? = some top)
    (hd : f.pixel_format_desc.format = pixel_format.invalid ∨
      f.pixel_format_desc.planes.isEmpty = true ∨ top.field_mode = field_mode.empty ∨
      1 ≤ top.layer_depth) :
    ∃ m1, visit m f = (.ok (), m1) ∧ consistent m1 ∧
      m1.transform_stack_ = m.transform_stack_ := by
  unfold visit
  by_cases h1 : f.pixel_format_desc.format = pixel_format.invalid
  · rw [if_pos h1]; exact ⟨m, rfl, hc, rfl⟩
  rw [if_neg h1]
  by_cases h2 : f.pixel_format_desc.planes.isEmpty = true
  · rw [if_pos h2]; exact ⟨m, rfl, hc, rfl⟩
  rw [if_neg h2, htop]
  simp only
  by_cases h3 : top.field_mode = field_mode.empty
  · rw [if_pos h3]; exact ⟨m, rfl, hc, rfl⟩
  rw [if_neg h3]
  have h4 : 1 ≤ top.layer_depth := by
    rcases hd with h | h | h | h
    · exact absurd h h1
    · exact absurd h h2
    · exact absurd h h3
    · exact h
  have hsz := hc.stack_size top htop
  cases hls : m.layer_stack_.getLast? with
  | none =>
    have hnil : m.layer_stack_ = [] := List.getLast?_eq_none_iff.mp hls
    rw [hnil] at hsz
    simp only [List.length_nil, Nat.cast_zero] at hsz
    omega
  | some e =>
    obtain ⟨p, l, hep, hl⟩ := hc.stack_valid e (List.mem_of_getLast?_eq_some hls)
    subst hep
    obtain ⟨ls1, hm⟩ := modify_at_of_layer_at
      (layer.push_item
        { pix_desc := f.pixel_format_desc
          textures := plane_uploads f top.use_mipmap f.pixel_format_desc.planes
          transform := top
          geometry := f.geometry }) p _ _ hl
    simp only [hm]
    refine ⟨_, rfl, ⟨hc.depths_nonneg, hc.depths_sorted, hc.stack_size, ?_⟩, rfl⟩
    intro e he
    obtain ⟨q, l2, heq, hq⟩ := hc.stack_valid e he
    obtain ⟨l3, hl3⟩ := layer_at_valid_modify _ (fun l => ⟨[], by simp [layer.push_item]⟩)
      p _ _ hm q l2 hq
    exact ⟨q, l3, heq, hl3⟩

theorem pop_complete (m : impl) (hc : consistent m) (hlen : 2 ≤ m.transform_stack_.length) :
    ∃ m1, pop m = (.ok (), m1) ∧ consistent m1 ∧
      m1.transform_stack_ = m.transform_stack_.dropLast := by
  have hsub : m.transform_stack_.dropLast.Sublist m.transform_stack_ := List.dropLast_sublist _
  have hne : m.transform_stack_.dropLast ≠ [] := by
    intro h
    have := congrArg List.length h
    simp only [List.length_dropLast, List.length_nil] at this
    omega
  obtain ⟨top0, htop0⟩ : ∃ top0, m.transform_stack_.getLast? = some top0 := by
    cases h : m.transform_stack_.getLast? with
    | none => rw [List.getLast?_eq_none_iff.mp h] at hlen; simp at hlen
    | some x => exact ⟨x, rfl⟩
  obtain ⟨top, htop⟩ : ∃ top, m.transform_stack_.dropLast.getLast? = some top := by
    cases h : m.transform_stack_.dropLast.getLast? with
    | none => exact absurd (List.getLast?_eq_none_iff.mp h) hne
    | some x => exact ⟨x, rfl⟩
  have hmem : top ∈ m.transform_stack_ := hsub.subset (List.mem_of_getLast?_eq_some htop)
  have hnn : 0 ≤ top.layer_depth := hc.depths_nonneg _ hmem
  have hle : top.layer_depth ≤ top0.layer_depth :=
    le_top_of_sorted _ _ hc.depths_sorted htop0 _ hmem
  have hsz := hc.stack_size top0 htop0
  unfold pop
  cases hts : m.transform_stack_ with
  | nil => rw [hts] at hlen; simp at hlen
  | cons a as =>
    simp only
    rw [← hts, htop]
    simp only
    rw [if_neg (by omega)]
    refine ⟨_, rfl, ⟨?_, ?_, ?_, ?_⟩, rfl⟩
    · intro x hx
      exact hc.depths_nonneg x (hsub.subset hx)
    · exact hc.depths_sorted.sublist hsub
    · intro top1 h1
      simp only at h1
      rw [htop] at h1
      simp only [Option.some.injEq] at h1
      subst h1
      have : top.layer_depth.toNat ≤ m.layer_stack_.length := by omega
      simp only [resize, List.length_append, List.length_take, List.length_replicate]
      omega
    · intro e he
      simp only [resize] at he
      have hz : top.layer_depth.toNat - m.layer_stack_.length = 0 := by omega
      rw [hz] at he
      simp only [List.replicate_zero, List.append_nil] at he
      exact hc.stack_valid e ((List.take_sublist _ _).subset he)

/-- C2 fails as stated: `pop` on a fresh mixer raises no defined error. It ends in
undefined behaviour and has already emptied the transform stack. -/
theorem extra_pop_counterexample :
    (pop fresh).1 = outcome.undefined ∧
    (pop fresh).2.transform_stack_ = [] ∧
    fresh.transform_stack_ ≠ [] ∧
    ¬ ∃ e, (pop fresh).1 = outcome.thrown e := by
  refine ⟨rfl, rfl, by simp [fresh], ?_⟩
  rintro ⟨e, he⟩
  exact absurd he (by simp [pop, fresh])

/-- C2 as amended: `pop` has no guard. Called when the transform stack holds a single
transform it removes that transform, leaving the transform stack empty, and then reads
the top of the empty stack, which is undefined behaviour and not a defined error; the
layer stack and the layer tree are as before at that point. -/
theorem extra_pop_is_unguarded (m : impl) (h : m.transform_stack_.length = 1) :
    pop m = (.undefined, { m with transform_stack_ := [] }) := by
  cases hts : m.transform_stack_ with
  | nil => rw [hts] at h; simp at h
  | cons a as =>
    have has : as = [] := by
      rw [hts] at h
      simpa using h
    subst has
    simp [pop, hts]

/-- Witness of the amended C2 on a fresh mixer. -/
theorem extra_pop_is_unguarded_witness :
    fresh.transform_stack_.length = 1 ∧
    pop fresh = (.undefined, { fresh with transform_stack_ := [] }) :=
  ⟨rfl, extra_pop_is_unguarded fresh rfl⟩

/-- C11: `visit(frame)` is a no-op that ends normally (same transform stack, layer
stack and layer tree, no upload requested from the device) whenever the pixel format of
the frame is invalid, or its plane list is empty, or the field mode of the transform on
top of the transform stack is empty. -/
theorem visit_skips_non_contributing_frame (m : impl) (frame : const_frame)
    (h : frame.pixel_format_desc.format = pixel_format.invalid ∨
      frame.pixel_format_desc.planes = [] ∨
      ∃ top, m.transform_stack_.getLast? = some top ∧ top.field_mode = field_mode.empty) :
    visit m frame = (.ok (), m) := by
  unfold visit
  by_cases h1 : frame.pixel_format_desc.format = pixel_format.invalid
  · rw [if_pos h1]
  rw [if_neg h1]
  by_cases h2 : frame.pixel_format_desc.planes.isEmpty = true
  · rw [if_pos h2]
  rw [if_neg h2]
  rcases h with h | h | ⟨top, htop, hf⟩
  · exact absurd h h1
  · rw [h] at h2; simp at h2
  · rw [htop]
    simp only
    rw [if_pos hf]

/-- Witness of C11: in the state `inside_layer` a frame with an invalid pixel format
changes nothing. -/
theorem visit_skips_non_contributing_frame_witness :
    invalid_frame.pixel_format_desc.format = pixel_format.invalid ∧
    visit inside_layer invalid_frame = (.ok (), inside_layer) :=
  ⟨rfl, visit_skips_non_contributing_frame inside_layer invalid_frame (Or.inl rfl)⟩

theorem modify_at_length (f : layer → layer) (p : List Nat) (ls ls1 : List layer)
    (h : modify_at f ls p = some ls1) : ls1.length = ls.length := by
  cases p with
  | nil => simp [modify_at] at h
  | cons i p =>
    rw [modify_at] at h
    cases hg : ls.get? i with
    | none => rw [hg] at h; simp at h
    | some l0 =>
      rw [hg] at h
      simp only at h
      by_cases hp : p = []
      · simp only [hp, if_true, Option.some.injEq] at h
        rw [← h]; simp
      · simp only [hp, if_false] at h
        cases hs : modify_at f l0.sublayers p with
        | none => rw [hs] at h; simp at h
        | some subs =>
          rw [hs] at h
          simp only [Option.some.injEq] at h
          rw [← h]; simp

theorem modify_at_elsewhere (f : layer → layer)
    (hf : ∀ l, (f l).sublayers = l.sublayers) (p : List Nat) :
    ∀ (ls ls1 : List layer), modify_at f ls p = some ls1 →
      ∀ q : List Nat, q ≠ p → (layer_at ls1 q).map node = (layer_at ls q).map node := by
  induction p with
  | nil => intro ls ls1 h; simp [modify_at] at h
  | cons i p ih =>
    intro ls ls1 hm q hq
    rw [modify_at] at hm
    cases hg : ls.get? i with
    | none => rw [hg] at hm; simp at hm
    | some l0 =>
      have hi := get_lt_of_some _ _ _ hg
      rw [hg] at hm
      simp only at hm
      cases q with
      | nil => simp [layer_at]
      | cons j q =>
        rw [layer_at, layer_at]
        by_cases hji : j = i
        · subst hji
          have hqp : q ≠ p := fun h => hq (by rw [h])
          rw [hg]
          by_cases hp : p = []
          · simp only [hp, if_true, Option.some.injEq] at hm
            subst hm
            have hq0 : q ≠ [] := by rw [hp] at hqp; exact hqp
            simp only [List.get?_eq_getElem?, List.getElem?_set_self hi, hq0, if_false, hf]
          · simp only [hp, if_false] at hm
            cases hs : modify_at f l0.sublayers p with
            | none => rw [hs] at hm; simp at hm
            | some subs =>
              rw [hs] at hm
              simp only [Option.some.injEq] at hm
              subst hm
              simp only [List.get?_eq_getElem?, List.getElem?_set_self hi]
              by_cases hq0 : q = []
              · simp only [hq0, if_true, Option.map_some', node, Option.some.injEq,
                  Prod.mk.injEq, true_and]
                exact modify_at_length f p _ _ hs
              · simp only [hq0, if_false]
                exact ih _ _ hs q hqp
        · have hset : ∀ x, (ls.set i x).get? j = ls.get? j := by
            intro x
            simp only [List.get?_eq_getElem?]
            exact List.getElem?_set_ne (fun h => hji h.symm)
          by_cases hp : p = []
          · simp only [hp, if_true, Option.some.injEq] at hm
            subst hm
            rw [hset]
          · simp only [hp, if_false] at hm
            cases hs : modify_at f l0.sublayers p with
            | none => rw [hs] at hm; simp at hm
            | some subs =>
              rw [hs] at hm
              simp only [Option.some.injEq] at hm
              subst hm
              rw [hset]

theorem plane_uploads_get (frame : const_frame) (use_mipmap : Bool) (planes : List plane)
    (n : Nat) :
    (plane_uploads frame use_mipmap planes).get? n =
      (planes.get? n).map fun pl =>
        { source := frame.image_data n, width := pl.width, height := pl.height,
          stride := pl.stride, mipmapped := use_mipmap } := by
  simp only [plane_uploads, List.get?_eq_getElem?, List.getElem?_map, List.getElem?_enum]
  cases planes[n]? <;> rfl

/-- C12: when the frame has a valid pixel format and at least one plane and the field
mode on top of the transform stack is not empty, `visit(frame)` ends normally and
appends exactly one item at the end of the items of the layer the top of the layer
stack points to. The roots stay as many as before, the layer at every other path keeps
its items, blend mode and number of sublayers, and the two stacks are unchanged. The
item has the pixel description and the geometry of the frame and the transform on top
of the transform stack, and its pending uploads are, plane by plane and in plane order,
the upload of `frame.image_data(n)` with the width, height and stride of plane `n` and
the mipmap flag of the transform; these uploads are what the call requests from the
device. -/
theorem visit_appends_one_item (m : impl) (frame : const_frame) (top : image_transform)
    (p : List Nat) (l : layer)
    (hformat : frame.pixel_format_desc.format ≠ pixel_format.invalid)
    (hplanes : frame.pixel_format_desc.planes ≠ [])
    (htop : m.transform_stack_.getLast? = some top)
    (hfield : top.field_mode ≠ field_mode.empty)
    (hstack : m.layer_stack_.getLast? = some (some p))
    (hl : layer_at m.layers_ p = some l) :
    ∃ (it : item) (ls : List layer),
      visit m frame = (.ok (), { m with ogl_ := m.ogl_ ++ it.textures, layers_ := ls }) ∧
      it.pix_desc = frame.pixel_format_desc ∧ it.transform = top ∧
      it.geometry = frame.geometry ∧
      it.textures.length = frame.pixel_format_desc.planes.length ∧
      (∀ n, it.textures.get? n =
        (frame.pixel_format_desc.planes.get? n).map fun pl =>
          { source := frame.image_data n, width := pl.width, height := pl.height,
            stride := pl.stride, mipmapped := top.use_mipmap }) ∧
      layer_at ls p = some { l with items := l.items ++ [it] } ∧
      ls.length = m.layers_.length ∧
      (∀ q, q ≠ p → (layer_at ls q).map node = (layer_at m.layers_ q).map node) := by
  obtain ⟨ls, hm⟩ := modify_at_of_layer_at
    (layer.push_item
      { pix_desc := frame.pixel_format_desc
        textures := plane_uploads frame top.use_mipmap frame.pixel_format_desc.planes
        transform := top
        geometry := frame.geometry }) p _ _ hl
  refine ⟨{ pix_desc := frame.pixel_format_desc
            textures := plane_uploads frame top.use_mipmap frame.pixel_format_desc.planes
            transform := top
            geometry := frame.geometry }, ls, ?_, rfl, rfl, rfl, ?_, ?_, ?_, ?_, ?_⟩
  · have h2 : ¬ frame.pixel_format_desc.planes.isEmpty = true := by
      intro h; exact hplanes (List.isEmpty_iff.mp h)
    unfold visit
    rw [if_neg hformat, if_neg h2, htop]
    simp only
    rw [if_neg hfield]
    simp only [hstack, hm]
  · simp [plane_uploads]
  · intro n
    exact plane_uploads_get frame top.use_mipmap _ n
  · exact layer_at_modify_at _ p _ _ l hl hm
  · exact modify_at_length _ p _ _ hm
  · exact modify_at_elsewhere
      (layer.push_item
        { pix_desc := frame.pixel_format_desc
          textures := plane_uploads frame top.use_mipmap frame.pixel_format_desc.planes
          transform := top
          geometry := frame.geometry }) (fun _ => rfl) p _ _ hm

/-- Witness of C12 in the state `inside_layer`: `visit(sample_frame)` puts
`sample_visited` into the root layer and requests its one upload. -/
theorem visit_appends_one_item_witness :
    sample_frame.pixel_format_desc.format ≠ pixel_format.invalid ∧
    sample_frame.pixel_format_desc.planes ≠ [] ∧
    inside_layer.transform_stack_.getLast? = some enter_layer.image_transform ∧
    enter_layer.image_transform.field_mode ≠ field_mode.empty ∧
    inside_layer.layer_stack_.getLast? = some (some [0]) ∧
    layer_at inside_layer.layers_ [0] = some (layer.create .normal) ∧
    ∃ (it : item) (ls : List layer),
      visit inside_layer sample_frame =
        (.ok (), { inside_layer with ogl_ := inside_layer.ogl_ ++ it.textures, layers_ := ls }) ∧
      it.textures.length = 1 ∧
      layer_at ls [0] = some { layer.create .normal with items := [it] } :=
  ⟨by decide, by decide, rfl, by decide, rfl, rfl,
    (visit_appends_one_item inside_layer sample_frame enter_layer.image_transform [0]
      (layer.create .normal) (by decide) (by decide) rfl (by decide) rfl rfl).elim
      fun it h => h.elim fun ls hh => ⟨it, ls, hh.1, hh.2.2.2.2.1, hh.2.2.2.2.2.2.1⟩⟩

/-- C13 fails as stated: in the state reached from a fresh mixer by `push(deep_jump)`
and `push(same_layer)`, three transforms are on the stack and the layer stack has one
entry; `pop` ends normally with a layer stack of two entries, the old entry followed by
a null pointer, which is not a prefix of the layer stack before the call. -/
theorem pop_counterexample :
    after_jump.transform_stack_.length = 3 ∧
    after_jump.layer_stack_ = [some [0]] ∧
    (pop after_jump).1 = outcome.ok () ∧
    (pop after_jump).2.layer_stack_ = [some [0], none] ∧
    ¬ (pop after_jump).2.layer_stack_ <+: after_jump.layer_stack_ := by
  refine ⟨by decide, by decide, by decide, by decide, ?_⟩
  have h1 : (pop after_jump).2.layer_stack_ = [some [0], none] := by decide
  have h2 : after_jump.layer_stack_ = [some [0]] := by decide
  rw [h1, h2]
  intro h
  have := h.length_le
  simp at this

/-- C13 as amended: `pop()` removes the top of the transform stack and resizes the layer
stack to the layer depth recorded in the new top transform, leaving the layer tree
unchanged. For every state with at least two transforms on the stack whose new top has a
non-negative layer depth, the call ends normally and the length of the layer stack
equals that depth; the new layer stack is a prefix of the old one when the depth does
not exceed the old length, which is the case in every consistent state (the states
reached by pushes that raise the depth by 0 or 1), and it is the old layer stack
followed by null pointers otherwise. With a negative depth the transform stack is
popped and `std::length_error` is thrown. -/
theorem pop_resizes_layer_stack (m : impl) (top : image_transform)
    (hlen : 2 ≤ m.transform_stack_.length)
    (htop : m.transform_stack_.dropLast.getLast? = some top) :
    (pop m).2.transform_stack_ = m.transform_stack_.dropLast ∧
    (pop m).2.layers_ = m.layers_ ∧
    (0 ≤ top.layer_depth →
      pop m = (.ok (),
        { m with
          transform_stack_ := m.transform_stack_.dropLast
          layer_stack_ := resize m.layer_stack_ top.layer_depth.toNat }) ∧
      ((resize m.layer_stack_ top.layer_depth.toNat).length : Int) = top.layer_depth ∧
      (top.layer_depth.toNat ≤ m.layer_stack_.length →
        resize m.layer_stack_ top.layer_depth.toNat <+: m.layer_stack_) ∧
      (m.layer_stack_.length ≤ top.layer_depth.toNat →
        resize m.layer_stack_ top.layer_depth.toNat =
          m.layer_stack_ ++
            List.replicate (top.layer_depth.toNat - m.layer_stack_.length) none)) ∧
    (top.layer_depth < 0 →
      pop m = (.thrown .length_error,
        { m with transform_stack_ := m.transform_stack_.dropLast })) ∧
    (consistent m →
      0 ≤ top.layer_depth ∧ top.layer_depth.toNat ≤ m.layer_stack_.length) := by
  have hpop : pop m =
      if top.layer_depth < 0 then
        (.thrown .length_error, { m with transform_stack_ := m.transform_stack_.dropLast })
      else
        (.ok (),
          { m with
            transform_stack_ := m.transform_stack_.dropLast
            layer_stack_ := resize m.layer_stack_ top.layer_depth.toNat }) := by
    unfold pop
    cases hts : m.transform_stack_ with
    | nil => rw [hts] at hlen; simp at hlen
    | cons a as =>
      simp only
      rw [← hts, htop]
  refine ⟨?_, ?_, ?_, ?_, ?_⟩
  · rw [hpop]; split <;> rfl
  · rw [hpop]; split <;> rfl
  · intro hd
    refine ⟨by rw [hpop, if_neg (by omega)], ?_, ?_, ?_⟩
    · simp only [resize, List.length_append, List.length_take, List.length_replicate]
      omega
    · intro hle
      have hz : top.layer_depth.toNat - m.layer_stack_.length = 0 := by omega
      simp only [resize, hz, List.replicate_zero, List.append_nil]
      exact List.take_prefix _ _
    · intro hle
      simp only [resize]
      rw [List.take_of_length_le hle]
  · intro hd
    rw [hpop, if_pos hd]
  · intro hc
    have hsub : m.transform_stack_.dropLast.Sublist m.transform_stack_ :=
      List.dropLast_sublist _
    have hmem : top ∈ m.transform_stack_ := hsub.subset (List.mem_of_getLast?_eq_some htop)
    obtain ⟨top0, htop0⟩ : ∃ top0, m.transform_stack_.getLast? = some top0 := by
      cases h : m.transform_stack_.getLast? with
      | none => rw [List.getLast?_eq_none_iff.mp h] at hlen; simp at hlen
      | some x => exact ⟨x, rfl⟩
    have hnn := hc.depths_nonneg _ hmem
    have hle := le_top_of_sorted _ _ hc.depths_sorted htop0 _ hmem
    have hsz := hc.stack_size top0 htop0
    exact ⟨hnn, by omega⟩

/-- Witness of the amended C13 on `after_jump`: the new top has depth 2, the call ends
normally and the layer stack has two entries afterwards. -/
theorem pop_resizes_layer_stack_witness :
    2 ≤ after_jump.transform_stack_.length ∧
    after_jump.transform_stack_.dropLast.getLast? = some deep_jump.image_transform ∧
    (pop after_jump).2.layers_ = after_jump.layers_ ∧
    ((resize after_jump.layer_stack_ deep_jump.image_transform.layer_depth.toNat).length : Int) =
      deep_jump.image_transform.layer_depth :=
  ⟨by decide, by decide,
    (pop_resizes_layer_stack after_jump deep_jump.image_transform (by decide) (by decide)).2.1,
    ((pop_resizes_layer_stack after_jump deep_jump.image_transform (by decide)
      (by decide)).2.2.1 (by decide)).2.1⟩

end image_mixer

/-! ## Claims about the renderer -/

namespace image_renderer

theorem size_le_foldl_max (xs : List Nat) : ∀ (a x : Nat), x = a ∨ x ∈ xs → x ≤ xs.foldl max a := by
  induction xs with
  | nil =>
    intro a x h
    rcases h with h | h
    · simp [h]
    · simp at h
  | cons y ys ih =>
    intro a x h
    simp only [List.foldl_cons]
    rcases h with h | h
    · have h1 : a ≤ ys.foldl max (max a y) := ih (max a y) (max a y) (Or.inl rfl) |> le_trans (le_max_left a y)
      rw [h]; exact h1
    · rcases List.mem_cons.mp h with h2 | h2
      · have h1 : max a y ≤ ys.foldl max (max a y) := ih (max a y) (max a y) (Or.inl rfl)
        rw [h2]; exact le_trans (le_max_right a y) h1
      · exact ih (max a y) x (Or.inr h2)

theorem known_size_le_max (desc_of : video_format → video_format_desc) (format : video_format)
    (h : format ∈ enum_constants) : (desc_of format).size ≤ get_max_video_format_size desc_of := by
  unfold get_max_video_format_size
  apply size_le_foldl_max
  right
  exact List.mem_map.mpr ⟨format, h, rfl⟩

/-- C3 fails as stated: for the format descriptor of a 10000 x 10000 frame, larger than
every known format, the array returned for an empty layer list reports 400000000 bytes
but the zero-filled buffer behind it ends after the largest known frame size; the byte
at that index is not a zero byte of the buffer. -/
theorem empty_render_counterexample :
    (render sample_table [] oversized_format false sample_gpu).1 =
      .ready { data := List.replicate 8294400 0, size := 400000000, storage := none } ∧
    (8294400 : Nat) < oversized_format.size ∧
    array.byte { data := List.replicate 8294400 0, size := 400000000, storage := none } 8294400
      = none := by
  refine ⟨?_, by decide, ?_⟩
  · have h : get_max_video_format_size sample_table = 8294400 := by decide
    simp only [render, List.isEmpty_nil, if_true, h]
    rfl
  · have h : ¬ (8294400 : Nat) < 8294400 := by decide
    simp only [array.byte, List.get?_eq_getElem?, List.getElem?_replicate, h, if_false,
      ite_self]

/-- C3 as amended: for every format descriptor, the renderer called with an empty layer
list returns an already resolved result and issues no device or kernel call; the
result is a byte array that reports exactly `format_desc.size` bytes over a zero-filled
buffer as large as the largest known format. Every byte is zero when `format_desc.size`
does not exceed that largest size, which holds for the descriptor of every known
format. -/
theorem empty_render_is_ready_and_zero (desc_of : video_format → video_format_desc)
    (format_desc : video_format_desc) (straighten_alpha : Bool) (g : gpu) :
    ∃ a, render desc_of [] format_desc straighten_alpha g = (.ready a, g) ∧
      a.size = format_desc.size ∧
      a.data = List.replicate (get_max_video_format_size desc_of) 0 ∧
      (format_desc.size ≤ get_max_video_format_size desc_of →
        ∀ i, i < format_desc.size → a.byte i = some 0) ∧
      (∀ format ∈ enum_constants,
        (desc_of format).size ≤ get_max_video_format_size desc_of) := by
  refine ⟨{ data := List.replicate (get_max_video_format_size desc_of) 0
            size := format_desc.size
            storage := none }, ?_, ?_, ?_, ?_,
    fun f hf => known_size_le_max desc_of f hf⟩
  · simp only [render, List.isEmpty_nil, if_true]
  · simp only
  · simp only
  generalize get_max_video_format_size desc_of = largest
  intro hle i hi
  have hi2 : i < largest := lt_of_lt_of_le hi hle
  simp only [array.byte, hi, if_true, List.get?_eq_getElem?, List.getElem?_replicate, hi2]

/-- Witness of the amended C3 for the descriptor of a known format of the stand-in
table: the array reports the 8294400 bytes of the format, and its first and last bytes
are zero. -/
theorem empty_render_is_ready_and_zero_witness :
    sample_format.size ≤ get_max_video_format_size sample_table ∧
    ∃ a, render sample_table [] sample_format false sample_gpu = (.ready a, sample_gpu) ∧
      a.size = 8294400 ∧ a.byte 0 = some 0 ∧ a.byte 8294399 = some 0 :=
  ⟨by decide,
    (empty_render_is_ready_and_zero sample_table sample_format false sample_gpu).elim
      fun a h => ⟨a, h.1, h.2.1, h.2.2.2.1 (by decide) 0 (by decide),
        h.2.2.2.1 (by decide) 8294399 (by decide)⟩⟩

/-- C4 on the code: for the normal-blend layer `[K, M, N]` the renderer issues five
kernel draws, not four. After `K` into the local key buffer, `M` into the local mix
buffer, the blend of the local mix buffer onto the target and `N` onto the target, the
layer ends by blending the same local mix buffer onto the target a second time: the
blend only reads the buffer pointer it is given and never resets it. The carried layer
key after the layer is empty. -/
theorem key_mix_normal_draw_sequence :
    (draw_layer sample_target layer_KMN (some sample_layer_key) sample_format .progressive
      sample_gpu).2.calls =
      sample_gpu.calls ++
      [ .create_texture sample_local_key true,
        .draw { item_params item_K sample_format with
                background := some sample_local_key, local_key := none, layer_key := none },
        .create_texture sample_local_mix true,
        .draw { item_params item_M sample_format with
                background := some sample_local_mix, local_key := some sample_local_key,
                layer_key := some sample_layer_key, keyer := .additive },
        .draw (blend_params sample_local_mix sample_target .normal),
        .draw { item_params item_N sample_format with
                background := some sample_target, local_key := none,
                layer_key := some sample_layer_key },
        .draw (blend_params sample_local_mix sample_target .normal) ] ∧
    (draw_layer sample_target layer_KMN (some sample_layer_key) sample_format .progressive
      sample_gpu).1 = none := by
  decide

theorem followed_by_refl (ok : gl_call → Bool) (g : gpu) : followed_by ok g g :=
  ⟨[], by simp, by simp⟩

theorem followed_by_trans (ok : gl_call → Bool) (g g1 g2 : gpu) (h1 : followed_by ok g g1)
    (h2 : followed_by ok g1 g2) : followed_by ok g g2 := by
  obtain ⟨n1, e1, p1⟩ := h1
  obtain ⟨n2, e2, p2⟩ := h2
  refine ⟨n1 ++ n2, by rw [e2, e1, List.append_assoc], ?_⟩
  intro c hc
  rcases List.mem_append.mp hc with h | h
  · exact p1 c h
  · exact p2 c h

theorem followed_by_draw (ok : gl_call → Bool) (g : gpu) (p : draw_params)
    (h : ok (.draw p) = true) : followed_by ok g (kernel_draw g p) :=
  ⟨[.draw p], rfl, by simpa using h⟩

theorem followed_by_create (ok : gl_call → Bool) (g : gpu) (width height stride : Int)
    (mipmapped : Bool) (h : ∀ t, ok (.create_texture t true) = true) :
    followed_by ok g (create_texture g width height stride mipmapped).2 :=
  ⟨[.create_texture _ true], rfl, by simpa using h _⟩

theorem followed_by_draw_buffer (ok : gl_call → Bool) (g : gpu) (target : texture)
    (source : Option texture) (blend : blend_mode)
    (h : ∀ src, source = some src → ok (.draw (blend_params src target blend)) = true) :
    followed_by ok g (draw_buffer target source blend g) := by
  cases source with
  | none => exact followed_by_refl ok g
  | some src => exact followed_by_draw ok g _ (h src rfl)

theorem draw_item_off_screen (image : texture) (first : Nat) (it : item)
    (layer_key : Option texture) (format_desc : video_format_desc) (s : locals)
    (hs : s.since first) :
    (draw_item image it layer_key format_desc s).since first ∧
    followed_by (drawn_off_screen image first) s.g
      (draw_item image it layer_key format_desc s).g := by
  obtain ⟨h1, h2, h3⟩ := hs
  unfold draw_item
  by_cases hk : it.transform.is_key = true
  · simp only [hk, if_true]
    cases hlk : s.local_key with
    | none =>
      refine ⟨⟨?_, ?_, h3⟩, ?_⟩
      · simp only [kernel_draw, create_texture]; omega
      · intro t ht
        simp only [create_texture, Option.some.injEq] at ht
        rw [← ht]; exact h1
      · refine followed_by_trans _ _ _ _ (followed_by_create _ _ _ _ _ _ (fun _ => rfl))
          (followed_by_draw _ _ _ ?_)
        simp only [drawn_off_screen, create_texture, item_params, hk, Bool.true_or,
          Bool.and_true, Bool.or_eq_true, decide_eq_true_eq]
        right; exact h1
    | some k =>
      refine ⟨⟨h1, ?_, h3⟩, ?_⟩
      · intro t ht
        simp only [Option.some.injEq] at ht
        rw [← ht]; exact h2 k hlk
      · refine followed_by_draw _ _ _ ?_
        simp only [drawn_off_screen, item_params, hk, Bool.true_or, Bool.and_true,
          Bool.or_eq_true, decide_eq_true_eq]
        right; exact h2 k hlk
  · simp only [hk, Bool.false_eq_true, if_false]
    by_cases hm : it.transform.is_mix = true
    · simp only [hm, if_true]
      cases hlm : s.local_mix with
      | none =>
        refine ⟨⟨?_, ?_, ?_⟩, ?_⟩
        · simp only [kernel_draw, create_texture]; omega
        · intro t ht; simp at ht
        · intro t ht
          simp only [create_texture, Option.some.injEq] at ht
          rw [← ht]; exact h1
        · refine followed_by_trans _ _ _ _ (followed_by_create _ _ _ _ _ _ (fun _ => rfl))
            (followed_by_draw _ _ _ ?_)
          simp only [drawn_off_screen, create_texture, item_params, hm, Bool.or_true,
            Bool.and_true, Bool.or_eq_true, decide_eq_true_eq]
          right; exact h1
      | some x =>
        refine ⟨⟨h1, ?_, ?_⟩, ?_⟩
        · intro t ht; simp at ht
        · intro t ht
          simp only [Option.some.injEq] at ht
          rw [← ht]; exact h3 x hlm
        · refine followed_by_draw _ _ _ ?_
          simp only [drawn_off_screen, item_params, hm, Bool.or_true, Bool.and_true,
            Bool.or_eq_true, decide_eq_true_eq]
          right; exact h3 x hlm
    · simp only [hm, Bool.false_eq_true, if_false]
      refine ⟨⟨?_, ?_, h3⟩, ?_⟩
      · cases hlm : s.local_mix <;> simp only [kernel_draw, draw_buffer] <;> exact h1
      · intro t ht; simp at ht
      · refine followed_by_trans _ _ _ _
          (followed_by_draw_buffer _ _ image s.local_mix .normal ?_)
          (followed_by_draw _ _ _ ?_)
        · intro src _
          simp [drawn_off_screen, blend_params]
        · simp [drawn_off_screen]

theorem draw_items_off_screen (image : texture) (first : Nat) (layer_key : Option texture)
    (format_desc : video_format_desc) (items : List item) :
    ∀ s : locals, s.since first →
      (draw_items image layer_key format_desc items s).since first ∧
      followed_by (drawn_off_screen image first) s.g
        (draw_items image layer_key format_desc items s).g := by
  induction items with
  | nil =>
    intro s hs
    exact ⟨hs, followed_by_refl _ _⟩
  | cons it its ih =>
    intro s hs
    obtain ⟨hs1, hf1⟩ := draw_item_off_screen image first it layer_key format_desc s hs
    obtain ⟨hs2, hf2⟩ := ih _ hs1
    exact ⟨hs2, followed_by_trans _ _ _ _ hf1 hf2⟩

theorem off_screen_not_target (target image : texture) (first : Nat) (p : draw_params)
    (ht : target.id < image.id) (hf : image.id < first)
    (h : drawn_off_screen image first (.draw p) = true) : p.background ≠ some target := by
  intro hp
  simp only [drawn_off_screen, hp, Option.some.injEq, Bool.or_eq_true, decide_eq_true_eq,
    Bool.and_eq_true] at h
  rcases h with h | h
  · rw [h] at ht; omega
  · omega

/-- C5 fails as stated: in a layer with a non-default blend mode whose only item is a
key item, the draw of that item does not have the off-screen 4-channel image as
background but the 1-channel local key buffer; the off-screen image is composited onto
the target without any draw into it. -/
theorem blend_layer_counterexample :
    (draw_layer sample_target layer_blend_K none sample_format .progressive sample_gpu).2.calls =
      sample_gpu.calls ++
      [ .create_texture
          { id := 2, width := 1920, height := 1080, stride := 4, mipmapped := false } true,
        .create_texture
          { id := 3, width := 1920, height := 1080, stride := 1, mipmapped := false } true,
        .draw { item_params item_K sample_format with
                background := some
                  { id := 3, width := 1920, height := 1080, stride := 1, mipmapped := false },
                local_key := none, layer_key := none },
        .draw (blend_params
          { id := 2, width := 1920, height := 1080, stride := 4, mipmapped := false }
          sample_target (.other 1)) ] := by
  decide

/-- C5 as amended: for every layer with a non-default blend mode and at least one
visible item, the calls of the layer draw are: one request for a cleared 4-channel
texture of the width and height of the target (the off-screen image), then calls among
which every kernel draw has as background either the off-screen image or, for an item
with the key or mix flag, a local buffer created after it, and never the target, and
last exactly one draw that composites the off-screen image onto the target with the
blend mode of the layer. The number of draws into the target is 1 whatever the items. -/
theorem blend_layer_is_isolated (target : texture) (l : layer) (layer_key : Option texture)
    (format_desc : video_format_desc) (pass : field_mode) (g : gpu)
    (hb : l.blend_mode ≠ blend_mode.normal) (hv : visible_items l.items pass ≠ [])
    (ht : target.id < g.created) :
    ∃ mid,
      (draw_layer target l layer_key format_desc pass g).2.calls =
        g.calls ++
          .create_texture
            { id := g.created, width := target.width, height := target.height, stride := 4,
              mipmapped := false } true ::
          (mid ++
            [.draw (blend_params
              { id := g.created, width := target.width, height := target.height, stride := 4,
                mipmapped := false } target l.blend_mode)]) ∧
      (∀ c ∈ mid, drawn_off_screen
        { id := g.created, width := target.width, height := target.height, stride := 4,
          mipmapped := false } (g.created + 1) c = true) ∧
      (∀ p, gl_call.draw p ∈ mid → p.background ≠ some target) ∧
      draws_into target (draw_layer target l layer_key format_desc pass g).2.calls =
        draws_into target g.calls + 1 := by
  have hne : (visible_items l.items pass).isEmpty = false := by
    cases h : visible_items l.items pass with
    | nil => exact absurd h hv
    | cons a as => rfl
  have h0 : locals.since (g.created + 1)
      { local_key := none, local_mix := none,
        g := (create_texture g target.width target.height 4 false).2 } :=
    ⟨le_refl _, by intro t h; simp at h, by intro t h; simp at h⟩
  obtain ⟨_, hf1⟩ := draw_items_off_screen
    (create_texture g target.width target.height 4 false).1 (g.created + 1) layer_key
    format_desc (visible_items l.items pass) _ h0
  have hf2 := followed_by_draw_buffer
    (drawn_off_screen (create_texture g target.width target.height 4 false).1 (g.created + 1))
    (draw_items (create_texture g target.width target.height 4 false).1 layer_key format_desc
      (visible_items l.items pass)
      { local_key := none, local_mix := none,
        g := (create_texture g target.width target.height 4 false).2 }).g
    (create_texture g target.width target.height 4 false).1
    (draw_items (create_texture g target.width target.height 4 false).1 layer_key format_desc
      (visible_items l.items pass)
      { local_key := none, local_mix := none,
        g := (create_texture g target.width target.height 4 false).2 }).local_mix
    .normal (by intro src _; simp [drawn_off_screen, blend_params])
  obtain ⟨mid, hmid, hok⟩ := followed_by_trans _ _ _ _ hf1 hf2
  have hcalls : (draw_layer target l layer_key format_desc pass g).2.calls =
      g.calls ++
        .create_texture
          { id := g.created, width := target.width, height := target.height, stride := 4,
            mipmapped := false } true ::
        (mid ++
          [.draw (blend_params
            { id := g.created, width := target.width, height := target.height, stride := 4,
              mipmapped := false } target l.blend_mode)]) := by
    unfold draw_layer
    simp only [hne, Bool.false_eq_true, if_false, hb, ne_eq, not_false_eq_true, if_true]
    show (kernel_draw _ _).calls = _
    simp only [kernel_draw]
    rw [hmid]
    simp only [create_texture, List.append_assoc, List.singleton_append, List.cons_append]
    rfl
  have hnot : ∀ p, gl_call.draw p ∈ mid → p.background ≠ some target := fun p hp =>
    off_screen_not_target target _ (g.created + 1) p ht (Nat.lt_succ_self _) (hok _ hp)
  refine ⟨mid, hcalls, hok, hnot, ?_⟩
  rw [hcalls]
  have hz : List.countP (fun c => match c with
      | .draw p => decide (p.background = some target)
      | _ => false) mid = 0 := by
    rw [List.countP_eq_zero]
    intro c hc
    cases c with
    | draw p => simpa using hnot p hc
    | create_texture t b => simp
    | post_process t b => simp
    | attach t => simp
    | copy_async t => simp
  simp only [draws_into, List.countP_append, List.countP_cons, hz, List.countP_nil, blend_params]
  simp

/-- Witness of the amended C5 on the blend layer that holds the key item `K`. -/
theorem blend_layer_is_isolated_witness :
    layer_blend_K.blend_mode ≠ blend_mode.normal ∧
    visible_items layer_blend_K.items .progressive ≠ [] ∧
    sample_target.id < sample_gpu.created ∧
    draws_into sample_target
      (draw_layer sample_target layer_blend_K none sample_format .progressive sample_gpu).2.calls =
      draws_into sample_target sample_gpu.calls + 1 :=
  ⟨by decide, by decide, by decide,
    (blend_layer_is_isolated sample_target layer_blend_K none sample_format .progressive
      sample_gpu (by decide) (by decide) (by decide)).elim fun _ h => h.2.2.2⟩

theorem item_draws_append (xs ys : List gl_call) :
    item_draws (xs ++ ys) = item_draws xs ++ item_draws ys := by
  simp [item_draws, List.filterMap_append]

theorem is_item_draw_uploads (p : draw_params) (fs : List future_texture)
    (h : p.textures = fs.map .upload) : is_item_draw p = true := by
  simp [is_item_draw, h, List.all_eq_true]

theorem item_draws_draw_buffer (target : texture) (source : Option texture) (blend : blend_mode)
    (g : gpu) : item_draws (draw_buffer target source blend g).calls = item_draws g.calls := by
  cases source with
  | none => rfl
  | some src =>
    simp [draw_buffer, kernel_draw, item_draws_append, item_draws, is_item_draw]

theorem item_draws_create (g : gpu) (width height stride : Int) (mipmapped : Bool) :
    item_draws (create_texture g width height stride mipmapped).2.calls = item_draws g.calls := by
  simp [create_texture, item_draws_append, item_draws]

theorem item_draws_kernel_draw (g : gpu) (p : draw_params) (h : is_item_draw p = true) :
    item_draws (kernel_draw g p).calls = item_draws g.calls ++ [p] := by
  simp [kernel_draw, item_draws_append, item_draws, h]

theorem draw_item_item_draws (target : texture) (it : item) (layer_key : Option texture)
    (format_desc : video_format_desc) (s : locals) :
    (item_draws (draw_item target it layer_key format_desc s).g.calls).map item_part =
      (item_draws s.g.calls).map item_part ++ [drawn_part it] := by
  unfold draw_item
  by_cases hk : it.transform.is_key = true
  · simp only [hk, if_true]
    rw [item_draws_kernel_draw _ _ (is_item_draw_uploads _ it.textures rfl)]
    cases hlk : s.local_key with
    | none => simp [item_draws_create, item_part, drawn_part, item_params]
    | some k => simp [item_part, drawn_part, item_params]
  · simp only [hk, Bool.false_eq_true, if_false]
    by_cases hm : it.transform.is_mix = true
    · simp only [hm, if_true]
      rw [item_draws_kernel_draw _ _ (is_item_draw_uploads _ it.textures rfl)]
      cases hlm : s.local_mix with
      | none => simp [item_draws_create, item_part, drawn_part, item_params]
      | some x => simp [item_part, drawn_part, item_params]
    · simp only [hm, Bool.false_eq_true, if_false]
      rw [item_draws_kernel_draw _ _ (is_item_draw_uploads _ it.textures rfl),
        item_draws_draw_buffer]
      simp [item_part, drawn_part, item_params]

theorem draw_items_item_draws (target : texture) (layer_key : Option texture)
    (format_desc : video_format_desc) (items : List item) :
    ∀ s : locals,
      (item_draws (draw_items target layer_key format_desc items s).g.calls).map item_part =
        (item_draws s.g.calls).map item_part ++ items.map drawn_part := by
  induction items with
  | nil => intro s; simp [draw_items]
  | cons it its ih =>
    intro s
    simp only [draw_items]
    rw [ih, draw_item_item_draws]
    simp

theorem draw_layer_item_draws (target : texture) (l : layer) (layer_key : Option texture)
    (format_desc : video_format_desc) (pass : field_mode) (g : gpu) :
    (item_draws (draw_layer target l layer_key format_desc pass g).2.calls).map item_part =
      (item_draws g.calls).map item_part ++ (visible_items l.items pass).map drawn_part := by
  unfold draw_layer
  by_cases he : (visible_items l.items pass).isEmpty = true
  · simp only [he, if_true]
    rw [List.isEmpty_iff.mp he]
    simp
  · simp only [he, Bool.false_eq_true, if_false]
    by_cases hb : l.blend_mode ≠ blend_mode.normal
    · simp only [hb, ne_eq, not_false_eq_true, if_true]
      rw [item_draws_draw_buffer, item_draws_draw_buffer, draw_items_item_draws]
      simp only [item_draws_create]
    · simp only [hb, if_false]
      rw [item_draws_draw_buffer, draw_items_item_draws]

mutual
theorem draw_loop_item_draws (target : texture) (format_desc : video_format_desc)
    (pass : field_mode) :
    ∀ (layers : List layer) (layer_key : Option texture) (g : gpu),
      (item_draws (draw_loop target format_desc pass layers layer_key g).calls).map item_part =
        (item_draws g.calls).map item_part ++ (pass_items pass layers).map drawn_part
  | [], _, g => by simp [draw_loop, pass_items]
  | l :: ls, layer_key, g => by
    simp only [draw_loop, pass_items]
    rw [draw_loop_item_draws target format_desc pass ls, draw_layer_item_draws,
      draw_sublayers_item_draws target format_desc pass l]
    simp
theorem draw_sublayers_item_draws (target : texture) (format_desc : video_format_desc)
    (pass : field_mode) :
    ∀ (l : layer) (g : gpu),
      (item_draws (draw_sublayers target format_desc pass l g).calls).map item_part =
        (item_draws g.calls).map item_part ++ (sublayer_items pass l).map drawn_part
  | ⟨sublayers, _, _⟩, g => by
    simp only [draw_sublayers, sublayer_items]
    exact draw_loop_item_draws target format_desc pass sublayers none g
end

theorem visible_items_append (xs ys : List item) (pass : field_mode) :
    visible_items (xs ++ ys) pass = visible_items xs pass ++ visible_items ys pass := by
  simp [visible_items]

theorem field_mode_and_idem (a p : field_mode) : (a.and p).and p = a.and p := by
  cases a <;> cases p <;> rfl

theorem visible_items_idem (xs : List item) (pass : field_mode) :
    visible_items (visible_items xs pass) pass = visible_items xs pass := by
  induction xs with
  | nil => rfl
  | cons x xs ih =>
    have hcons : ∀ y ys, visible_items (y :: ys) pass =
        visible_items [y] pass ++ visible_items ys pass :=
      fun y ys => visible_items_append [y] ys pass
    rw [hcons x xs]
    by_cases h : x.transform.field_mode.and pass = field_mode.empty
    · have h1 : visible_items [x] pass = [] := by simp [visible_items, h]
      rw [h1, List.nil_append, ih]
    · have h1 : visible_items [x] pass =
          [{ x with transform :=
              { x.transform with field_mode := x.transform.field_mode.and pass } }] := by
        simp [visible_items, h]
      rw [h1, List.singleton_append, hcons, ih]
      simp [visible_items, field_mode_and_idem, h]

theorem draw_layer_visible (target : texture) (l : layer) (layer_key : Option texture)
    (format_desc : video_format_desc) (pass : field_mode) (g : gpu) :
    draw_layer target l layer_key format_desc pass g =
      draw_layer target { l with items := visible_items l.items pass } layer_key format_desc
        pass g := by
  simp only [draw_layer, visible_items_idem]

/-- C6: in each field pass the item draws issued for a layer tree are, in order, the
draws of exactly those items whose field-mode mask intersected with the field mode of
the pass is not empty, one draw per such item, with the intersected mask in the
transform of the draw request. An item whose intersection is empty contributes no
draw: the calls of a layer draw are those of the layer without such items. In
particular an upper-only item is drawn in the upper pass and not in the lower pass, a
lower-only item in the lower pass and not in the upper pass, and a progressive item in
every pass that is not empty, with the field mode of the pass as its mask. The
intersection is the bitwise `&` of the underlying integers (`empty = 0`, `lower = 1`,
`upper = 2`, `progressive = 3`): progressive is neutral, empty absorbs, a mode
intersected with itself is that mode, and upper and lower intersect to empty. -/
theorem field_pass_draws_exactly_visible_items (target : texture) (layers : List layer)
    (format_desc : video_format_desc) (pass : field_mode) (g : gpu) :
    (item_draws (draw target layers format_desc pass g).calls).map item_part =
      (item_draws g.calls).map item_part ++ (pass_items pass layers).map drawn_part ∧
    (∀ (l : layer) (layer_key : Option texture) (g1 : gpu),
      (item_draws (draw_layer target l layer_key format_desc pass g1).2.calls).map item_part =
        (item_draws g1.calls).map item_part ++ (visible_items l.items pass).map drawn_part) ∧
    (∀ (l : layer) (layer_key : Option texture) (g1 : gpu),
      draw_layer target l layer_key format_desc pass g1 =
        draw_layer target { l with items := visible_items l.items pass } layer_key format_desc
          pass g1) ∧
    (∀ xs ys, visible_items (xs ++ ys) pass = visible_items xs pass ++ visible_items ys pass) ∧
    (∀ it : item, it.transform.field_mode.and pass = field_mode.empty →
      visible_items [it] pass = []) ∧
    (∀ it : item, it.transform.field_mode.and pass ≠ field_mode.empty →
      visible_items [it] pass =
        [{ it with transform :=
            { it.transform with field_mode := it.transform.field_mode.and pass } }]) ∧
    (∀ it : item, it.transform.field_mode = field_mode.upper →
      visible_items [it] .upper = [it] ∧ visible_items [it] .lower = []) ∧
    (∀ it : item, it.transform.field_mode = field_mode.lower →
      visible_items [it] .lower = [it] ∧ visible_items [it] .upper = []) ∧
    (∀ it : item, it.transform.field_mode = field_mode.progressive →
      pass ≠ field_mode.empty →
      visible_items [it] pass =
        [{ it with transform := { it.transform with field_mode := pass } }]) ∧
    (∀ p : field_mode,
      field_mode.progressive.and p = p ∧ p.and .progressive = p ∧
      field_mode.empty.and p = .empty ∧ p.and .empty = .empty ∧ p.and p = p) ∧
    field_mode.upper.and .lower = .empty ∧ field_mode.lower.and .upper = .empty ∧
    (∀ a b : field_mode, (a.and b).bits = a.bits &&& b.bits) ∧
    field_mode.empty.bits = 0 ∧ field_mode.lower.bits = 1 ∧ field_mode.upper.bits = 2 ∧
    field_mode.progressive.bits = 3 := by
  refine ⟨draw_loop_item_draws target format_desc pass layers none g,
    fun l k g1 => draw_layer_item_draws target l k format_desc pass g1,
    fun l k g1 => draw_layer_visible target l k format_desc pass g1,
    fun xs ys => visible_items_append xs ys pass, ?_, ?_, ?_, ?_, ?_,
    fun p => by cases p <;> exact ⟨rfl, rfl, rfl, rfl, rfl⟩, rfl, rfl,
    fun a b => by cases a <;> cases b <;> rfl, rfl, rfl, rfl, rfl⟩
  · intro it h
    simp [visible_items, h]
  · intro it h
    simp [visible_items, h]
  · intro it h
    obtain ⟨pd, tx, tr, ge⟩ := it
    obtain ⟨fm, k, mx, mp, b, d⟩ := tr
    simp only at h
    subst h
    exact ⟨by simp [visible_items, field_mode.and, field_mode.bits, field_mode.of_bits],
      by simp [visible_items, field_mode.and, field_mode.bits, field_mode.of_bits]⟩
  · intro it h
    obtain ⟨pd, tx, tr, ge⟩ := it
    obtain ⟨fm, k, mx, mp, b, d⟩ := tr
    simp only at h
    subst h
    exact ⟨by simp [visible_items, field_mode.and, field_mode.bits, field_mode.of_bits],
      by simp [visible_items, field_mode.and, field_mode.bits, field_mode.of_bits]⟩
  · intro it h hp
    have e : field_mode.progressive.and pass = pass := by cases pass <;> rfl
    simp [visible_items, h, e, hp]

/-- Instances of C6 on a layer with a progressive, an upper-only and a lower-only item:
the upper pass draws the progressive item with the mask upper and the upper-only item,
the lower pass draws the progressive item with the mask lower and the lower-only item,
and the progressive pass draws all three with their own masks. -/
theorem field_pass_draws_exactly_visible_items_witness :
    (item_draws (draw sample_target mixed_field_layers sample_format .upper
      { calls := [], created := 1 }).calls).map item_part =
      [ drawn_part { item_N with transform := { item_N.transform with field_mode := .upper } },
        drawn_part item_upper ] ∧
    (item_draws (draw sample_target mixed_field_layers sample_format .lower
      { calls := [], created := 1 }).calls).map item_part =
      [ drawn_part { item_N with transform := { item_N.transform with field_mode := .lower } },
        drawn_part item_lower ] ∧
    (item_draws (draw sample_target mixed_field_layers sample_format .progressive
      { calls := [], created := 1 }).calls).map item_part =
      [drawn_part item_N, drawn_part item_upper, drawn_part item_lower] ∧
    (item_draws (draw sample_target mixed_field_layers sample_format .upper
      { calls := [], created := 1 }).calls).map item_part =
      (item_draws ({ calls := [], created := 1 } : gpu).calls).map item_part ++
        (pass_items .upper mixed_field_layers).map drawn_part :=
  ⟨by decide, by decide, by decide,
    (field_pass_draws_exactly_visible_items sample_target mixed_field_layers sample_format
      .upper { calls := [], created := 1 }).1⟩

theorem draw_item_followed (ok : gl_call → Bool) (hc : ∀ t, ok (.create_texture t true) = true)
    (hd : ∀ p, ok (.draw p) = true) (target : texture) (it : item)
    (layer_key : Option texture) (format_desc : video_format_desc) (s : locals) :
    followed_by ok s.g (draw_item target it layer_key format_desc s).g := by
  unfold draw_item
  by_cases hk : it.transform.is_key = true
  · simp only [hk, if_true]
    cases hlk : s.local_key with
    | none =>
      exact followed_by_trans _ _ _ _ (followed_by_create _ _ _ _ _ _ hc)
        (followed_by_draw _ _ _ (hd _))
    | some k => exact followed_by_draw _ _ _ (hd _)
  · simp only [hk, Bool.false_eq_true, if_false]
    by_cases hm : it.transform.is_mix = true
    · simp only [hm, if_true]
      cases hlm : s.local_mix with
      | none =>
        exact followed_by_trans _ _ _ _ (followed_by_create _ _ _ _ _ _ hc)
          (followed_by_draw _ _ _ (hd _))
      | some x => exact followed_by_draw _ _ _ (hd _)
    · simp only [hm, Bool.false_eq_true, if_false]
      exact followed_by_trans _ _ _ _
        (followed_by_draw_buffer _ _ target s.local_mix .normal (fun _ _ => hd _))
        (followed_by_draw _ _ _ (hd _))

theorem draw_items_followed (ok : gl_call → Bool) (hc : ∀ t, ok (.create_texture t true) = true)
    (hd : ∀ p, ok (.draw p) = true) (target : texture) (layer_key : Option texture)
    (format_desc : video_format_desc) (items : List item) :
    ∀ s : locals, followed_by ok s.g (draw_items target layer_key format_desc items s).g := by
  induction items with
  | nil => intro s; exact followed_by_refl _ _
  | cons it its ih =>
    intro s
    exact followed_by_trans _ _ _ _
      (draw_item_followed ok hc hd target it layer_key format_desc s) (ih _)

theorem draw_layer_followed (ok : gl_call → Bool) (hc : ∀ t, ok (.create_texture t true) = true)
    (hd : ∀ p, ok (.draw p) = true) (target : texture) (l : layer)
    (layer_key : Option texture) (format_desc : video_format_desc) (pass : field_mode)
    (g : gpu) : followed_by ok g (draw_layer target l layer_key format_desc pass g).2 := by
  unfold draw_layer
  by_cases he : (visible_items l.items pass).isEmpty = true
  · simp only [he, if_true]
    exact followed_by_refl _ _
  · simp only [he, Bool.false_eq_true, if_false]
    by_cases hb : l.blend_mode ≠ blend_mode.normal
    · simp only [hb, ne_eq, not_false_eq_true, if_true]
      exact followed_by_trans _ _ _ _
        (followed_by_create ok g target.width target.height 4 false hc)
        (followed_by_trans _ _ _ _
          (draw_items_followed ok hc hd _ layer_key format_desc _ _)
          (followed_by_trans _ _ _ _
            (followed_by_draw_buffer _ _ _ _ .normal (fun _ _ => hd _))
            (followed_by_draw_buffer _ _ _ _ _ (fun _ _ => hd _))))
    · simp only [hb, if_false]
      exact followed_by_trans _ _ _ _
        (draw_items_followed ok hc hd _ layer_key format_desc _ _)
        (followed_by_draw_buffer _ _ _ _ .normal (fun _ _ => hd _))

mutual
theorem draw_loop_followed (ok : gl_call → Bool) (hc : ∀ t, ok (.create_texture t true) = true)
    (hd : ∀ p, ok (.draw p) = true) (target : texture) (format_desc : video_format_desc)
    (pass : field_mode) :
    ∀ (layers : List layer) (layer_key : Option texture) (g : gpu),
      followed_by ok g (draw_loop target format_desc pass layers layer_key g)
  | [], _, g => by simp only [draw_loop]; exact followed_by_refl _ _
  | l :: ls, layer_key, g => by
    simp only [draw_loop]
    exact followed_by_trans _ _ _ _
      (draw_sublayers_followed ok hc hd target format_desc pass l g)
      (followed_by_trans _ _ _ _
        (draw_layer_followed ok hc hd target l layer_key format_desc pass _)
        (draw_loop_followed ok hc hd target format_desc pass ls _ _))
theorem draw_sublayers_followed (ok : gl_call → Bool)
    (hc : ∀ t, ok (.create_texture t true) = true) (hd : ∀ p, ok (.draw p) = true)
    (target : texture) (format_desc : video_format_desc) (pass : field_mode) :
    ∀ (l : layer) (g : gpu), followed_by ok g (draw_sublayers target format_desc pass l g)
  | ⟨sublayers, _, _⟩, g => by
    simp only [draw_sublayers]
    exact draw_loop_followed ok hc hd target format_desc pass sublayers none g
end

theorem draw_item_draws (target : texture) (layers : List layer)
    (format_desc : video_format_desc) (pass : field_mode) (g : gpu) :
    (item_draws (draw target layers format_desc pass g).calls).map item_part =
      (item_draws g.calls).map item_part ++ (pass_items pass layers).map drawn_part :=
  draw_loop_item_draws target format_desc pass layers none g

/-- C14: for a non-empty layer list the renderer requests one cleared 4-channel target
of the width and height of the format and draws every pass into it: when the field mode
of the format is not progressive, the recursive draw runs over the layer tree with
field mode upper and then over the same tree with field mode lower, whichever field
the format declares first; when it is progressive, the recursive draw runs once with
field mode progressive. The passes issue only texture requests and kernel draws; the
post-processing of the target, its attachment and its readback follow once, after all
passes, and the result is the pending readback of the target. -/
theorem render_runs_field_passes (desc_of : video_format → video_format_desc)
    (layers : List layer) (format_desc : video_format_desc) (straighten_alpha : Bool)
    (g : gpu) (hne : layers ≠ []) :
    ∃ (passes : gpu) (mid : List gl_call),
      render desc_of layers format_desc straighten_alpha g =
        (.readback (render_target format_desc g),
          { passes with
            calls := passes.calls ++
              [.post_process (render_target format_desc g) straighten_alpha,
               .attach (render_target format_desc g),
               .copy_async (render_target format_desc g)] }) ∧
      (format_desc.field_mode ≠ field_mode.progressive →
        passes =
          draw (render_target format_desc g) layers format_desc .lower
            (draw (render_target format_desc g) layers format_desc .upper
              (create_texture g format_desc.width format_desc.height 4 false).2)) ∧
      (format_desc.field_mode = field_mode.progressive →
        passes =
          draw (render_target format_desc g) layers format_desc .progressive
            (create_texture g format_desc.width format_desc.height 4 false).2) ∧
      passes.calls =
        g.calls ++ .create_texture (render_target format_desc g) true :: mid ∧
      (∀ c ∈ mid, is_create_or_draw c = true) ∧
      (format_desc.field_mode ≠ field_mode.progressive →
        (item_draws passes.calls).map item_part =
          (item_draws g.calls).map item_part ++
            (pass_items .upper layers ++ pass_items .lower layers).map drawn_part) ∧
      (format_desc.field_mode = field_mode.progressive →
        (item_draws passes.calls).map item_part =
          (item_draws g.calls).map item_part ++
            (pass_items .progressive layers).map drawn_part) := by
  have hempty : layers.isEmpty = false := by
    cases layers with
    | nil => exact absurd rfl hne
    | cons a as => rfl
  have hok1 : ∀ t, is_create_or_draw (.create_texture t true) = true := fun _ => rfl
  have hok2 : ∀ p, is_create_or_draw (.draw p) = true := fun _ => rfl
  have hcreate : (create_texture g format_desc.width format_desc.height 4 false).2.calls =
      g.calls ++ [.create_texture (render_target format_desc g) true] := rfl
  have hitems : item_draws (create_texture g format_desc.width format_desc.height 4 false).2.calls
      = item_draws g.calls := item_draws_create g _ _ _ _
  by_cases hp : format_desc.field_mode = field_mode.progressive
  · obtain ⟨mid, hmid, hall⟩ := draw_loop_followed is_create_or_draw hok1 hok2
      (render_target format_desc g) format_desc .progressive layers none
      (create_texture g format_desc.width format_desc.height 4 false).2
    refine ⟨draw (render_target format_desc g) layers format_desc .progressive
      (create_texture g format_desc.width format_desc.height 4 false).2, mid, ?_,
      fun h => absurd hp h, fun _ => rfl, ?_, hall, fun h => absurd hp h, ?_⟩
    · simp only [render, hempty, Bool.false_eq_true, if_false, hp, ne_eq, not_true_eq_false]
      rfl
    · show (draw_loop _ _ _ _ _ _).calls = _
      rw [hmid, hcreate]
      simp
    · intro _
      rw [draw_item_draws, hitems]
  · obtain ⟨mid1, hmid1, hall1⟩ := draw_loop_followed is_create_or_draw hok1 hok2
      (render_target format_desc g) format_desc .upper layers none
      (create_texture g format_desc.width format_desc.height 4 false).2
    obtain ⟨mid2, hmid2, hall2⟩ := draw_loop_followed is_create_or_draw hok1 hok2
      (render_target format_desc g) format_desc .lower layers none
      (draw_loop (render_target format_desc g) format_desc .upper layers none
        (create_texture g format_desc.width format_desc.height 4 false).2)
    refine ⟨draw (render_target format_desc g) layers format_desc .lower
      (draw (render_target format_desc g) layers format_desc .upper
        (create_texture g format_desc.width format_desc.height 4 false).2), mid1 ++ mid2, ?_,
      fun _ => rfl, fun h => absurd h hp, ?_, ?_, ?_, fun h => absurd h hp⟩
    · simp only [render, hempty, Bool.false_eq_true, if_false, hp, ne_eq, not_false_eq_true,
        if_true]
      rfl
    · simp only [draw]
      rw [hmid2, hmid1, hcreate]
      simp
    · intro c hc
      rcases List.mem_append.mp hc with h | h
      · exact hall1 c h
      · exact hall2 c h
    · intro _
      rw [draw_item_draws, draw_item_draws, hitems]
      simp

/-- Witness of C14 for a format that declares the lower field first and a layer that
holds a lower-only item followed by an upper-only item: the upper pass comes first, so
the upper-only item is drawn before the lower-only one. -/
theorem render_runs_field_passes_witness :
    field_layers ≠ [] ∧
    lower_first_format.field_mode = field_mode.lower ∧
    (render sample_table field_layers lower_first_format false sample_gpu).1 =
      .readback (render_target lower_first_format sample_gpu) ∧
    (item_draws (render sample_table field_layers lower_first_format false sample_gpu).2.calls).map
      item_part = [drawn_part item_upper, drawn_part item_lower] :=
  ⟨by simp [field_layers], rfl,
    (render_runs_field_passes sample_table field_layers lower_first_format false sample_gpu
      (by simp [field_layers])).elim fun _ h => h.elim fun _ hh => congrArg Prod.fst hh.1,
    by decide⟩

theorem pass_items_cons (pass : field_mode) (l : layer) (ls : List layer) :
    pass_items pass (l :: ls) =
      pass_items pass l.sublayers ++ (visible_items l.items pass ++ pass_items pass ls) := by
  cases l
  simp [pass_items, sublayer_items]

theorem pass_items_append (pass : field_mode) (xs ys : List layer) :
    pass_items pass (xs ++ ys) = pass_items pass xs ++ pass_items pass ys := by
  induction xs with
  | nil => simp [pass_items]
  | cons x xs ih =>
    rw [List.cons_append, pass_items_cons, pass_items_cons, ih]
    simp

theorem visible_items_eq (items : List item) (pass : field_mode) :
    visible_items items pass =
      (items.map (masked pass)).filter fun it =>
        decide (it.transform.field_mode ≠ field_mode.empty) := rfl

/-- C15: within one field pass the item draws are, in order, this traversal of the layer
tree: for each sibling layer in list order, first the traversal of its sublayers, then
its own visible items in insertion order. So for every layer of a sibling list the
draws of the earlier siblings with their subtrees come first, then the draws of the
subtree of the layer, then the draws of its own items, then the later siblings; and the
visible items of a layer are a sublist of its masked items, never reordered. -/
theorem item_draws_follow_tree_traversal (target : texture) (layers : List layer)
    (format_desc : video_format_desc) (pass : field_mode) (g : gpu) :
    (item_draws (draw target layers format_desc pass g).calls).map item_part =
      (item_draws g.calls).map item_part ++ (pass_items pass layers).map drawn_part ∧
    pass_items pass [] = [] ∧
    (∀ (l : layer) (ls : List layer),
      pass_items pass (l :: ls) =
        pass_items pass l.sublayers ++ (visible_items l.items pass ++ pass_items pass ls)) ∧
    (∀ (before : List layer) (l : layer) (after : List layer),
      pass_items pass (before ++ l :: after) =
        pass_items pass before ++
          (pass_items pass l.sublayers ++
            (visible_items l.items pass ++ pass_items pass after))) ∧
    (∀ items : List item,
      visible_items items pass =
        (items.map (masked pass)).filter fun it =>
          decide (it.transform.field_mode ≠ field_mode.empty)) ∧
    (∀ items : List item, (visible_items items pass).Sublist (items.map (masked pass))) := by
  refine ⟨draw_item_draws target layers format_desc pass g, by simp [pass_items],
    pass_items_cons pass, ?_, fun items => visible_items_eq items pass, ?_⟩
  · intro before l after
    rw [pass_items_append, pass_items_cons]
  · intro items
    rw [visible_items_eq]
    exact List.filter_sublist _

/-- An instance of C15 on `nested_layers`: the item of the sublayer `B` is drawn first,
then the item of its parent `A`, then the item of the later sibling `C`. -/
theorem item_draws_follow_tree_traversal_witness :
    (item_draws (draw sample_target nested_layers sample_format .progressive
      sample_gpu).calls).map item_part =
      [drawn_part (sample_item false false .progressive 22),
       drawn_part (sample_item false false .progressive 21),
       drawn_part (sample_item false false .progressive 23)] := by
  rw [(item_draws_follow_tree_traversal sample_target nested_layers sample_format .progressive
    sample_gpu).1]
  decide

theorem draw_item_local_key (target : texture) (it : item) (layer_key : Option texture)
    (format_desc : video_format_desc) (s : locals) :
    (it.transform.is_key = false →
      (draw_item target it layer_key format_desc s).local_key = none) ∧
    (it.transform.is_key = true →
      ∃ k, (draw_item target it layer_key format_desc s).local_key = some k ∧
        (draw_item target it layer_key format_desc s).g.calls.getLast? =
          some (.draw { item_params it format_desc with
                        background := some k, local_key := none, layer_key := none }) ∧
        (s.local_key = none → k.id = s.g.created ∧ k.stride = 1) ∧
        (∀ k0, s.local_key = some k0 → k = k0)) := by
  refine ⟨?_, ?_⟩
  · intro hk
    unfold draw_item
    simp only [hk, Bool.false_eq_true, if_false]
    split <;> rfl
  · intro hk
    unfold draw_item
    simp only [hk, if_true]
    cases hlk : s.local_key with
    | none =>
      refine ⟨_, rfl, ?_, fun _ => ⟨rfl, rfl⟩, fun k0 h => by simp at h⟩
      simp [kernel_draw]
    | some k0 =>
      refine ⟨k0, rfl, ?_, fun h => by simp at h, fun k1 h => by simpa using h⟩
      simp [kernel_draw]

theorem draw_items_concat (target : texture) (layer_key : Option texture)
    (format_desc : video_format_desc) (init : List item) (last : item) :
    ∀ s : locals,
      draw_items target layer_key format_desc (init ++ [last]) s =
        draw_item target last layer_key format_desc
          (draw_items target layer_key format_desc init s) := by
  induction init with
  | nil => intro s; rfl
  | cons it its ih =>
    intro s
    rw [List.cons_append]
    simp only [draw_items]
    exact ih _

theorem followed_by_mem (ok : gl_call → Bool) (g g1 : gpu) (h : followed_by ok g g1)
    (c : gl_call) (hc : c ∈ g.calls) : c ∈ g1.calls := by
  obtain ⟨new, e, _⟩ := h
  rw [e]
  exact List.mem_append_left _ hc

theorem draw_item_keyed (target : texture) (it : item) (layer_key : Option texture)
    (format_desc : video_format_desc) (s : locals) :
    followed_by (keyed_by layer_key) s.g (draw_item target it layer_key format_desc s).g := by
  unfold draw_item
  by_cases hk : it.transform.is_key = true
  · simp only [hk, if_true]
    cases hlk : s.local_key with
    | none =>
      exact followed_by_trans _ _ _ _ (followed_by_create _ _ _ _ _ _ (fun _ => rfl))
        (followed_by_draw _ _ _ (by simp [keyed_by, item_params, hk]))
    | some k => exact followed_by_draw _ _ _ (by simp [keyed_by, item_params, hk])
  · simp only [hk, Bool.false_eq_true, if_false]
    by_cases hm : it.transform.is_mix = true
    · simp only [hm, if_true]
      cases hlm : s.local_mix with
      | none =>
        exact followed_by_trans _ _ _ _ (followed_by_create _ _ _ _ _ _ (fun _ => rfl))
          (followed_by_draw _ _ _ (by simp [keyed_by, item_params, hk]))
      | some x => exact followed_by_draw _ _ _ (by simp [keyed_by, item_params, hk])
    · simp only [hm, Bool.false_eq_true, if_false]
      exact followed_by_trans _ _ _ _
        (followed_by_draw_buffer _ _ target s.local_mix .normal
          (fun _ _ => by simp [keyed_by, blend_params, is_item_draw]))
        (followed_by_draw _ _ _ (by simp [keyed_by, item_params, hk]))

theorem draw_items_keyed (target : texture) (layer_key : Option texture)
    (format_desc : video_format_desc) (items : List item) :
    ∀ s : locals,
      followed_by (keyed_by layer_key) s.g
        (draw_items target layer_key format_desc items s).g := by
  induction items with
  | nil => intro s; exact followed_by_refl _ _
  | cons it its ih =>
    intro s
    exact followed_by_trans _ _ _ _ (draw_item_keyed target it layer_key format_desc s) (ih _)

theorem draw_layer_keyed (target : texture) (l : layer) (layer_key : Option texture)
    (format_desc : video_format_desc) (pass : field_mode) (g : gpu) :
    followed_by (keyed_by layer_key) g
      (draw_layer target l layer_key format_desc pass g).2 := by
  have hb : ∀ (src bg : texture) (b : blend_mode),
      keyed_by layer_key (.draw (blend_params src bg b)) = true := by
    intro src bg b; simp [keyed_by, blend_params, is_item_draw]
  unfold draw_layer
  by_cases he : (visible_items l.items pass).isEmpty = true
  · simp only [he, if_true]
    exact followed_by_refl _ _
  · simp only [he, Bool.false_eq_true, if_false]
    by_cases hbl : l.blend_mode ≠ blend_mode.normal
    · simp only [hbl, ne_eq, not_false_eq_true, if_true]
      exact followed_by_trans _ _ _ _
        (followed_by_create _ g target.width target.height 4 false (fun _ => rfl))
        (followed_by_trans _ _ _ _
          (draw_items_keyed _ layer_key format_desc _ _)
          (followed_by_trans _ _ _ _
            (followed_by_draw_buffer _ _ _ _ .normal (fun _ _ => hb _ _ _))
            (followed_by_draw_buffer _ _ _ _ _ (fun _ _ => hb _ _ _))))
    · simp only [hbl, if_false]
      exact followed_by_trans _ _ _ _
        (draw_items_keyed _ layer_key format_desc _ _)
        (followed_by_draw_buffer _ _ _ _ .normal (fun _ _ => hb _ _ _))

theorem draw_layer_leftover_key (target : texture) (l : layer) (layer_key : Option texture)
    (format_desc : video_format_desc) (pass : field_mode) (g : gpu) (init : List item)
    (last : item) (hv : visible_items l.items pass = init ++ [last]) :
    (last.transform.is_key = false →
      (draw_layer target l layer_key format_desc pass g).1 = none) ∧
    (last.transform.is_key = true →
      ∃ k, (draw_layer target l layer_key format_desc pass g).1 = some k ∧
        gl_call.draw { item_params last format_desc with
                       background := some k, local_key := none, layer_key := none } ∈
          (draw_layer target l layer_key format_desc pass g).2.calls) := by
  have hne : (visible_items l.items pass).isEmpty = false := by
    rw [hv]; cases init <;> rfl
  unfold draw_layer
  simp only [hne, Bool.false_eq_true, if_false]
  rw [hv]
  simp only [draw_items_concat]
  by_cases hbl : l.blend_mode ≠ blend_mode.normal
  · simp only [hbl, ne_eq, not_false_eq_true, if_true]
    refine ⟨fun hk => (draw_item_local_key _ last layer_key format_desc _).1 hk, ?_⟩
    intro hk
    obtain ⟨k, h1, h2, _⟩ := (draw_item_local_key
      (create_texture g target.width target.height 4 false).1 last layer_key format_desc
      (draw_items (create_texture g target.width target.height 4 false).1 layer_key
        format_desc init
        { local_key := none, local_mix := none,
          g := (create_texture g target.width target.height 4 false).2 })).2 hk
    refine ⟨k, h1, ?_⟩
    apply followed_by_mem (fun _ => true) _ _
      (followed_by_draw_buffer _ _ _ _ _ (fun _ _ => rfl))
    apply followed_by_mem (fun _ => true) _ _
      (followed_by_draw_buffer _ _ _ _ _ (fun _ _ => rfl))
    exact List.mem_of_getLast?_eq_some h2
  · simp only [hbl, if_false]
    refine ⟨fun hk => (draw_item_local_key _ last layer_key format_desc _).1 hk, ?_⟩
    intro hk
    obtain ⟨k, h1, h2, _⟩ := (draw_item_local_key target last layer_key format_desc
      (draw_items target layer_key format_desc init
        { local_key := none, local_mix := none, g := g })).2 hk
    refine ⟨k, h1, ?_⟩
    apply followed_by_mem (fun _ => true) _ _
      (followed_by_draw_buffer _ _ _ _ _ (fun _ _ => rfl))
    exact List.mem_of_getLast?_eq_some h2

/-- C16: the layer key is one value carried along a sibling list. The recursive draw of
a list starts without a layer key, draws for each layer first its sublayers (as a list
of their own, again starting without a layer key) and then the layer with the key
carried so far, and carries on with the key that layer draw returns. A layer without
visible items returns the key it was given; a layer with visible items returns its
leftover local key: the buffer its last visible item was drawn into when that item has
the key flag, and none when the last visible item is a mix or normal item, which
consumes the local key. The items of a layer are drawn with the carried key as layer
key, except key items, which are drawn without one. -/
theorem layer_key_is_carried (target : texture) (format_desc : video_format_desc)
    (pass : field_mode) :
    (∀ (layers : List layer) (g : gpu),
      draw target layers format_desc pass g = draw_loop target format_desc pass layers none g) ∧
    (∀ (l : layer) (ls : List layer) (layer_key : Option texture) (g : gpu),
      draw_loop target format_desc pass (l :: ls) layer_key g =
        draw_loop target format_desc pass ls
          (draw_layer target l layer_key format_desc pass
            (draw target l.sublayers format_desc pass g)).1
          (draw_layer target l layer_key format_desc pass
            (draw target l.sublayers format_desc pass g)).2) ∧
    (∀ (l : layer) (layer_key : Option texture) (g : gpu),
      visible_items l.items pass = [] →
        draw_layer target l layer_key format_desc pass g = (layer_key, g)) ∧
    (∀ (l : layer) (layer_key : Option texture) (g : gpu) (init : List item) (last : item),
      visible_items l.items pass = init ++ [last] → last.transform.is_key = false →
        (draw_layer target l layer_key format_desc pass g).1 = none) ∧
    (∀ (l : layer) (layer_key : Option texture) (g : gpu) (init : List item) (last : item),
      visible_items l.items pass = init ++ [last] → last.transform.is_key = true →
        ∃ k, (draw_layer target l layer_key format_desc pass g).1 = some k ∧
          gl_call.draw { item_params last format_desc with
                         background := some k, local_key := none, layer_key := none } ∈
            (draw_layer target l layer_key format_desc pass g).2.calls) ∧
    (∀ (l : layer) (layer_key : Option texture) (g : gpu),
      followed_by (keyed_by layer_key) g
        (draw_layer target l layer_key format_desc pass g).2) := by
  refine ⟨fun _ _ => rfl, ?_, ?_, ?_, ?_, ?_⟩
  · intro l ls layer_key g
    cases l
    simp only [draw_loop, draw_sublayers, draw]
  · intro l layer_key g hv
    simp [draw_layer, hv]
  · intro l layer_key g init last hv hk
    exact (draw_layer_leftover_key target l layer_key format_desc pass g init last hv).1 hk
  · intro l layer_key g init last hv hk
    exact (draw_layer_leftover_key target l layer_key format_desc pass g init last hv).2 hk
  · intro l layer_key g
    exact draw_layer_keyed target l layer_key format_desc pass g

/-- Instances of C16. The layer `[K]` leaves the buffer `K` was drawn into as layer key.
For the siblings `[K]`, `[N]` the item `N` is drawn with that buffer as layer key. For
the siblings `[K]`, `[N]`, `[N2]` the second layer leaves no local key, and `N2` is
drawn without a layer key. -/
theorem layer_key_is_carried_witness :
    visible_items layer_K.items .progressive = [] ++ [item_K] ∧
    item_K.transform.is_key = true ∧
    (∃ k, (draw_layer sample_target layer_K none sample_format .progressive sample_gpu).1 =
        some k ∧
      gl_call.draw { item_params item_K sample_format with
                     background := some k, local_key := none, layer_key := none } ∈
        (draw_layer sample_target layer_K none sample_format .progressive sample_gpu).2.calls) ∧
    (draw sample_target [layer_K, layer_N] sample_format .progressive sample_gpu).calls =
      sample_gpu.calls ++
      [ .create_texture sample_local_key true,
        .draw { item_params item_K sample_format with
                background := some sample_local_key, local_key := none, layer_key := none },
        .draw { item_params item_N sample_format with
                background := some sample_target, local_key := none,
                layer_key := some sample_local_key } ] ∧
    (draw sample_target [layer_K, layer_N, layer_N2] sample_format .progressive
      sample_gpu).calls =
      sample_gpu.calls ++
      [ .create_texture sample_local_key true,
        .draw { item_params item_K sample_format with
                background := some sample_local_key, local_key := none, layer_key := none },
        .draw { item_params item_N sample_format with
                background := some sample_target, local_key := none,
                layer_key := some sample_local_key },
        .draw { item_params (sample_item false false .progressive 15) sample_format with
                background := some sample_target, local_key := none, layer_key := none } ] :=
  ⟨by decide, rfl,
    (layer_key_is_carried sample_target sample_format .progressive).2.2.2.2.1 layer_K none
      sample_gpu [] item_K (by decide) rfl,
    by decide, by decide⟩

theorem visible_items_nil_iff (items : List item) (pass : field_mode) :
    visible_items items pass = [] ↔
      ∀ it ∈ items, it.transform.field_mode.and pass = field_mode.empty := by
  simp [visible_items, List.filter_eq_nil_iff]

/-- C23: drawing a layer none of whose items remains in the field pass (the item list is
empty, or the mask of every item intersected with the pass is empty) returns the
carried layer key and the device state exactly as they were on entry: no kernel draw
and no texture request is issued. -/
theorem layer_without_visible_items_is_skipped (target : texture) (l : layer)
    (layer_key : Option texture) (format_desc : video_format_desc) (pass : field_mode)
    (g : gpu)
    (h : ∀ it ∈ l.items, it.transform.field_mode.and pass = field_mode.empty) :
    visible_items l.items pass = [] ∧
    draw_layer target l layer_key format_desc pass g = (layer_key, g) := by
  have hv := (visible_items_nil_iff l.items pass).2 h
  exact ⟨hv, by simp [draw_layer, hv]⟩

/-- Instances of C23: a layer without items, and a layer whose only item is visible in
the upper field drawn in the lower field pass, leave the carried key and the device
state as they were. -/
theorem layer_without_visible_items_is_skipped_witness :
    draw_layer sample_target (layer.create .normal) (some sample_layer_key) sample_format
      .progressive sample_gpu = (some sample_layer_key, sample_gpu) ∧
    (visible_items layer_upper.items .lower = [] ∧
      draw_layer sample_target layer_upper (some sample_layer_key) sample_format .lower
        sample_gpu = (some sample_layer_key, sample_gpu)) :=
  ⟨(layer_without_visible_items_is_skipped sample_target (layer.create .normal)
      (some sample_layer_key) sample_format .progressive sample_gpu
      (by intro it hit; simp [layer.create] at hit)).2,
    layer_without_visible_items_is_skipped sample_target layer_upper
      (some sample_layer_key) sample_format .lower sample_gpu (by decide)⟩

/-- C24 on the code: a flush does not resolve the pending local mix buffer. For every
item with neither flag drawn while a local mix buffer is pending, the buffer is blended
onto the destination, the item is drawn, and the same buffer is still pending
afterwards. For the normal-blend layer `[M, N, N2]` the mix buffer is therefore blended
onto the target three times: before `N`, before `N2` and at the end of the layer. -/
theorem mix_flush_is_repeated :
    (∀ (target : texture) (it : item) (layer_key : Option texture)
        (format_desc : video_format_desc) (s : locals) (x : texture),
      it.transform.is_key = false → it.transform.is_mix = false → s.local_mix = some x →
      (draw_item target it layer_key format_desc s).local_mix = some x ∧
      (draw_item target it layer_key format_desc s).g.calls =
        s.g.calls ++
        [ .draw (blend_params x target .normal),
          .draw { item_params it format_desc with
                  background := some target, local_key := s.local_key,
                  layer_key := layer_key } ]) ∧
    (draw_layer sample_target layer_MNN none sample_format .progressive sample_gpu).2.calls =
      sample_gpu.calls ++
      [ .create_texture sample_mix_only true,
        .draw { item_params item_M sample_format with
                background := some sample_mix_only, local_key := none, layer_key := none,
                keyer := .additive },
        .draw (blend_params sample_mix_only sample_target .normal),
        .draw { item_params item_N sample_format with
                background := some sample_target, local_key := none, layer_key := none },
        .draw (blend_params sample_mix_only sample_target .normal),
        .draw { item_params item_N2 sample_format with
                background := some sample_target, local_key := none, layer_key := none },
        .draw (blend_params sample_mix_only sample_target .normal) ] ∧
    mix_flushes sample_mix_only sample_target
      (draw_layer sample_target layer_MNN none sample_format .progressive
        sample_gpu).2.calls = 3 := by
  refine ⟨?_, by decide, by decide⟩
  intro target it layer_key format_desc s x hk hm hx
  simp [draw_item, hk, hm, hx, draw_buffer, kernel_draw, blend_params, draw_params.default]

mutual
theorem draw_loop_of_layer (ok : gl_call → Bool) (target : texture)
    (format_desc : video_format_desc) (pass : field_mode)
    (hl : ∀ (l : layer) (layer_key : Option texture) (g : gpu),
      followed_by ok g (draw_layer target l layer_key format_desc pass g).2) :
    ∀ (layers : List layer) (layer_key : Option texture) (g : gpu),
      followed_by ok g (draw_loop target format_desc pass layers layer_key g)
  | [], _, g => by simp only [draw_loop]; exact followed_by_refl _ _
  | l :: ls, layer_key, g => by
    simp only [draw_loop]
    exact followed_by_trans _ _ _ _
      (draw_sublayers_of_layer ok target format_desc pass hl l g)
      (followed_by_trans _ _ _ _ (hl l layer_key _)
        (draw_loop_of_layer ok target format_desc pass hl ls _ _))
theorem draw_sublayers_of_layer (ok : gl_call → Bool) (target : texture)
    (format_desc : video_format_desc) (pass : field_mode)
    (hl : ∀ (l : layer) (layer_key : Option texture) (g : gpu),
      followed_by ok g (draw_layer target l layer_key format_desc pass g).2) :
    ∀ (l : layer) (g : gpu), followed_by ok g (draw_sublayers target format_desc pass l g)
  | ⟨sublayers, _, _⟩, g => by
    simp only [draw_sublayers]
    exact draw_loop_of_layer ok target format_desc pass hl sublayers none g
end

theorem draw_item_key_ok (target : texture) (it : item) (layer_key : Option texture)
    (format_desc : video_format_desc) (s : locals)
    (hs : key_shaped target.width target.height s) :
    key_shaped target.width target.height (draw_item target it layer_key format_desc s) ∧
    followed_by (key_draw_ok target.width target.height) s.g
      (draw_item target it layer_key format_desc s).g := by
  unfold draw_item
  by_cases hk : it.transform.is_key = true
  · simp only [hk, if_true]
    cases hlk : s.local_key with
    | none =>
      refine ⟨?_, ?_⟩
      · intro k hk1
        simp only [create_texture, Option.some.injEq] at hk1
        rw [← hk1]
        exact ⟨rfl, rfl, rfl⟩
      · exact followed_by_trans _ _ _ _ (followed_by_create _ _ _ _ _ _ (fun _ => rfl))
          (followed_by_draw _ _ _ (by simp [key_draw_ok, item_params, create_texture]))
    | some k =>
      have hk2 := hs k hlk
      refine ⟨?_, ?_⟩
      · intro k1 hk1
        simp only [Option.some.injEq] at hk1
        rw [← hk1]
        exact hk2
      · exact followed_by_draw _ _ _ (by simp [key_draw_ok, item_params, hk2])
  · simp only [hk, Bool.false_eq_true, if_false]
    by_cases hm : it.transform.is_mix = true
    · simp only [hm, if_true]
      refine ⟨fun k hk1 => by simp at hk1, ?_⟩
      cases hlm : s.local_mix with
      | none =>
        exact followed_by_trans _ _ _ _ (followed_by_create _ _ _ _ _ _ (fun _ => rfl))
          (followed_by_draw _ _ _ (by simp [key_draw_ok, item_params, hk]))
      | some x => exact followed_by_draw _ _ _ (by simp [key_draw_ok, item_params, hk])
    · simp only [hm, Bool.false_eq_true, if_false]
      refine ⟨fun k hk1 => by simp at hk1, ?_⟩
      exact followed_by_trans _ _ _ _
        (followed_by_draw_buffer _ _ target s.local_mix .normal
          (fun _ _ => by
            simp [key_draw_ok, blend_params, draw_params.default, image_transform.identity]))
        (followed_by_draw _ _ _ (by simp [key_draw_ok, item_params, hk]))

theorem draw_items_key_ok (target : texture) (layer_key : Option texture)
    (format_desc : video_format_desc) (items : List item) :
    ∀ s : locals, key_shaped target.width target.height s →
      followed_by (key_draw_ok target.width target.height) s.g
        (draw_items target layer_key format_desc items s).g := by
  induction items with
  | nil => intro s _; exact followed_by_refl _ _
  | cons it its ih =>
    intro s hs
    have h1 := draw_item_key_ok target it layer_key format_desc s hs
    exact followed_by_trans _ _ _ _ h1.2 (ih _ h1.1)

theorem draw_layer_key_ok (target : texture) (format_desc : video_format_desc)
    (pass : field_mode) (l : layer) (layer_key : Option texture) (g : gpu) :
    followed_by (key_draw_ok target.width target.height) g
      (draw_layer target l layer_key format_desc pass g).2 := by
  have hb : ∀ (t : texture) (src : Option texture) (b : blend_mode) (g0 : gpu),
      followed_by (key_draw_ok target.width target.height) g0 (draw_buffer t src b g0) :=
    fun t src b g0 => followed_by_draw_buffer _ _ t src b
      (fun _ _ => by
        simp [key_draw_ok, blend_params, draw_params.default, image_transform.identity])
  unfold draw_layer
  by_cases he : (visible_items l.items pass).isEmpty = true
  · simp only [he, if_true]
    exact followed_by_refl _ _
  · simp only [he, Bool.false_eq_true, if_false]
    by_cases hbl : l.blend_mode ≠ blend_mode.normal
    · simp only [hbl, ne_eq, not_false_eq_true, if_true]
      have h2 : followed_by (key_draw_ok target.width target.height)
          (create_texture g target.width target.height 4 false).2
          (draw_items (create_texture g target.width target.height 4 false).1 layer_key
            format_desc (visible_items l.items pass)
            { local_key := none, local_mix := none,
              g := (create_texture g target.width target.height 4 false).2 }).g :=
        draw_items_key_ok (create_texture g target.width target.height 4 false).1
          layer_key format_desc _ _ (fun k hk => by simp at hk)
      exact followed_by_trans _ _ _ _
        (followed_by_create _ g target.width target.height 4 false (fun _ => rfl))
        (followed_by_trans _ _ _ _ h2
          (followed_by_trans _ _ _ _ (hb _ _ _ _) (hb _ _ _ _)))
    · simp only [hbl, if_false]
      exact followed_by_trans _ _ _ _
        (draw_items_key_ok target layer_key format_desc _ _ (fun k hk => by simp at hk))
        (hb _ _ _ _)

/-- C25: an item with the key flag is drawn with a local key buffer as background and
with neither a local key nor a layer key attached. When no local key buffer is pending,
one one-channel texture of the width and height of the destination is requested for it;
when one is pending, it is used and no texture is requested, so consecutive key items
draw into the same buffer. The local mix buffer is left as it is. In a whole field
pass every draw of a key item has a one-channel background of the width and height of
the target, which is therefore none of the four-channel destinations (the target, or
the off-screen image of a layer). -/
theorem key_items_draw_into_local_key (target : texture) (format_desc : video_format_desc) :
    (∀ (it : item) (layer_key : Option texture) (s : locals),
      it.transform.is_key = true → s.local_key = none →
      draw_item target it layer_key format_desc s =
        { local_key := some { id := s.g.created, width := target.width,
                              height := target.height, stride := 1,
                              mipmapped := it.transform.use_mipmap }
          local_mix := s.local_mix
          g :=
            { calls := s.g.calls ++
                [ .create_texture { id := s.g.created, width := target.width,
                                    height := target.height, stride := 1,
                                    mipmapped := it.transform.use_mipmap } true,
                  .draw { item_params it format_desc with
                          background := some { id := s.g.created, width := target.width,
                                               height := target.height, stride := 1,
                                               mipmapped := it.transform.use_mipmap }
                          local_key := none
                          layer_key := none } ]
              created := s.g.created + 1 } }) ∧
    (∀ (it : item) (layer_key : Option texture) (s : locals) (k : texture),
      it.transform.is_key = true → s.local_key = some k →
      draw_item target it layer_key format_desc s =
        { local_key := some k
          local_mix := s.local_mix
          g :=
            { calls := s.g.calls ++
                [ .draw { item_params it format_desc with
                          background := some k, local_key := none, layer_key := none } ]
              created := s.g.created } }) ∧
    (∀ (layers : List layer) (pass : field_mode) (g : gpu),
      followed_by (key_draw_ok target.width target.height) g
        (draw target layers format_desc pass g)) ∧
    (∀ (p : draw_params) (destination : texture),
      key_draw_ok target.width target.height (.draw p) = true →
      p.transform.is_key = true → destination.stride = 4 →
      p.background ≠ some destination ∧ p.local_key = none ∧ p.layer_key = none) ∧
    (∀ g : gpu, (create_texture g target.width target.height 4 false).1.stride = 4) ∧
    (∀ g : gpu, (render_target format_desc g).stride = 4) := by
  refine ⟨?_, ?_, ?_, ?_, fun _ => rfl, fun _ => rfl⟩
  · intro it layer_key s hk hs
    simp [draw_item, hk, hs, create_texture, kernel_draw, item_params]
  · intro it layer_key s k hk hs
    simp [draw_item, hk, hs, kernel_draw]
  · intro layers pass g
    exact draw_loop_of_layer _ target format_desc pass
      (draw_layer_key_ok target format_desc pass) layers none g
  · intro p destination hok hk hd
    simp only [key_draw_ok, hk, Bool.not_true, Bool.false_or, Bool.and_eq_true,
      decide_eq_true_eq] at hok
    refine ⟨?_, hok.1.2, hok.2⟩
    intro hb
    rw [hb] at hok
    simp only [decide_eq_true_eq] at hok
    omega

/-- An instance of C25: for the layer `[K, K2]` one local key buffer is requested and
both key items are drawn into it, with no key attached, although a layer key is
carried. -/
theorem key_items_draw_into_local_key_witness :
    (draw_layer sample_target layer_KK (some sample_layer_key) sample_format .progressive
      sample_gpu).2.calls =
      sample_gpu.calls ++
      [ .create_texture sample_local_key true,
        .draw { item_params item_K sample_format with
                background := some sample_local_key, local_key := none, layer_key := none },
        .draw { item_params item_K2 sample_format with
                background := some sample_local_key, local_key := none,
                layer_key := none } ] ∧
    followed_by (key_draw_ok sample_target.width sample_target.height) sample_gpu
      (draw sample_target [layer_KK] sample_format .progressive sample_gpu) :=
  ⟨by decide,
    (key_items_draw_into_local_key sample_target sample_format).2.2.1 [layer_KK]
      .progressive sample_gpu⟩

/-- C30: the role of an item is a three-way choice in which the key flag comes first.
An item with the key flag, with or without the mix flag, is drawn into the local key
buffer (the pending one, or a new one-channel texture) with the keyer of the request
left at its default and without a local key or layer key; the local mix buffer is left as it
is and a pending local key buffer stays pending. An item with the mix flag only is drawn
into the local mix buffer (the pending one, or a new four-channel texture) with the
additive keyer, the local key and the layer key, and consumes the local key. Every other
item is drawn onto the destination with the local key and the layer key, and consumes
the local key. In each case the item adds exactly one item draw. -/
theorem item_role_selection (target : texture) (it : item) (layer_key : Option texture)
    (format_desc : video_format_desc) (s : locals) :
    (it.transform.is_key = true →
      ∃ b : texture,
        (s.local_key = none →
          b = { id := s.g.created, width := target.width, height := target.height,
                stride := 1, mipmapped := it.transform.use_mipmap }) ∧
        (∀ k, s.local_key = some k → b = k) ∧
        (draw_item target it layer_key format_desc s).local_key = some b ∧
        (draw_item target it layer_key format_desc s).local_mix = s.local_mix ∧
        item_draws (draw_item target it layer_key format_desc s).g.calls =
          item_draws s.g.calls ++
            [{ item_params it format_desc with
               background := some b, local_key := none, layer_key := none }]) ∧
    (it.transform.is_key = false → it.transform.is_mix = true →
      ∃ x : texture,
        (s.local_mix = none →
          x = { id := s.g.created, width := target.width, height := target.height,
                stride := 4, mipmapped := it.transform.use_mipmap }) ∧
        (∀ x0, s.local_mix = some x0 → x = x0) ∧
        (draw_item target it layer_key format_desc s).local_key = none ∧
        (draw_item target it layer_key format_desc s).local_mix = some x ∧
        item_draws (draw_item target it layer_key format_desc s).g.calls =
          item_draws s.g.calls ++
            [{ item_params it format_desc with
               background := some x, local_key := s.local_key, layer_key := layer_key,
               keyer := .additive }]) ∧
    (it.transform.is_key = false → it.transform.is_mix = false →
      (draw_item target it layer_key format_desc s).local_key = none ∧
      (draw_item target it layer_key format_desc s).local_mix = s.local_mix ∧
      item_draws (draw_item target it layer_key format_desc s).g.calls =
        item_draws s.g.calls ++
          [{ item_params it format_desc with
             background := some target, local_key := s.local_key,
             layer_key := layer_key }]) ∧
    (item_params it format_desc).keyer = .linear := by
  have hi : ∀ p : draw_params, p.textures = it.textures.map .upload → is_item_draw p = true :=
    fun p hp => is_item_draw_uploads p it.textures hp
  refine ⟨?_, ?_, ?_, rfl⟩
  · intro hk
    unfold draw_item
    simp only [hk, if_true]
    cases hlk : s.local_key with
    | none =>
      refine ⟨_, fun _ => rfl, fun k h => by simp at h, rfl, trivial, ?_⟩
      simp only
      rw [item_draws_kernel_draw _ _ (hi _ rfl), item_draws_create]
      rfl
    | some k =>
      refine ⟨k, fun h => by simp at h, fun k0 h => by simp at h; exact h, rfl, trivial, ?_⟩
      simp only
      rw [item_draws_kernel_draw _ _ (hi _ rfl)]
  · intro hk hm
    unfold draw_item
    simp only [hk, hm, Bool.false_eq_true, if_false, if_true]
    cases hlm : s.local_mix with
    | none =>
      refine ⟨_, fun _ => rfl, fun k h => by simp at h, trivial, rfl, ?_⟩
      simp only
      rw [item_draws_kernel_draw _ _ (hi _ rfl), item_draws_create]
      rfl
    | some x =>
      refine ⟨x, fun h => by simp at h, fun k0 h => by simp at h; exact h, trivial, rfl, ?_⟩
      simp only
      rw [item_draws_kernel_draw _ _ (hi _ rfl)]
  · intro hk hm
    unfold draw_item
    simp only [hk, hm, Bool.false_eq_true, if_false]
    refine ⟨trivial, trivial, ?_⟩
    rw [item_draws_kernel_draw _ _ (hi _ rfl), item_draws_draw_buffer]

/-- An instance of C30: the item with both flags, drawn while a local key and a local
mix buffer are pending, is drawn into the pending local key buffer with the default
keyer; both buffers stay pending and no texture is requested. -/
theorem item_role_selection_witness :
    item_KM.transform.is_key = true ∧ item_KM.transform.is_mix = true ∧
    draw_item sample_target item_KM (some sample_layer_key) sample_format both_pending =
      { local_key := some sample_local_key
        local_mix := some sample_local_mix
        g :=
          { calls := both_pending.g.calls ++
              [ .draw { item_params item_KM sample_format with
                        background := some sample_local_key, local_key := none,
                        layer_key := none, keyer := .linear } ]
            created := 4 } } ∧
    (∃ b : texture,
      (draw_item sample_target item_KM (some sample_layer_key) sample_format
        both_pending).local_key = some b ∧
      (draw_item sample_target item_KM (some sample_layer_key) sample_format
        both_pending).local_mix = both_pending.local_mix) :=
  ⟨rfl, rfl, by decide,
    ((item_role_selection sample_target item_KM (some sample_layer_key) sample_format
      both_pending).1 rfl).elim fun b h => ⟨b, h.2.2.1, h.2.2.2.1⟩⟩

end image_renderer

/-! ## Claims about the device -/

namespace device

theorem request_nonempty (d : impl) (width height stride : Int) (mipmapped : Bool)
    (t : texture) (rest : List texture)
    (hv : 0 ≤ pool_index stride mipmapped ∧ pool_index stride mipmapped < 8)
    (hb : d.device_pools_ (pool_index stride mipmapped).toNat (pool_key width height) =
      t :: rest) :
    ∃ h d1, create_cleared_texture d true width height stride mipmapped = (.ok h, d1) ∧
      h.tex = t ∧
      (release_texture d1 h).device_pools_ (pool_index stride mipmapped).toNat
        (pool_key width height) = rest ++ [t] ∧
      (release_texture d1 h).textures_allocated = d.textures_allocated ∧
      allocations (release_texture d1 h).events = allocations d.events := by
  have hv1 : ¬ (pool_index stride mipmapped < 0 ∨ 8 ≤ pool_index stride mipmapped) := by omega
  refine ⟨⟨t, (pool_index stride mipmapped).toNat, pool_key width height⟩,
    (create_cleared_texture d true width height stride mipmapped).2, ?_, rfl, ?_, ?_, ?_⟩
  · apply Prod.ext
    · simp only [create_cleared_texture, create_texture, Bool.not_true, Bool.false_eq_true,
        if_false, hv1, hb, if_true]
    · rfl
  · simp [create_cleared_texture, create_texture, hv1, hb, release_texture, set_bucket]
  · simp [create_cleared_texture, create_texture, hv1, hb, release_texture]
  · simp [create_cleared_texture, create_texture, hv1, hb, release_texture, allocations,
      List.countP_append]

theorem request_empty (d : impl) (width height stride : Int) (mipmapped : Bool)
    (hv : 0 ≤ pool_index stride mipmapped ∧ pool_index stride mipmapped < 8)
    (hb : d.device_pools_ (pool_index stride mipmapped).toNat (pool_key width height) = []) :
    ∃ h d1, create_cleared_texture d true width height stride mipmapped = (.ok h, d1) ∧
      h.tex = { id := d.textures_allocated, width := width, height := height,
                stride := stride, mipmapped := mipmapped } ∧
      (release_texture d1 h).device_pools_ (pool_index stride mipmapped).toNat
        (pool_key width height) = [h.tex] ∧
      (release_texture d1 h).textures_allocated = d.textures_allocated + 1 ∧
      allocations (release_texture d1 h).events = allocations d.events + 1 := by
  have hv1 : ¬ (pool_index stride mipmapped < 0 ∨ 8 ≤ pool_index stride mipmapped) := by omega
  refine ⟨⟨{ id := d.textures_allocated, width := width, height := height,
             stride := stride, mipmapped := mipmapped },
      (pool_index stride mipmapped).toNat, pool_key width height⟩,
    (create_cleared_texture d true width height stride mipmapped).2, ?_, rfl, ?_, ?_, ?_⟩
  · apply Prod.ext
    · simp only [create_cleared_texture, create_texture, Bool.not_true, Bool.false_eq_true,
        if_false, hv1, hb, if_true]
    · rfl
  · simp [create_cleared_texture, create_texture, hv1, hb, release_texture, set_bucket]
  · simp [create_cleared_texture, create_texture, hv1, hb, release_texture]
  · simp [create_cleared_texture, create_texture, hv1, hb, release_texture, allocations,
      List.countP_append]

theorem request_release_nonempty (width height stride : Int) (mipmapped : Bool)
    (hv : 0 ≤ pool_index stride mipmapped ∧ pool_index stride mipmapped < 8) (n : Nat) :
    ∀ (d : impl) (t : texture) (rest : List texture),
      d.device_pools_ (pool_index stride mipmapped).toNat (pool_key width height) = t :: rest →
      (request_release width height stride mipmapped n d).1.length = n ∧
      (request_release width height stride mipmapped n d).2.textures_allocated =
        d.textures_allocated ∧
      allocations (request_release width height stride mipmapped n d).2.events =
        allocations d.events ∧
      (rest = [] → ∀ x ∈ (request_release width height stride mipmapped n d).1, x = t) := by
  induction n with
  | zero => intro d t rest _; simp [request_release]
  | succ n ih =>
    intro d t rest hb
    obtain ⟨h, d1, hc, ht, hb1, ha1, he1⟩ :=
      request_nonempty d width height stride mipmapped t rest hv hb
    simp only [request_release, hc]
    cases rest with
    | nil =>
      obtain ⟨i1, i2, i3, i4⟩ := ih (release_texture d1 h) t [] (by simpa using hb1)
      refine ⟨by simp [i1], by rw [i2, ha1], by rw [i3, he1], ?_⟩
      intro _ x hx
      rcases List.mem_cons.mp hx with hx1 | hx1
      · rw [hx1, ht]
      · exact i4 rfl x hx1
    | cons r rs =>
      obtain ⟨i1, i2, i3, _⟩ := ih (release_texture d1 h) r (rs ++ [t]) (by simpa using hb1)
      exact ⟨by simp [i1], by rw [i2, ha1], by rw [i3, he1], by intro hc; simp at hc⟩

theorem request_release_queue_order (width height stride : Int) (mipmapped : Bool)
    (hv : 0 ≤ pool_index stride mipmapped ∧ pool_index stride mipmapped < 8) (n : Nat) :
    ∀ (d : impl),
      n ≤ (d.device_pools_ (pool_index stride mipmapped).toNat (pool_key width height)).length →
      (request_release width height stride mipmapped n d).1 =
        (d.device_pools_ (pool_index stride mipmapped).toNat (pool_key width height)).take n := by
  induction n with
  | zero => intro d _; simp [request_release]
  | succ n ih =>
    intro d hn
    cases hb : d.device_pools_ (pool_index stride mipmapped).toNat (pool_key width height) with
    | nil => rw [hb] at hn; simp at hn
    | cons t rest =>
      obtain ⟨h, d1, hc, ht, hb1, _, _⟩ :=
        request_nonempty d width height stride mipmapped t rest hv hb
      rw [hb] at hn
      simp only [List.length_cons, Nat.add_le_add_iff_right] at hn
      simp only [request_release, hc, List.take_succ_cons]
      rw [ih (release_texture d1 h) (by rw [hb1]; simp; omega), hb1, ht,
        List.take_append_of_le_length hn]

theorem pool_index_valid (stride : Int) (mipmapped : Bool) (hs : 0 < stride ∧ stride < 5) :
    0 ≤ pool_index stride mipmapped ∧ pool_index stride mipmapped < 8 := by
  unfold pool_index
  cases mipmapped <;> simp <;> omega

/-- C9 fails as stated: on a device whose bucket for the shape holds two idle textures
(reached from a fresh device by two requests followed by the two releases), the first
of two request-release rounds returns one of them and the second returns the other,
because a released texture is pushed to the back of the queue the next request pops
from the front. -/
theorem pool_reuse_counterexample :
    (create_cleared_texture fresh true 1920 1080 4 false).1 = .ok handle_a ∧
    (create_cleared_texture one_leased true 1920 1080 4 false).1 = .ok handle_b ∧
    (request_release 1920 1080 4 false 2 two_idle).1 = [handle_a.tex, handle_b.tex] ∧
    handle_a.tex ≠ handle_b.tex := by
  decide

/-- C9 as amended: for every shape that passes the checks of `create_texture` (planes
in 1..4, positive width and height) and every
`N >= 1`, requesting a texture of that shape `N` times on the execution context,
releasing each handle before the next request, allocates at most one texture, namely
at the first request and only if the bucket of the shape is empty then; requests 2..N
never allocate but pop the bucket. All `N` requests return the same texture object when
the bucket is empty or holds a single idle texture at the first request; when the
bucket holds at least `N` idle textures, the requests return its first `N` textures in
queue order. -/
theorem pool_reuse_after_first_request (d : impl) (width height stride : Int)
    (mipmapped : Bool) (n : Nat) (hs : 0 < stride ∧ stride < 5)
    (_hw : 0 < width ∧ 0 < height) :
    (request_release width height stride mipmapped (n + 1) d).1.length = n + 1 ∧
    allocations (request_release width height stride mipmapped (n + 1) d).2.events =
      allocations d.events +
        (if d.device_pools_ (pool_index stride mipmapped).toNat (pool_key width height) = []
          then 1 else 0) ∧
    (d.device_pools_ (pool_index stride mipmapped).toNat (pool_key width height) = [] →
      (request_release width height stride mipmapped (n + 1) d).1 =
        List.replicate (n + 1)
          { id := d.textures_allocated, width := width, height := height, stride := stride,
            mipmapped := mipmapped }) ∧
    (∀ t, d.device_pools_ (pool_index stride mipmapped).toNat (pool_key width height) = [t] →
      (request_release width height stride mipmapped (n + 1) d).1 =
        List.replicate (n + 1) t) ∧
    (n + 1 ≤
        (d.device_pools_ (pool_index stride mipmapped).toNat (pool_key width height)).length →
      (request_release width height stride mipmapped (n + 1) d).1 =
        (d.device_pools_ (pool_index stride mipmapped).toNat (pool_key width height)).take
          (n + 1)) := by
  have hv := pool_index_valid stride mipmapped hs
  refine ⟨?_, ?_, ?_, ?_,
    request_release_queue_order width height stride mipmapped hv (n + 1) d⟩
  · cases hb : d.device_pools_ (pool_index stride mipmapped).toNat (pool_key width height) with
    | nil =>
      obtain ⟨h, d1, hc, _, hb1, _, _⟩ := request_empty d width height stride mipmapped hv hb
      obtain ⟨i1, _, _, _⟩ := request_release_nonempty width height stride mipmapped hv n
        (release_texture d1 h) h.tex [] hb1
      simp [request_release, hc, i1]
    | cons t rest =>
      exact (request_release_nonempty width height stride mipmapped hv (n + 1) d t rest hb).1
  · cases hb : d.device_pools_ (pool_index stride mipmapped).toNat (pool_key width height) with
    | nil =>
      obtain ⟨h, d1, hc, _, hb1, _, he1⟩ := request_empty d width height stride mipmapped hv hb
      obtain ⟨_, _, i3, _⟩ := request_release_nonempty width height stride mipmapped hv n
        (release_texture d1 h) h.tex [] hb1
      simp only [request_release, hc, if_true]
      rw [i3, he1]
    | cons t rest =>
      obtain ⟨_, _, i3, _⟩ := request_release_nonempty width height stride mipmapped hv (n + 1)
        d t rest hb
      simp [i3]
  · intro hb
    obtain ⟨h, d1, hc, ht, hb1, _, _⟩ := request_empty d width height stride mipmapped hv hb
    obtain ⟨i1, _, _, i4⟩ := request_release_nonempty width height stride mipmapped hv n
      (release_texture d1 h) h.tex [] hb1
    simp only [request_release, hc]
    rw [List.eq_replicate_iff]
    refine ⟨by simp [i1], ?_⟩
    intro x hx
    rcases List.mem_cons.mp hx with hx1 | hx1
    · rw [hx1, ht]
    · rw [i4 rfl x hx1, ht]
  · intro t hb
    obtain ⟨i1, _, _, i4⟩ := request_release_nonempty width height stride mipmapped hv (n + 1)
      d t [] hb
    rw [List.eq_replicate_iff]
    exact ⟨i1, i4 rfl⟩

/-- Witness of the amended C9 on a fresh device: three request-release rounds for a
1920 x 1080 four-channel texture return the texture allocated by the first, three
times. -/
theorem pool_reuse_after_first_request_witness :
    ((0 : Int) < 4 ∧ (4 : Int) < 5) ∧ ((0 : Int) < 1920 ∧ (0 : Int) < 1080) ∧
    (request_release 1920 1080 4 false 3 fresh).1 = List.replicate 3 handle_a.tex ∧
    allocations (request_release 1920 1080 4 false 3 fresh).2.events = 1 :=
  ⟨by decide, by decide,
    (pool_reuse_after_first_request fresh 1920 1080 4 false 2 (by decide) (by decide)).2.2.1 rfl,
    (pool_reuse_after_first_request fresh 1920 1080 4 false 2 (by decide) (by decide)).2.1⟩

theorem create_texture_ok (d : impl) (width height stride : Int) (mipmapped clear : Bool)
    (hs : 0 < stride ∧ stride < 5) :
    ∃ h, (create_texture d true width height stride mipmapped clear).1 = .ok h ∧
      creations (create_texture d true width height stride mipmapped clear).2.events =
        creations d.events + 1 ∧
      uploads (create_texture d true width height stride mipmapped clear).2.events =
        uploads d.events ∧
      (create_texture d true width height stride mipmapped clear).2.texture_cache_ =
        d.texture_cache_ := by
  have hv := pool_index_valid stride mipmapped hs
  have hv1 : ¬ (pool_index stride mipmapped < 0 ∨ 8 ≤ pool_index stride mipmapped) := by omega
  cases hb : d.device_pools_ (pool_index stride mipmapped).toNat (pool_key width height) with
  | nil =>
    refine ⟨⟨{ id := d.textures_allocated, width := width, height := height,
               stride := stride, mipmapped := mipmapped },
      (pool_index stride mipmapped).toNat, pool_key width height⟩, ?_, ?_, ?_, ?_⟩
    · simp only [create_texture, Bool.not_true, Bool.false_eq_true, if_false, hv1, hb]
    · cases clear <;>
        simp [create_texture, hv1, hb, creations, List.countP_append]
    · cases clear <;>
        simp [create_texture, hv1, hb, uploads, List.countP_append]
    · cases clear <;> simp [create_texture, hv1, hb]
  | cons t rest =>
    refine ⟨⟨t, (pool_index stride mipmapped).toNat, pool_key width height⟩, ?_, ?_, ?_, ?_⟩
    · simp only [create_texture, Bool.not_true, Bool.false_eq_true, if_false, hv1, hb]
    · cases clear <;>
        simp [create_texture, hv1, hb, creations, List.countP_append]
    · cases clear <;>
        simp [create_texture, hv1, hb, uploads, List.countP_append]
    · cases clear <;> simp [create_texture, hv1, hb]

theorem upload_task_miss (d : impl) (buf : Nat) (width height stride : Int) (mipmapped : Bool)
    (hs : 0 < stride ∧ stride < 5) (hc : d.texture_cache_ buf = none) :
    ∃ h, (upload_task d buf width height stride mipmapped).1 = .ok h ∧
      (create_texture d true width height stride mipmapped false).1 = .ok h ∧
      creations (upload_task d buf width height stride mipmapped).2.events =
        creations d.events + 1 ∧
      uploads (upload_task d buf width height stride mipmapped).2.events =
        uploads d.events + 1 ∧
      (upload_task d buf width height stride mipmapped).2.events.getLast? =
        some (.copy_from h.tex buf) ∧
      (upload_task d buf width height stride mipmapped).2.texture_cache_ buf = some h := by
  obtain ⟨h, h1, h2, h3, _⟩ := create_texture_ok d width height stride mipmapped false hs
  rcases hr : create_texture d true width height stride mipmapped false with ⟨o, d1⟩
  rw [hr] at h1 h2 h3
  simp only at h1 h2 h3
  subst h1
  refine ⟨h, ?_, rfl, ?_, ?_, ?_, ?_⟩
  · simp only [upload_task, hc, hr]
  · simp only [upload_task, hc, hr]
    simp only [creations, List.countP_append] at h2 ⊢
    simp [h2]
  · simp only [upload_task, hc, hr]
    simp only [uploads, List.countP_append] at h3 ⊢
    simp [h3]
  · simp only [upload_task, hc, hr]
    simp
  · simp only [upload_task, hc, hr]
    simp

theorem upload_task_hit (d : impl) (buf : Nat) (width height stride : Int) (mipmapped : Bool)
    (h : texture_handle) (hc : d.texture_cache_ buf = some h) :
    upload_task d buf width height stride mipmapped = (.ok h, d) := by
  simp only [upload_task, hc]

theorem copy_async_backed (d : impl) (source : array) (b : Nat) (width height stride : Int)
    (mipmapped : Bool) (hb : source.storage = some b) :
    copy_async d source width height stride mipmapped =
      upload_task d b width height stride mipmapped := by
  simp only [copy_async, copy_to_buf, hb]

/-- C7 fails as stated: once `source_five` has been uploaded, two further upload calls
from the same host buffer with the same width, height and stride return the same image
instance, but no texture is created and no upload is performed across these two calls,
not one of each. -/
theorem repeated_upload_counterexample :
    (copy_async uploaded_once source_five 2 2 4 false).1 =
      (copy_async (copy_async uploaded_once source_five 2 2 4 false).2
        source_five 2 2 4 false).1 ∧
    creations (copy_async (copy_async uploaded_once source_five 2 2 4 false).2
      source_five 2 2 4 false).2.events = creations uploaded_once.events ∧
    uploads (copy_async (copy_async uploaded_once source_five 2 2 4 false).2
      source_five 2 2 4 false).2.events = uploads uploaded_once.events := by
  decide

/-- C7 as amended: two upload `copy_async` calls whose source arrays are backed by the
same host buffer object, with the same width, height and stride and no release of the
buffer in between, return the same image instance, and the second call creates no
texture, uploads nothing and leaves the device as it is. Across the two calls exactly
one texture is created and one upload performed when the buffer has no cache entry
before the first call, and none when it already has one. The shape is one that passes
the checks of `create_texture` (stride in 1..4, positive width and height). -/
theorem repeated_upload_returns_cached (d : impl) (source : array) (b : Nat)
    (width height stride : Int) (mipmapped : Bool) (hs : 0 < stride ∧ stride < 5)
    (_hw : 0 < width ∧ 0 < height) (hb : source.storage = some b) :
    ∃ h, (copy_async d source width height stride mipmapped).1 = .ok h ∧
      copy_async (copy_async d source width height stride mipmapped).2 source width height
        stride mipmapped = (.ok h, (copy_async d source width height stride mipmapped).2) ∧
      (d.texture_cache_ b = none →
        creations (copy_async d source width height stride mipmapped).2.events =
          creations d.events + 1 ∧
        uploads (copy_async d source width height stride mipmapped).2.events =
          uploads d.events + 1) ∧
      (∀ h0, d.texture_cache_ b = some h0 →
        copy_async d source width height stride mipmapped = (.ok h0, d)) := by
  rw [copy_async_backed _ _ b _ _ _ _ hb]
  cases hc : d.texture_cache_ b with
  | none =>
    obtain ⟨h, h1, _, h3, h4, _, h6⟩ := upload_task_miss d b width height stride mipmapped hs hc
    refine ⟨h, h1, ?_, fun _ => ⟨h3, h4⟩, ?_⟩
    · rw [copy_async_backed _ _ b _ _ _ _ hb]
      exact upload_task_hit _ b width height stride mipmapped h h6
    · intro h0 hh; simp at hh
  | some h0 =>
    have hhit := upload_task_hit d b width height stride mipmapped h0 hc
    refine ⟨h0, by rw [hhit], ?_, ?_, ?_⟩
    · rw [copy_async_backed _ _ b _ _ _ _ hb, hhit]
      exact hhit
    · intro hh; simp at hh
    · intro h1 hh
      simp only [Option.some.injEq] at hh
      rw [← hh]; exact hhit

/-- Witness of the amended C7 on a fresh device: the first upload of `source_five`
creates one texture and uploads once, and the second call returns the same handle. -/
theorem repeated_upload_returns_cached_witness :
    ((0 : Int) < 4 ∧ (4 : Int) < 5) ∧ ((0 : Int) < 2 ∧ (0 : Int) < 2) ∧
    source_five.storage = some 5 ∧
    ∃ h, (copy_async fresh source_five 2 2 4 false).1 = .ok h ∧
      (copy_async uploaded_once source_five 2 2 4 false).1 = .ok h ∧
      creations uploaded_once.events = 1 ∧ uploads uploaded_once.events = 1 :=
  ⟨by decide, by decide, rfl,
    (repeated_upload_returns_cached fresh source_five 5 2 2 4 false (by decide) (by decide)
      rfl).elim
      fun h hh => ⟨h, hh.1, congrArg Prod.fst hh.2.1, hh.2.2.1 rfl⟩⟩

/-- C17: `create_texture` and the GPU-to-host `copy_async` raise the invalid-operation
error exactly when the calling thread is not the execution context of the device, and
then the device state is the state before the call: no pool entry popped, nothing
allocated, the upload cache as it was. -/
theorem gpu_operations_require_execution_context (d : impl) (is_current : Bool)
    (width height stride : Int) (mipmapped clear : Bool) (source : texture) (size : Nat) :
    ((create_texture d is_current width height stride mipmapped clear).1 =
        .thrown .invalid_operation ↔ is_current = false) ∧
    (is_current = false →
      (create_texture d is_current width height stride mipmapped clear).2 = d) ∧
    ((copy_async_texture d is_current source size).1 = .thrown .invalid_operation ↔
        is_current = false) ∧
    (is_current = false → (copy_async_texture d is_current source size).2 = d) := by
  cases is_current
  · simp [create_texture, copy_async_texture]
  · refine ⟨?_, by simp, by simp [copy_async_texture], by simp⟩
    simp only [create_texture, Bool.not_true, Bool.false_eq_true, if_false]
    split <;> simp

/-- Instances of C17 on a fresh device: off the execution context both calls raise the
error and leave the device fresh; on it a texture and a read-only buffer are handed
out. -/
theorem gpu_operations_require_execution_context_witness :
    (create_texture fresh false 1920 1080 4 false true).1 = .thrown .invalid_operation ∧
    (create_texture fresh false 1920 1080 4 false true).2 = fresh ∧
    (copy_async_texture fresh false handle_a.tex 8294400).1 = .thrown .invalid_operation ∧
    (copy_async_texture fresh false handle_a.tex 8294400).2 = fresh ∧
    (create_texture fresh true 1920 1080 4 false true).1 = .ok handle_a ∧
    (copy_async_texture fresh true handle_a.tex 8294400).1 =
      .ok { id := 0, size := 8294400, usage := .read_only } :=
  ⟨(gpu_operations_require_execution_context fresh false 1920 1080 4 false true
      handle_a.tex 8294400).1.2 rfl,
    (gpu_operations_require_execution_context fresh false 1920 1080 4 false true
      handle_a.tex 8294400).2.1 rfl,
    (gpu_operations_require_execution_context fresh false 1920 1080 4 false true
      handle_a.tex 8294400).2.2.1.2 rfl,
    (gpu_operations_require_execution_context fresh false 1920 1080 4 false true
      handle_a.tex 8294400).2.2.2 rfl,
    by decide, by decide⟩

theorem pool_key_in_range (width height : Int) (hw : 0 < width ∧ width < 65536)
    (hh : 0 < height ∧ height < 65536) :
    pool_key width height = width.toNat * 65536 + height.toNat := by
  obtain ⟨w, rfl⟩ := Int.eq_ofNat_of_zero_le (le_of_lt hw.1)
  obtain ⟨h, rfl⟩ := Int.eq_ofNat_of_zero_le (le_of_lt hh.1)
  have hw2 : w < 65536 := by omega
  have hh2 : h < 65536 := by omega
  have e1 : u32 ((w : Int) * 65536) = w * 65536 := by
    unfold u32
    have : ((w : Int) * 65536) % 4294967296 = ((w * 65536 : Nat) : Int) := by
      rw [Int.emod_eq_of_lt] <;> push_cast <;> omega
    rw [this, Int.toNat_ofNat]
  have e2 : u32 (h : Int) = h := by
    unfold u32
    have : (h : Int) % 4294967296 = (h : Int) := by
      rw [Int.emod_eq_of_lt] <;> omega
    rw [this, Int.toNat_ofNat]
  have a1 : (w * 65536) &&& 0xFFFF0000 = w * 65536 := by
    have e : (0xFFFF0000 : Nat) = (2 ^ 16 - 1) <<< 16 := by decide
    have e3 : w * 65536 = w <<< 16 := by rw [Nat.shiftLeft_eq]
    rw [e, e3]
    apply Nat.eq_of_testBit_eq
    intro i
    simp only [Nat.testBit_and, Nat.testBit_shiftLeft, Nat.testBit_two_pow_sub_one]
    by_cases hi : i ≥ 16
    · by_cases hj : i - 16 < 16
      · simp [hi, hj]
      · have : w.testBit (i - 16) = false := by
          apply Nat.testBit_lt_two_pow
          calc w < 2 ^ 16 := hw2
            _ ≤ 2 ^ (i - 16) := Nat.pow_le_pow_right (by decide) (by omega)
        simp [this]
    · simp [hi]
  have a2 : h &&& 0x0000FFFF = h := Nat.and_pow_two_sub_one_of_lt_two_pow (n := 16) hh2
  have a3 : (w * 65536) ||| h = w * 65536 + h := by
    have := Nat.mul_add_lt_is_or (i := 16) hh2 w
    simp only [Nat.reducePow] at this
    rw [Nat.mul_comm w, ← this]
  unfold pool_key
  rw [e1, e2, a1, a2, a3, Int.toNat_ofNat, Int.toNat_ofNat]

theorem bucket_injective (w1 h1 s1 : Int) (m1 : Bool) (w2 h2 s2 : Int) (m2 : Bool)
    (r1 : in_range w1 h1 s1) (r2 : in_range w2 h2 s2)
    (hi : (pool_index s1 m1).toNat = (pool_index s2 m2).toNat)
    (hk : pool_key w1 h1 = pool_key w2 h2) :
    w1 = w2 ∧ h1 = h2 ∧ s1 = s2 ∧ m1 = m2 := by
  obtain ⟨a1, a2, a3, a4, a5, a6⟩ := r1
  obtain ⟨b1, b2, b3, b4, b5, b6⟩ := r2
  rw [pool_key_in_range w1 h1 ⟨a1, a2⟩ ⟨a3, a4⟩,
    pool_key_in_range w2 h2 ⟨b1, b2⟩ ⟨b3, b4⟩] at hk
  have v1 := pool_index_valid s1 m1 ⟨a5, a6⟩
  have v2 := pool_index_valid s2 m2 ⟨b5, b6⟩
  have hi2 : pool_index s1 m1 = pool_index s2 m2 := by omega
  unfold pool_index at hi2
  refine ⟨by omega, by omega, ?_, ?_⟩
  · cases m1 <;> cases m2 <;> simp at hi2 <;> omega
  · cases m1 <;> cases m2 <;> simp at hi2 <;> first | rfl | omega

theorem exact_pools_fresh : exact_pools fresh := by
  intro i k t ht
  simp [fresh] at ht

theorem exact_pools_release (d : impl) (h : texture_handle) (hd : exact_pools d)
    (hh : exact_handle h) : exact_pools (release_texture d h) := by
  intro i k t ht
  simp only [release_texture, set_bucket] at ht
  split at ht
  · rename_i hik
    rcases List.mem_append.1 ht with ht1 | ht1
    · exact hd _ _ _ (by rw [hik.1, hik.2]; exact ht1)
    · rw [List.mem_singleton] at ht1
      subst ht1
      exact ⟨hh.1, by rw [hik.1]; exact hh.2.1, by rw [hik.2]; exact hh.2.2⟩
  · exact hd _ _ _ ht

theorem create_texture_exact (d : impl) (width height stride : Int) (mipmapped clear : Bool)
    (hr : in_range width height stride) (hd : exact_pools d) :
    ∃ h, (create_texture d true width height stride mipmapped clear).1 = .ok h ∧
      h.tex.width = width ∧ h.tex.height = height ∧ h.tex.stride = stride ∧
      h.tex.mipmapped = mipmapped ∧ exact_handle h ∧
      exact_pools (create_texture d true width height stride mipmapped clear).2 := by
  have hv := pool_index_valid stride mipmapped hr.2.2.2.2
  have hv1 : ¬ (pool_index stride mipmapped < 0 ∨ 8 ≤ pool_index stride mipmapped) := by omega
  cases hb : d.device_pools_ (pool_index stride mipmapped).toNat (pool_key width height) with
  | nil =>
    refine ⟨⟨{ id := d.textures_allocated, width := width, height := height,
               stride := stride, mipmapped := mipmapped },
      (pool_index stride mipmapped).toNat, pool_key width height⟩, ?_, rfl, rfl, rfl, rfl,
      ⟨hr, rfl, rfl⟩, ?_⟩
    · simp only [create_texture, Bool.not_true, Bool.false_eq_true, if_false, hv1, hb]
    · intro i k t ht
      have e : (create_texture d true width height stride mipmapped clear).2.device_pools_ =
          d.device_pools_ := by
        cases clear <;> simp [create_texture, hv1, hb]
      rw [e] at ht
      exact hd _ _ _ ht
  | cons t0 rest =>
    have ht0 := hd _ _ t0 (by rw [hb]; exact List.mem_cons_self _ _)
    obtain ⟨e1, e2, e3, e4⟩ := bucket_injective _ _ _ _ _ _ _ _ ht0.1 hr ht0.2.1.symm
      ht0.2.2.symm
    refine ⟨⟨t0, (pool_index stride mipmapped).toNat, pool_key width height⟩, ?_, e1, e2, e3,
      e4, ⟨ht0.1, ?_, ?_⟩, ?_⟩
    · simp only [create_texture, Bool.not_true, Bool.false_eq_true, if_false, hv1, hb]
    · exact ht0.2.1
    · exact ht0.2.2
    · intro i k t ht
      have e : (create_texture d true width height stride mipmapped clear).2.device_pools_ =
          set_bucket d.device_pools_ (pool_index stride mipmapped).toNat
            (pool_key width height) rest := by
        cases clear <;> simp [create_texture, hv1, hb]
      rw [e] at ht
      simp only [set_bucket] at ht
      split at ht
      · rename_i hik
        exact hd _ _ _ (by rw [hik.1, hik.2, hb]; exact List.mem_cons_of_mem _ ht)
      · exact hd _ _ _ ht

/-- C18 fails as stated: the heights 1080 and 66616 are both positive and differ, yet
with the same width, plane count and mipmap flag they select the same bucket, because
the key keeps only the low 16 bits of the height. After a 1920 x 1080 texture has been
created and released on a fresh device, a request for 1920 x 66616 pops that texture:
the image returned has height 1080. -/
theorem pool_key_collision_counterexample :
    (0 : Int) < 1920 ∧ (0 : Int) < 66616 ∧ (1080 : Int) ≠ 66616 ∧
    pool_key 1920 1080 = pool_key 1920 66616 ∧
    (create_texture fresh true 1920 1080 4 false true).1 = .ok handle_a ∧
    (create_texture (release_texture one_leased handle_a) true 1920 66616 4 false true).1 =
      .ok handle_a ∧
    handle_a.tex.height = 1080 := by
  decide

/-- C18, amended: for widths and heights from 1 to 65535, one to four planes and either
mipmap flag, two requests that differ in width, height, plane count or mipmap flag
select different buckets. On a device whose idle textures each lie in the bucket of
their own shape, `create_texture` on the execution context returns an image with the
requested width, height, plane count and mipmap flag, whether allocated or popped, with
a handle that returns it to the bucket of that shape; this property of the pools holds
for a fresh device and is kept by such requests and by the release of such handles. -/
theorem pool_buckets_keyed_by_shape_in_range (d : impl) (width height stride : Int)
    (mipmapped clear : Bool) (hr : in_range width height stride) (hd : exact_pools d) :
    (∀ (w2 h2 s2 : Int) (m2 : Bool), in_range w2 h2 s2 →
      (pool_index stride mipmapped).toNat = (pool_index s2 m2).toNat →
      pool_key width height = pool_key w2 h2 →
      width = w2 ∧ height = h2 ∧ stride = s2 ∧ mipmapped = m2) ∧
    (∃ h, (create_texture d true width height stride mipmapped clear).1 = .ok h ∧
      h.tex.width = width ∧ h.tex.height = height ∧ h.tex.stride = stride ∧
      h.tex.mipmapped = mipmapped ∧ exact_handle h ∧
      exact_pools (create_texture d true width height stride mipmapped clear).2) ∧
    (∀ h : texture_handle, exact_handle h → exact_pools (release_texture d h)) ∧
    exact_pools fresh :=
  ⟨fun _ _ _ _ r2 hi hk => bucket_injective _ _ _ _ _ _ _ _ hr r2 hi hk,
    create_texture_exact d width height stride mipmapped clear hr hd,
    fun h hh => exact_pools_release d h hd hh,
    exact_pools_fresh⟩

/-- An instance of C18 as amended: a device with one idle 1920 x 1080 four-channel
texture serves a request of that shape from the pool and a request for 1080 x 1920 with
a new texture. -/
theorem pool_buckets_keyed_by_shape_in_range_witness :
    in_range 1920 1080 4 ∧ exact_pools (release_texture one_leased handle_a) ∧
    (∃ h, (create_texture (release_texture one_leased handle_a) true 1920 1080 4 false true).1 =
        .ok h ∧
      h.tex.width = 1920 ∧ h.tex.height = 1080 ∧ h.tex.stride = 4 ∧
      h.tex.mipmapped = false ∧ exact_handle h ∧
      exact_pools
        (create_texture (release_texture one_leased handle_a) true 1920 1080 4 false true).2) ∧
    (create_texture (release_texture one_leased handle_a) true 1920 1080 4 false true).1 =
      .ok handle_a ∧
    (create_texture (release_texture one_leased handle_a) true 1080 1920 4 false true).1 =
      .ok { tex := { id := 1, width := 1080, height := 1920, stride := 4, mipmapped := false }
            pool_index := 3
            pool_key := pool_key 1080 1920 } :=
  have hp : exact_pools (release_texture one_leased handle_a) :=
    (create_texture_exact fresh 1920 1080 4 false true (by decide) exact_pools_fresh).elim
      fun _ hx =>
        exact_pools_release one_leased handle_a hx.2.2.2.2.2.2 ⟨by decide, by decide, by decide⟩
  ⟨by decide, hp,
    (pool_buckets_keyed_by_shape_in_range (release_texture one_leased handle_a) 1920 1080 4
      false true (by decide) hp).2.1,
    by decide, by decide⟩

theorem create_texture_frame (d : impl) (is_current : Bool) (width height stride : Int)
    (mipmapped clear : Bool) :
    (create_texture d is_current width height stride mipmapped clear).2.texture_cache_ =
        d.texture_cache_ ∧
    (create_texture d is_current width height stride mipmapped clear).2.host_pools_ =
        d.host_pools_ ∧
    (create_texture d is_current width height stride mipmapped clear).2.buffers_allocated =
        d.buffers_allocated := by
  cases is_current
  · simp [create_texture]
  · by_cases hv : pool_index stride mipmapped < 0 ∨ 8 ≤ pool_index stride mipmapped
    · simp [create_texture, hv]
    · cases hb : d.device_pools_ (pool_index stride mipmapped).toNat
          (pool_key width height) <;>
        cases clear <;> simp [create_texture, hv, hb]

theorem upload_task_frame (d : impl) (buf : Nat) (width height stride : Int)
    (mipmapped : Bool) :
    (upload_task d buf width height stride mipmapped).2.host_pools_ = d.host_pools_ ∧
    (upload_task d buf width height stride mipmapped).2.buffers_allocated =
        d.buffers_allocated ∧
    (∀ n, (upload_task d buf width height stride mipmapped).2.texture_cache_ n ≠ none →
      n = buf ∨ d.texture_cache_ n ≠ none) := by
  have hf := create_texture_frame d true width height stride mipmapped false
  unfold upload_task
  cases d.texture_cache_ buf with
  | some h => exact ⟨rfl, rfl, fun n hn => Or.inr hn⟩
  | none =>
    rcases hr : create_texture d true width height stride mipmapped false with ⟨o, d1⟩
    rw [hr] at hf
    cases o with
    | ok h =>
      refine ⟨hf.2.1, hf.2.2, ?_⟩
      intro n hn
      by_cases e : n = buf
      · exact Or.inl e
      · right
        simp only [e, if_false] at hn
        rw [← hf.1]
        exact hn
    | thrown e => exact ⟨hf.2.1, hf.2.2, fun n hn => Or.inr (by rw [← hf.1]; exact hn)⟩
    | undefined => exact ⟨hf.2.1, hf.2.2, fun n hn => Or.inr (by rw [← hf.1]; exact hn)⟩

theorem host_invariant_frame (s s1 : system) (hinv : host_invariant s)
    (hp : s1.d.host_pools_ = s.d.host_pools_)
    (ha : s1.d.buffers_allocated = s.d.buffers_allocated) (hl : s1.leased = s.leased)
    (hc : ∀ n, s1.d.texture_cache_ n ≠ none →
      s.d.texture_cache_ n ≠ none ∨ ∃ b ∈ s.leased, b.id = n) :
    host_invariant s1 where
  cached_held := by
    intro n hn
    rw [hl]
    rcases hc n hn with h | h
    · exact hinv.cached_held n h
    · exact h
  idle_not_held := by rw [hp, hl]; exact hinv.idle_not_held
  idle_known := by rw [hp, ha]; exact hinv.idle_known
  held_known := by rw [hl, ha]; exact hinv.held_known
  idle_distinct := by rw [hp]; exact hinv.idle_distinct
  idle_one_bucket := by rw [hp]; exact hinv.idle_one_bucket
  held_distinct := by rw [hl]; exact hinv.held_distinct

theorem start_invariant : host_invariant start where
  cached_held := by intro n hn; exact absurd rfl hn
  idle_not_held := by intro i k b hb; simp [start, fresh] at hb
  idle_known := by intro i k b hb; simp [start, fresh] at hb
  held_known := by intro l hl; simp [start] at hl
  idle_distinct := by intro i k; simp [start, fresh]
  idle_one_bucket := by intro i k i1 k1 b b1 hb; simp [start, fresh] at hb
  held_distinct := by simp [start]

theorem nodup_ids_eq (l : List buffer) (hn : (l.map buffer.id).Nodup) (a b : buffer)
    (ha : a ∈ l) (hb : b ∈ l) (e : a.id = b.id) : a = b :=
  List.inj_on_of_nodup_map hn ha hb e

theorem host_invariant_create (s : system) (size : Nat) (u : usage) (h : host_invariant s) :
    host_invariant
      { d := (create_buffer s.d size u).2
        leased := s.leased ++ [(create_buffer s.d size u).1] } := by
  cases hb : s.d.host_pools_ u.index size with
  | nil =>
    have e : create_buffer s.d size u =
        ({ id := s.d.buffers_allocated, size := size, usage := u },
          { s.d with
            buffers_allocated := s.d.buffers_allocated + 1
            events := s.d.events ++
              [.allocate_buffer { id := s.d.buffers_allocated, size := size, usage := u }] }) := by
      simp [create_buffer, hb]
    rw [e]
    refine ⟨?_, ?_, ?_, ?_, ?_, ?_, ?_⟩
    · intro n hn
      obtain ⟨b, hb1, hb2⟩ := h.cached_held n hn
      exact ⟨b, List.mem_append_left _ hb1, hb2⟩
    · intro i k b hbm l hl
      rcases List.mem_append.1 hl with hl1 | hl1
      · exact h.idle_not_held i k b hbm l hl1
      · rw [List.mem_singleton] at hl1
        subst hl1
        have := h.idle_known i k b hbm
        show s.d.buffers_allocated ≠ b.id
        omega
    · intro i k b hbm
      have := h.idle_known i k b hbm
      show b.id < s.d.buffers_allocated + 1
      omega
    · intro l hl
      show l.id < s.d.buffers_allocated + 1
      rcases List.mem_append.1 hl with hl1 | hl1
      · have := h.held_known l hl1
        omega
      · rw [List.mem_singleton] at hl1
        subst hl1
        exact Nat.lt_succ_self _
    · exact h.idle_distinct
    · exact h.idle_one_bucket
    · show ((s.leased ++ [_]).map buffer.id).Nodup
      rw [List.map_append, List.nodup_append]
      refine ⟨h.held_distinct, by simp, ?_⟩
      intro a ha1 ha2
      obtain ⟨l, hl, rfl⟩ := List.mem_map.1 ha1
      have := h.held_known l hl
      simp at ha2
      omega
  | cons b0 rest =>
    have e : create_buffer s.d size u =
        (b0, { s.d with host_pools_ := set_bucket s.d.host_pools_ u.index size rest }) := by
      simp [create_buffer, hb]
    rw [e]
    have hb0 : b0 ∈ s.d.host_pools_ u.index size := by rw [hb]; exact List.mem_cons_self _ _
    have hmem : ∀ i k b, b ∈ set_bucket s.d.host_pools_ u.index size rest i k →
        b ∈ s.d.host_pools_ i k := by
      intro i k b hbm
      simp only [set_bucket] at hbm
      split at hbm
      · rename_i hik
        rw [hik.1, hik.2, hb]
        exact List.mem_cons_of_mem _ hbm
      · exact hbm
    have hnd := h.idle_distinct u.index size
    rw [hb, List.map_cons, List.nodup_cons] at hnd
    have hnew : ∀ i k b, b ∈ set_bucket s.d.host_pools_ u.index size rest i k →
        b0.id ≠ b.id := by
      intro i k b hbm e0
      have hbo := hmem i k b hbm
      have hik := h.idle_one_bucket _ _ _ _ b0 b hb0 hbo e0
      simp only [set_bucket] at hbm
      rw [if_pos ⟨hik.1.symm, hik.2.symm⟩] at hbm
      exact hnd.1 (List.mem_map.2 ⟨b, hbm, e0.symm⟩)
    refine ⟨?_, ?_, ?_, ?_, ?_, ?_, ?_⟩
    · intro n hn
      obtain ⟨b, hb1, hb2⟩ := h.cached_held n hn
      exact ⟨b, List.mem_append_left _ hb1, hb2⟩
    · intro i k b hbm l hl
      rcases List.mem_append.1 hl with hl1 | hl1
      · exact h.idle_not_held i k b (hmem i k b hbm) l hl1
      · rw [List.mem_singleton] at hl1
        subst hl1
        exact hnew i k b hbm
    · intro i k b hbm
      exact h.idle_known i k b (hmem i k b hbm)
    · intro l hl
      rcases List.mem_append.1 hl with hl1 | hl1
      · exact h.held_known l hl1
      · rw [List.mem_singleton] at hl1
        subst hl1
        exact h.idle_known _ _ _ hb0
    · intro i k
      show ((set_bucket s.d.host_pools_ u.index size rest i k).map buffer.id).Nodup
      simp only [set_bucket]
      split
      · exact hnd.2
      · exact h.idle_distinct i k
    · intro i k i1 k1 b b1 hbm hbm1 e0
      exact h.idle_one_bucket i k i1 k1 b b1 (hmem i k b hbm) (hmem i1 k1 b1 hbm1) e0
    · show ((s.leased ++ [b0]).map buffer.id).Nodup
      rw [List.map_append, List.nodup_append]
      refine ⟨h.held_distinct, by simp, ?_⟩
      intro a ha1 ha2
      obtain ⟨l, hl, rfl⟩ := List.mem_map.1 ha1
      simp at ha2
      exact h.idle_not_held _ _ b0 hb0 l hl ha2

theorem host_invariant_release (s : system) (buf : buffer) (h : host_invariant s)
    (hm : buf ∈ s.leased) :
    host_invariant { d := release_buffer s.d buf, leased := s.leased.erase buf } := by
  have hnd : s.leased.Nodup := List.Nodup.of_map _ h.held_distinct
  have hmem : ∀ i k b,
      b ∈ (release_buffer s.d buf).host_pools_ i k →
        b ∈ s.d.host_pools_ i k ∨ (b = buf ∧ i = buf.usage.index ∧ k = buf.size) := by
    intro i k b hbm
    simp only [release_buffer, set_bucket] at hbm
    split at hbm
    · rename_i hik
      rcases List.mem_append.1 hbm with h1 | h1
      · left; rw [hik.1, hik.2]; exact h1
      · right; exact ⟨List.mem_singleton.1 h1, hik.1, hik.2⟩
    · left; exact hbm
  have hother : ∀ l, l ∈ s.leased.erase buf → l ∈ s.leased ∧ l.id ≠ buf.id := by
    intro l hl
    have hl2 := (List.Nodup.mem_erase_iff hnd).1 hl
    exact ⟨hl2.2, fun e => hl2.1 (nodup_ids_eq _ h.held_distinct l buf hl2.2 hm e)⟩
  refine ⟨?_, ?_, ?_, ?_, ?_, ?_, ?_⟩
  · intro n hn
    simp only [release_buffer] at hn
    by_cases e : n = buf.id
    · simp [e] at hn
    · simp only [e, if_false] at hn
      obtain ⟨b, hb1, hb2⟩ := h.cached_held n hn
      refine ⟨b, (List.Nodup.mem_erase_iff hnd).2 ⟨?_, hb1⟩, hb2⟩
      intro eb
      exact e (by rw [← hb2, eb])
  · intro i k b hbm l hl
    obtain ⟨hl1, hl2⟩ := hother l hl
    rcases hmem i k b hbm with h1 | h1
    · exact h.idle_not_held i k b h1 l hl1
    · rw [h1.1]; exact hl2
  · intro i k b hbm
    rcases hmem i k b hbm with h1 | h1
    · exact h.idle_known i k b h1
    · rw [h1.1]; exact h.held_known buf hm
  · intro l hl
    exact h.held_known l (hother l hl).1
  · intro i k
    show (((release_buffer s.d buf).host_pools_ i k).map buffer.id).Nodup
    simp only [release_buffer, set_bucket]
    split
    · rw [List.map_append, List.nodup_append]
      refine ⟨h.idle_distinct _ _, by simp, ?_⟩
      intro a ha1 ha2
      obtain ⟨b, hb1, rfl⟩ := List.mem_map.1 ha1
      simp at ha2
      exact h.idle_not_held _ _ b hb1 buf hm ha2.symm
    · exact h.idle_distinct i k
  · intro i k i1 k1 b b1 hbm hbm1 e0
    rcases hmem i k b hbm with h1 | h1 <;> rcases hmem i1 k1 b1 hbm1 with h2 | h2
    · exact h.idle_one_bucket i k i1 k1 b b1 h1 h2 e0
    · exact absurd (by rw [← h2.1, e0]) (h.idle_not_held i k b h1 buf hm)
    · exact absurd (by rw [← h1.1, e0]) (h.idle_not_held i1 k1 b1 h2 buf hm)
    · exact ⟨by rw [h1.2.1, h2.2.1], by rw [h1.2.2, h2.2.2]⟩
  · exact List.Nodup.sublist (List.Sublist.map _ (List.erase_sublist _ _)) h.held_distinct

theorem host_invariant_temp (s : system) (size : Nat) (d2 : impl) (h : host_invariant s)
    (hp : d2.host_pools_ = (create_buffer s.d size .write_only).2.host_pools_)
    (ha : d2.buffers_allocated = (create_buffer s.d size .write_only).2.buffers_allocated)
    (hc : ∀ n, d2.texture_cache_ n ≠ none →
      n = (create_buffer s.d size .write_only).1.id ∨
        (create_buffer s.d size .write_only).2.texture_cache_ n ≠ none) :
    host_invariant
      { d := release_buffer d2 (create_buffer s.d size .write_only).1, leased := s.leased } := by
  have h1 := host_invariant_create s size .write_only h
  have h2 : host_invariant
      { d := d2, leased := s.leased ++ [(create_buffer s.d size .write_only).1] } := by
    refine host_invariant_frame _ _ h1 hp ha rfl ?_
    intro n hn
    rcases hc n hn with e | e
    · exact Or.inr ⟨_, List.mem_append_right _ (List.mem_singleton_self _), e.symm⟩
    · exact Or.inl e
  have h3 := host_invariant_release _ (create_buffer s.d size .write_only).1 h2
    (List.mem_append_right _ (List.mem_singleton_self _))
  have hnot : (create_buffer s.d size .write_only).1 ∉ s.leased := by
    intro hin
    have hd := h1.held_distinct
    simp only [List.map_append, List.nodup_append] at hd
    exact hd.2.2 (List.mem_map.2 ⟨_, hin, rfl⟩) (by simp)
  have e : (s.leased ++ [(create_buffer s.d size .write_only).1]).erase
      (create_buffer s.d size .write_only).1 = s.leased := by
    rw [List.erase_append_right _ hnot]
    simp
  simp only [e] at h3
  exact h3

theorem held_storage (s : system) (source : array) (n : Nat) (hs : source.storage = some n)
    (hh : held s source = true) : ∃ b ∈ s.leased, b.id = n := by
  simp only [held, hs, List.any_eq_true, beq_iff_eq] at hh
  exact hh

theorem host_invariant_upload (s : system) (source : array) (width height stride : Int)
    (mipmapped : Bool) (h : host_invariant s) (hh : held s source = true) :
    host_invariant
      { d := (copy_async s.d source width height stride mipmapped).2, leased := s.leased } := by
  cases hs : source.storage with
  | some n =>
    have e : copy_async s.d source width height stride mipmapped =
        upload_task s.d n width height stride mipmapped := by
      simp [copy_async, copy_to_buf, hs]
    rw [e]
    have hf := upload_task_frame s.d n width height stride mipmapped
    refine host_invariant_frame _ _ h hf.1 hf.2.1 rfl ?_
    intro k hk
    rcases hf.2.2 k hk with e1 | e1
    · rw [e1]; exact Or.inr (held_storage s source n hs hh)
    · exact Or.inl e1
  | none =>
    have e : (copy_async s.d source width height stride mipmapped).2 =
        release_buffer
          (upload_task (create_buffer s.d source.size .write_only).2
            (create_buffer s.d source.size .write_only).1.id width height stride mipmapped).2
          (create_buffer s.d source.size .write_only).1 := by
      simp [copy_async, copy_to_buf, hs]
    rw [e]
    have hf := upload_task_frame (create_buffer s.d source.size .write_only).2
      (create_buffer s.d source.size .write_only).1.id width height stride mipmapped
    exact host_invariant_temp s source.size _ h hf.1 hf.2.1 hf.2.2

theorem upload_task_mutable_frame (d : impl) (buf : Nat) (width height stride : Int)
    (mipmapped : Bool) :
    (upload_task_mutable d buf width height stride mipmapped).2.host_pools_ =
        d.host_pools_ ∧
    (upload_task_mutable d buf width height stride mipmapped).2.buffers_allocated =
        d.buffers_allocated ∧
    (upload_task_mutable d buf width height stride mipmapped).2.texture_cache_ =
        d.texture_cache_ := by
  have hf := create_texture_frame d true width height stride mipmapped false
  unfold upload_task_mutable
  rcases hr : create_texture d true width height stride mipmapped false with ⟨o, d1⟩
  rw [hr] at hf
  cases o <;> exact ⟨hf.2.1, hf.2.2, hf.1⟩

theorem host_invariant_upload_mutable (s : system) (source : array)
    (width height stride : Int) (mipmapped : Bool) (h : host_invariant s) :
    host_invariant
      { d := (copy_async_mutable s.d source width height stride mipmapped).2
        leased := s.leased } := by
  cases hs : source.storage with
  | some n =>
    have e : copy_async_mutable s.d source width height stride mipmapped =
        upload_task_mutable s.d n width height stride mipmapped := by
      simp [copy_async_mutable, copy_to_buf, hs]
    rw [e]
    have hf := upload_task_mutable_frame s.d n width height stride mipmapped
    exact host_invariant_frame _ _ h hf.1 hf.2.1 rfl
      (fun k hk => Or.inl (by rw [← hf.2.2]; exact hk))
  | none =>
    have e : (copy_async_mutable s.d source width height stride mipmapped).2 =
        release_buffer
          (upload_task_mutable (create_buffer s.d source.size .write_only).2
            (create_buffer s.d source.size .write_only).1.id width height stride mipmapped).2
          (create_buffer s.d source.size .write_only).1 := by
      simp [copy_async_mutable, copy_to_buf, hs]
    rw [e]
    have hf := upload_task_mutable_frame (create_buffer s.d source.size .write_only).2
      (create_buffer s.d source.size .write_only).1.id width height stride mipmapped
    exact host_invariant_temp s source.size _ h hf.1 hf.2.1
      (fun n hn => Or.inr (by rw [← hf.2.2]; exact hn))

theorem apply_invariant (a : action) (s s1 : system) (h : host_invariant s)
    (ha : apply a s = some s1) : host_invariant s1 := by
  cases a with
  | create_buffer size u =>
    simp only [apply, Option.some.injEq] at ha
    rw [← ha]
    exact host_invariant_create s size u h
  | release buf =>
    simp only [apply] at ha
    split at ha
    · rename_i hm
      simp only [Option.some.injEq] at ha
      rw [← ha]
      exact host_invariant_release s buf h hm
    · exact absurd ha (by simp)
  | upload source width height stride mipmapped =>
    simp only [apply] at ha
    split at ha
    · rename_i hh
      have hi := host_invariant_upload s source width height stride mipmapped h hh
      split at ha
      · exact absurd ha (by simp)
      · rename_i o d1 _ hr
        simp only [Option.some.injEq] at ha
        rw [← ha]
        rw [hr] at hi
        exact hi
    · exact absurd ha (by simp)
  | upload_mutable source width height stride mipmapped =>
    simp only [apply] at ha
    split at ha
    · have hi := host_invariant_upload_mutable s source width height stride mipmapped h
      split at ha
      · exact absurd ha (by simp)
      · rename_i o d1 _ hr
        simp only [Option.some.injEq] at ha
        rw [← ha]
        rw [hr] at hi
        exact hi
    · exact absurd ha (by simp)

theorem run_invariant (acts : List action) :
    ∀ s : system, host_invariant s → host_invariant (run acts s) := by
  induction acts with
  | nil => intro s h; exact h
  | cons a rest ih =>
    intro s h
    simp only [run]
    cases ha : apply a s with
    | none => exact h
    | some s1 => exact ih s1 (apply_invariant a s s1 h ha)

/-- C19: the release of a host buffer handle erases the upload-cache entry keyed by the
buffer and pushes the buffer to the back of its pool, leaving the other cache entries as
they were. In every state reached from a new device by calls of `create_buffer`, the
two upload overloads of `copy_async` and releases of held buffers, no buffer that is
idle in a host pool is a key of the upload cache, and the buffer `create_buffer` hands
out next, recycled or new, has no cache entry. -/
theorem idle_buffers_are_not_cached (acts : List action) :
    (∀ (d : impl) (buf : buffer),
      (release_buffer d buf).texture_cache_ buf.id = none ∧
      (release_buffer d buf).host_pools_ buf.usage.index buf.size =
        d.host_pools_ buf.usage.index buf.size ++ [buf] ∧
      (∀ n, n ≠ buf.id → (release_buffer d buf).texture_cache_ n = d.texture_cache_ n)) ∧
    (∀ (i k : Nat) (b : buffer), b ∈ (run acts start).d.host_pools_ i k →
      (run acts start).d.texture_cache_ b.id = none) ∧
    (∀ (size : Nat) (u : usage),
      (run acts start).d.texture_cache_ (create_buffer (run acts start).d size u).1.id =
        none) := by
  have hinv := run_invariant acts start start_invariant
  have hidle : ∀ (i k : Nat) (b : buffer), b ∈ (run acts start).d.host_pools_ i k →
      (run acts start).d.texture_cache_ b.id = none := by
    intro i k b hb
    by_contra hc
    obtain ⟨l, hl, e⟩ := hinv.cached_held b.id hc
    exact hinv.idle_not_held i k b hb l hl e
  refine ⟨?_, hidle, ?_⟩
  · intro d buf
    refine ⟨by simp [release_buffer], by simp [release_buffer, set_bucket], ?_⟩
    intro n hn
    simp [release_buffer, hn]
  · intro size u
    cases hb : (run acts start).d.host_pools_ u.index size with
    | nil =>
      have e : (create_buffer (run acts start).d size u).1.id =
          (run acts start).d.buffers_allocated := by
        simp [create_buffer, hb]
      rw [e]
      by_contra hc
      obtain ⟨l, hl, e1⟩ := hinv.cached_held _ hc
      have := hinv.held_known l hl
      omega
    | cons b0 rest =>
      have e : (create_buffer (run acts start).d size u).1 = b0 := by
        simp [create_buffer, hb]
      rw [e]
      exact hidle u.index size b0 (by rw [hb]; exact List.mem_cons_self _ _)

/-- An instance of C19: after a 16-byte buffer has been requested and a 2 x 2 image
uploaded from it, the buffer is the key of a cache entry; once it has been released, the
next request for 16 bytes hands out the same buffer, and it has no cache entry. -/
theorem idle_buffers_are_not_cached_witness :
    (run (recycle_calls.take 2) start).d.texture_cache_ 0 = some handle_five ∧
    (create_buffer (run recycle_calls start).d 16 .write_only).1 =
      { id := 0, size := 16, usage := .write_only } ∧
    (run recycle_calls start).d.texture_cache_
      (create_buffer (run recycle_calls start).d 16 .write_only).1.id = none :=
  ⟨by decide, by decide, (idle_buffers_are_not_cached recycle_calls).2.2 16 .write_only⟩

/-- C20: after `gc` every bucket of every image pool and of both host pools is empty,
while the upload cache, the allocation counters and the event record are as before; the
resources held through handles are not part of the pools and are not touched. A texture
handle released after `gc` puts its texture into the bucket the handle was made for, and
a host buffer released after `gc` goes to the bucket of its usage and size. -/
theorem gc_drains_every_pool (d : impl) :
    (∀ i k : Nat, (gc d).device_pools_ i k = []) ∧
    (∀ i k : Nat, (gc d).host_pools_ i k = []) ∧
    (gc d).texture_cache_ = d.texture_cache_ ∧
    (gc d).textures_allocated = d.textures_allocated ∧
    (gc d).buffers_allocated = d.buffers_allocated ∧
    (gc d).events = d.events ∧
    (∀ h : texture_handle,
      (release_texture (gc d) h).device_pools_ h.pool_index h.pool_key = [h.tex] ∧
      (∀ i k, ¬ (i = h.pool_index ∧ k = h.pool_key) →
        (release_texture (gc d) h).device_pools_ i k = [])) ∧
    (∀ buf : buffer,
      (release_buffer (gc d) buf).host_pools_ buf.usage.index buf.size = [buf] ∧
      (∀ i k, ¬ (i = buf.usage.index ∧ k = buf.size) →
        (release_buffer (gc d) buf).host_pools_ i k = [])) := by
  refine ⟨fun _ _ => rfl, fun _ _ => rfl, rfl, rfl, rfl, rfl, ?_, ?_⟩
  · intro h
    refine ⟨by simp [release_texture, gc, set_bucket], ?_⟩
    intro i k hik
    simp [release_texture, gc, set_bucket, hik]
  · intro buf
    refine ⟨by simp [release_buffer, gc, set_bucket], ?_⟩
    intro i k hik
    simp [release_buffer, gc, set_bucket, hik]

/-- An instance of C20: the device with two idle 1920 x 1080 textures has none after
`gc`, and `handle_a` released after `gc` is again the one idle texture of its bucket. -/
theorem gc_drains_every_pool_witness :
    two_idle.device_pools_ 3 (pool_key 1920 1080) = [handle_a.tex, handle_b.tex] ∧
    (gc two_idle).device_pools_ 3 (pool_key 1920 1080) = [] ∧
    (release_texture (gc two_idle) handle_a).device_pools_ handle_a.pool_index
      handle_a.pool_key = [handle_a.tex] :=
  ⟨by decide, (gc_drains_every_pool two_idle).1 3 (pool_key 1920 1080),
    ((gc_drains_every_pool two_idle).2.2.2.2.2.2.1 handle_a).1⟩

/-- C29: a hit in the upload cache ignores the requested shape. When the host buffer
behind the source array has a cache entry, the upload `copy_async` returns the cached
texture for every width, height, stride and mipmap flag asked for and leaves the device
as it is; on a miss with a shape that passes the checks of `create_texture` the entry
made holds the texture of the shape requested then, so a later call with another shape
gets a texture of the first shape. -/
theorem cache_hit_ignores_requested_shape (d : impl) (source : array) (buf : Nat)
    (hs : source.storage = some buf) :
    (∀ (cached : texture_handle) (width height stride : Int) (mipmapped : Bool),
      d.texture_cache_ buf = some cached →
      copy_async d source width height stride mipmapped = (.ok cached, d)) ∧
    (∀ (w1 h1 s1 : Int) (m1 : Bool), 0 < s1 ∧ s1 < 5 → d.texture_cache_ buf = none →
      ∃ first, (copy_async d source w1 h1 s1 m1).1 = .ok first ∧
        ∀ (w2 h2 s2 : Int) (m2 : Bool),
          copy_async (copy_async d source w1 h1 s1 m1).2 source w2 h2 s2 m2 =
            (.ok first, (copy_async d source w1 h1 s1 m1).2)) := by
  refine ⟨?_, ?_⟩
  · intro cached width height stride mipmapped hc
    rw [copy_async_backed d source buf width height stride mipmapped hs]
    exact upload_task_hit d buf width height stride mipmapped cached hc
  · intro w1 h1 s1 m1 hs1 hc
    obtain ⟨first, hf, _, _, _, _, hcache⟩ := upload_task_miss d buf w1 h1 s1 m1 hs1 hc
    rw [copy_async_backed d source buf w1 h1 s1 m1 hs]
    refine ⟨first, hf, ?_⟩
    intro w2 h2 s2 m2
    rw [copy_async_backed _ source buf w2 h2 s2 m2 hs]
    exact upload_task_hit _ buf w2 h2 s2 m2 first hcache

/-- An instance of C29: after `source_five` has been uploaded as a 2 x 2 four-channel
image, an upload from the same buffer that asks for a mipmapped 1920 x 1080
one-channel image returns the cached 2 x 2 four-channel texture and changes nothing. -/
theorem cache_hit_ignores_requested_shape_witness :
    uploaded_once.texture_cache_ 5 = some handle_five ∧
    copy_async uploaded_once source_five 1920 1080 1 true = (.ok handle_five, uploaded_once) ∧
    handle_five.tex.width = 2 ∧ handle_five.tex.height = 2 ∧ handle_five.tex.stride = 4 ∧
    handle_five.tex.mipmapped = false :=
  ⟨by decide,
    (cache_hit_ignores_requested_shape uploaded_once source_five 5 rfl).1 handle_five 1920
      1080 1 true (by decide),
    rfl, rfl, rfl, rfl⟩

theorem pool_invariant_alloc {α : Type} (ident : α → Nat) (pools : Nat → Nat → List α)
    (held : List Nat) (allocated : Nat) (h : pool_invariant ident pools held allocated) :
    pool_invariant ident pools (held ++ [allocated]) (allocated + 1) where
  idle_not_held := by
    intro i k t ht hm
    rcases List.mem_append.1 hm with h1 | h1
    · exact h.idle_not_held i k t ht h1
    · have := h.idle_known i k t ht
      simp at h1
      omega
  idle_known := by
    intro i k t ht
    have := h.idle_known i k t ht
    omega
  held_known := by
    intro n hn
    rcases List.mem_append.1 hn with h1 | h1
    · have := h.held_known n h1
      omega
    · simp at h1
      omega
  idle_distinct := h.idle_distinct
  idle_one_bucket := h.idle_one_bucket
  held_distinct := by
    rw [List.nodup_append]
    refine ⟨h.held_distinct, by simp, ?_⟩
    intro a ha1 ha2
    have := h.held_known a ha1
    simp at ha2
    omega

theorem pool_invariant_pop {α : Type} (ident : α → Nat) (pools : Nat → Nat → List α)
    (held : List Nat) (allocated : Nat) (h : pool_invariant ident pools held allocated)
    (i0 k0 : Nat) (t0 : α) (rest : List α) (hb : pools i0 k0 = t0 :: rest) :
    pool_invariant ident (set_bucket pools i0 k0 rest) (held ++ [ident t0]) allocated := by
  have hb0 : t0 ∈ pools i0 k0 := by rw [hb]; exact List.mem_cons_self _ _
  have hmem : ∀ i k t, t ∈ set_bucket pools i0 k0 rest i k → t ∈ pools i k := by
    intro i k t ht
    simp only [set_bucket] at ht
    split at ht
    · rename_i hik
      rw [hik.1, hik.2, hb]
      exact List.mem_cons_of_mem _ ht
    · exact ht
  have hnd := h.idle_distinct i0 k0
  rw [hb, List.map_cons, List.nodup_cons] at hnd
  have hnew : ∀ i k t, t ∈ set_bucket pools i0 k0 rest i k → ident t ≠ ident t0 := by
    intro i k t ht e0
    have hik := h.idle_one_bucket _ _ _ _ t t0 (hmem i k t ht) hb0 e0
    simp only [set_bucket] at ht
    rw [if_pos hik] at ht
    exact hnd.1 (List.mem_map.2 ⟨t, ht, e0⟩)
  refine ⟨?_, ?_, ?_, ?_, ?_, ?_⟩
  · intro i k t ht hm
    rcases List.mem_append.1 hm with h1 | h1
    · exact h.idle_not_held i k t (hmem i k t ht) h1
    · exact hnew i k t ht (List.mem_singleton.1 h1)
  · intro i k t ht
    exact h.idle_known i k t (hmem i k t ht)
  · intro n hn
    rcases List.mem_append.1 hn with h1 | h1
    · exact h.held_known n h1
    · rw [List.mem_singleton.1 h1]
      exact h.idle_known _ _ _ hb0
  · intro i k
    simp only [set_bucket]
    split
    · exact hnd.2
    · exact h.idle_distinct i k
  · intro i k i1 k1 t t1 ht ht1 e0
    exact h.idle_one_bucket i k i1 k1 t t1 (hmem i k t ht) (hmem i1 k1 t1 ht1) e0
  · rw [List.nodup_append]
    refine ⟨h.held_distinct, by simp, ?_⟩
    intro a ha1 ha2
    rw [List.mem_singleton.1 ha2] at ha1
    exact h.idle_not_held _ _ t0 hb0 ha1

theorem pool_invariant_push {α : Type} (ident : α → Nat) (pools : Nat → Nat → List α)
    (held held1 : List Nat) (allocated : Nat)
    (h : pool_invariant ident pools held allocated) (i0 k0 : Nat) (t0 : α)
    (hheld : ident t0 ∈ held) (hsub : held1.Sublist held) (hout : ident t0 ∉ held1) :
    pool_invariant ident (set_bucket pools i0 k0 (pools i0 k0 ++ [t0])) held1 allocated := by
  have hmem : ∀ i k t, t ∈ set_bucket pools i0 k0 (pools i0 k0 ++ [t0]) i k →
      t ∈ pools i k ∨ (t = t0 ∧ i = i0 ∧ k = k0) := by
    intro i k t ht
    simp only [set_bucket] at ht
    split at ht
    · rename_i hik
      rcases List.mem_append.1 ht with h1 | h1
      · left; rw [hik.1, hik.2]; exact h1
      · right; exact ⟨List.mem_singleton.1 h1, hik.1, hik.2⟩
    · left; exact ht
  refine ⟨?_, ?_, ?_, ?_, ?_, ?_⟩
  · intro i k t ht hm
    rcases hmem i k t ht with h1 | h1
    · exact h.idle_not_held i k t h1 (hsub.subset hm)
    · rw [h1.1] at hm; exact hout hm
  · intro i k t ht
    rcases hmem i k t ht with h1 | h1
    · exact h.idle_known i k t h1
    · rw [h1.1]; exact h.held_known _ hheld
  · intro n hn
    exact h.held_known n (hsub.subset hn)
  · intro i k
    simp only [set_bucket]
    split
    · rw [List.map_append, List.nodup_append]
      refine ⟨h.idle_distinct _ _, by simp, ?_⟩
      intro a ha1 ha2
      obtain ⟨t, ht1, rfl⟩ := List.mem_map.1 ha1
      simp at ha2
      exact h.idle_not_held _ _ t ht1 (by rw [ha2]; exact hheld)
    · exact h.idle_distinct i k
  · intro i k i1 k1 t t1 ht ht1 e0
    rcases hmem i k t ht with h1 | h1 <;> rcases hmem i1 k1 t1 ht1 with h2 | h2
    · exact h.idle_one_bucket i k i1 k1 t t1 h1 h2 e0
    · exact absurd (by rw [e0, h2.1]; exact hheld) (h.idle_not_held i k t h1)
    · exact absurd (by rw [← e0, h1.1]; exact hheld) (h.idle_not_held i1 k1 t1 h2)
    · exact ⟨by rw [h1.2.1, h2.2.1], by rw [h1.2.2, h2.2.2]⟩
  · exact h.held_distinct.sublist hsub

theorem pool_invariant_same {α : Type} (ident : α → Nat) (pools pools1 : Nat → Nat → List α)
    (held : List Nat) (allocated allocated1 : Nat)
    (h : pool_invariant ident pools held allocated) (hp : pools1 = pools)
    (ha : allocated1 = allocated) : pool_invariant ident pools1 held allocated1 := by
  rw [hp, ha]; exact h

theorem create_texture_result (d : impl) (is_current : Bool) (width height stride : Int)
    (mipmapped clear : Bool) :
    (∀ h, (create_texture d is_current width height stride mipmapped clear).1 = .ok h →
      (∃ i k, d.device_pools_ i k = [] ∧ h.tex.id = d.textures_allocated ∧
        h.pool_index = i ∧ h.pool_key = k ∧
        (create_texture d is_current width height stride mipmapped clear).2.device_pools_ =
          d.device_pools_ ∧
        (create_texture d is_current width height stride mipmapped
          clear).2.textures_allocated = d.textures_allocated + 1) ∨
      (∃ i k rest, d.device_pools_ i k = h.tex :: rest ∧
        h.pool_index = i ∧ h.pool_key = k ∧
        (create_texture d is_current width height stride mipmapped clear).2.device_pools_ =
          set_bucket d.device_pools_ i k rest ∧
        (create_texture d is_current width height stride mipmapped
          clear).2.textures_allocated = d.textures_allocated)) ∧
    (∀ e, (create_texture d is_current width height stride mipmapped clear).1 = .thrown e →
      (create_texture d is_current width height stride mipmapped clear).2 = d) := by
  cases is_current
  · simp [create_texture]
  · by_cases hv : pool_index stride mipmapped < 0 ∨ 8 ≤ pool_index stride mipmapped
    · simp [create_texture, hv]
    · cases hb : d.device_pools_ (pool_index stride mipmapped).toNat (pool_key width height) with
      | nil =>
        refine ⟨?_, ?_⟩
        · intro h hh
          left
          refine ⟨_, _, hb, ?_⟩
          cases clear <;> simp [create_texture, hv, hb] at hh ⊢ <;> rw [← hh] <;> simp
        · intro e he
          cases clear <;> simp [create_texture, hv, hb] at he
      | cons t0 rest =>
        refine ⟨?_, ?_⟩
        · intro h hh
          right
          have e0 : h.tex = t0 := by
            cases clear <;> simp [create_texture, hv, hb] at hh <;> rw [← hh]
          refine ⟨_, _, rest, by rw [e0]; exact hb, ?_⟩
          cases clear <;> simp [create_texture, hv, hb] at hh ⊢ <;> rw [← hh] <;> simp
        · intro e he
          cases clear <;> simp [create_texture, hv, hb] at he

theorem erase_ids {α : Type} [DecidableEq α] (f : α → Nat) (l : List α) (a : α)
    (hn : (l.map f).Nodup) (ha : a ∈ l) :
    ((l.erase a).map f).Sublist (l.map f) ∧ f a ∉ (l.erase a).map f := by
  refine ⟨List.Sublist.map _ (List.erase_sublist _ _), ?_⟩
  intro hm
  obtain ⟨b, hb, e⟩ := List.mem_map.1 hm
  have hb2 := (List.Nodup.mem_erase_iff (List.Nodup.of_map _ hn)).1 hb
  exact hb2.1 (List.inj_on_of_nodup_map hn hb2.2 ha e)

theorem no_leases_exclusive : exclusive no_leases := by
  refine ⟨⟨?_, ?_, ?_, ?_, ?_, ?_⟩, ⟨?_, ?_, ?_, ?_, ?_, ?_⟩⟩ <;>
    simp [no_leases, fresh]

theorem lease_step_exclusive (a : lease_action) (s s1 : leases) (h : exclusive s)
    (ha : lease_step a s = some s1) : exclusive s1 := by
  cases a with
  | create_texture is_current width height stride mipmapped clear =>
    simp only [lease_step] at ha
    have hres := create_texture_result s.d is_current width height stride mipmapped clear
    have hfr := create_texture_frame s.d is_current width height stride mipmapped clear
    rcases hr : create_texture s.d is_current width height stride mipmapped clear with ⟨o, d1⟩
    rw [hr] at ha hres hfr
    cases o with
    | ok hd =>
      simp only [Option.some.injEq] at ha
      rw [← ha]
      refine ⟨?_, pool_invariant_same _ _ _ _ _ _ h.2 hfr.2.1 hfr.2.2⟩
      simp only [List.map_append, List.map_cons, List.map_nil]
      rcases hres.1 hd rfl with ⟨i, k, _, hid, _, _, hp, hal⟩ | ⟨i, k, rest, hb, _, _, hp, hal⟩
      · rw [hid]
        exact pool_invariant_same _ _ _ _ _ _ (pool_invariant_alloc _ _ _ _ h.1) hp hal
      · exact pool_invariant_same _ _ _ _ _ _
          (pool_invariant_pop _ _ _ _ h.1 i k hd.tex rest hb) hp hal
    | thrown e =>
      simp only [Option.some.injEq] at ha
      rw [← ha]
      have hd1 : d1 = s.d := hres.2 e rfl
      rw [hd1]
      exact h
    | undefined => simp at ha
  | create_buffer size u =>
    simp only [lease_step, Option.some.injEq] at ha
    rw [← ha]
    cases hb : s.d.host_pools_ u.index size with
    | nil =>
      have e : create_buffer s.d size u =
          ({ id := s.d.buffers_allocated, size := size, usage := u },
            { s.d with
              buffers_allocated := s.d.buffers_allocated + 1
              events := s.d.events ++
                [.allocate_buffer
                  { id := s.d.buffers_allocated, size := size, usage := u }] }) := by
        simp [create_buffer, hb]
      rw [e]
      refine ⟨h.1, ?_⟩
      simp only [List.map_append, List.map_cons, List.map_nil]
      exact pool_invariant_alloc _ _ _ _ h.2
    | cons b0 rest =>
      have e : create_buffer s.d size u =
          (b0, { s.d with host_pools_ := set_bucket s.d.host_pools_ u.index size rest }) := by
        simp [create_buffer, hb]
      rw [e]
      refine ⟨h.1, ?_⟩
      simp only [List.map_append, List.map_cons, List.map_nil]
      exact pool_invariant_pop _ _ _ _ h.2 u.index size b0 rest hb
  | release_texture hd =>
    simp only [lease_step] at ha
    split at ha
    · rename_i hm
      simp only [Option.some.injEq] at ha
      rw [← ha]
      have he := erase_ids (fun x : texture_handle => x.tex.id) s.textures hd
        h.1.held_distinct hm
      exact ⟨pool_invariant_push _ _ _ _ _ h.1 hd.pool_index hd.pool_key hd.tex
        (List.mem_map.2 ⟨hd, hm, rfl⟩) he.1 he.2, h.2⟩
    · exact absurd ha (by simp)
  | release_buffer buf =>
    simp only [lease_step] at ha
    split at ha
    · rename_i hm
      simp only [Option.some.injEq] at ha
      rw [← ha]
      have he := erase_ids buffer.id s.buffers buf h.2.held_distinct hm
      exact ⟨h.1, pool_invariant_push _ _ _ _ _ h.2 buf.usage.index buf.size buf
        (List.mem_map.2 ⟨buf, hm, rfl⟩) he.1 he.2⟩
    · exact absurd ha (by simp)

theorem lease_run_exclusive (acts : List lease_action) :
    ∀ s : leases, exclusive s → exclusive (lease_run acts s) := by
  induction acts with
  | nil => intro s h; exact h
  | cons a rest ih =>
    intro s h
    simp only [lease_run]
    cases ha : lease_step a s with
    | none => exact h
    | some s1 => exact ih s1 (lease_step_exclusive a s s1 h ha)

theorem lease_step_reentry (a : lease_action) (s s1 : leases)
    (ha : lease_step a s = some s1) :
    (∀ i k t, t ∈ s1.d.device_pools_ i k →
      t ∈ s.d.device_pools_ i k ∨ ∃ h, a = .release_texture h ∧ h ∈ s.textures ∧ t = h.tex) ∧
    (∀ i k b, b ∈ s1.d.host_pools_ i k →
      b ∈ s.d.host_pools_ i k ∨ (a = .release_buffer b ∧ b ∈ s.buffers)) := by
  have hset : ∀ {α : Type} (pools : Nat → Nat → List α) (i0 k0 : Nat) (t0 : α)
      (rest : List α), pools i0 k0 = t0 :: rest →
      ∀ i k t, t ∈ set_bucket pools i0 k0 rest i k → t ∈ pools i k := by
    intro α pools i0 k0 t0 rest hb i k t ht
    simp only [set_bucket] at ht
    split at ht
    · rename_i hik
      rw [hik.1, hik.2, hb]
      exact List.mem_cons_of_mem _ ht
    · exact ht
  cases a with
  | create_texture is_current width height stride mipmapped clear =>
    simp only [lease_step] at ha
    have hres := create_texture_result s.d is_current width height stride mipmapped clear
    have hfr := create_texture_frame s.d is_current width height stride mipmapped clear
    rcases hr : create_texture s.d is_current width height stride mipmapped clear with ⟨o, d1⟩
    rw [hr] at ha hres hfr
    cases o with
    | ok hd =>
      simp only [Option.some.injEq] at ha
      rw [← ha]
      refine ⟨?_, fun i k b hb => Or.inl (by rw [← hfr.2.1]; exact hb)⟩
      intro i k t ht
      left
      rcases hres.1 hd rfl with ⟨_, _, _, _, _, _, hp, _⟩ | ⟨i0, k0, rest, hb, _, _, hp, _⟩
      · rw [← hp]; exact ht
      · simp only at hp ht
        rw [hp] at ht
        exact hset _ i0 k0 hd.tex rest hb i k t ht
    | thrown e =>
      simp only [Option.some.injEq] at ha
      rw [← ha]
      have hd1 : d1 = s.d := hres.2 e rfl
      rw [hd1]
      exact ⟨fun i k t ht => Or.inl ht, fun i k b hb => Or.inl hb⟩
    | undefined => simp at ha
  | create_buffer size u =>
    simp only [lease_step, Option.some.injEq] at ha
    rw [← ha]
    cases hb : s.d.host_pools_ u.index size with
    | nil =>
      refine ⟨fun i k t ht => Or.inl ?_, fun i k b hb1 => Or.inl ?_⟩
      · simpa [create_buffer, hb] using ht
      · simpa [create_buffer, hb] using hb1
    | cons b0 rest =>
      refine ⟨fun i k t ht => Or.inl ?_, fun i k b hb1 => Or.inl ?_⟩
      · simpa [create_buffer, hb] using ht
      · simp only [create_buffer, hb] at hb1
        exact hset _ u.index size b0 rest hb i k b hb1
  | release_texture hd =>
    simp only [lease_step] at ha
    split at ha
    · rename_i hm
      simp only [Option.some.injEq] at ha
      rw [← ha]
      refine ⟨?_, fun i k b hb => Or.inl hb⟩
      intro i k t ht
      simp only [release_texture, set_bucket] at ht
      split at ht
      · rename_i hik
        rcases List.mem_append.1 ht with h1 | h1
        · left; rw [hik.1, hik.2]; exact h1
        · right; exact ⟨hd, rfl, hm, List.mem_singleton.1 h1⟩
      · exact Or.inl ht
    · exact absurd ha (by simp)
  | release_buffer buf =>
    simp only [lease_step] at ha
    split at ha
    · rename_i hm
      simp only [Option.some.injEq] at ha
      rw [← ha]
      refine ⟨fun i k t ht => Or.inl ht, ?_⟩
      intro i k b hb
      simp only [release_buffer, set_bucket] at hb
      split at hb
      · rename_i hik
        rcases List.mem_append.1 hb with h1 | h1
        · left; rw [hik.1, hik.2]; exact h1
        · right
          rw [List.mem_singleton.1 h1]
          exact ⟨rfl, hm⟩
      · exact Or.inl hb
    · exact absurd ha (by simp)

/-- C22: in every state reached from a new device by calls of `create_texture` and
`create_buffer` and releases of live handles, the resources with a live handle are
pairwise different (none is handed out twice at once), none of them is idle in a pool,
and no resource is idle twice, in one bucket or in two; this holds for the image pools
and for the host pools. In every such state a call puts a resource into a pool only if
it is the release of the live handle of that resource. -/
theorem leases_are_exclusive (acts : List lease_action) :
    exclusive (lease_run acts no_leases) ∧
    (∀ (a : lease_action) (s1 : leases),
      lease_step a (lease_run acts no_leases) = some s1 →
      (∀ i k t, t ∈ s1.d.device_pools_ i k →
        t ∈ (lease_run acts no_leases).d.device_pools_ i k ∨
          ∃ h, a = .release_texture h ∧ h ∈ (lease_run acts no_leases).textures ∧
            t = h.tex) ∧
      (∀ i k b, b ∈ s1.d.host_pools_ i k →
        b ∈ (lease_run acts no_leases).d.host_pools_ i k ∨
          (a = .release_buffer b ∧ b ∈ (lease_run acts no_leases).buffers))) :=
  ⟨lease_run_exclusive acts no_leases no_leases_exclusive,
    fun a s1 ha => lease_step_reentry a _ s1 ha⟩

/-- An instance of C22: after the calls `lease_calls` two textures are live, the
recycled one and a second one, together with one buffer, and no texture is idle in the
bucket of the shape. -/
theorem leases_are_exclusive_witness :
    (lease_run lease_calls no_leases).textures.map (fun h => h.tex.id) = [0, 1] ∧
    (lease_run lease_calls no_leases).buffers.map buffer.id = [0] ∧
    (lease_run lease_calls no_leases).d.device_pools_ 3 (pool_key 1920 1080) = [] ∧
    ((lease_run lease_calls no_leases).textures.map fun h => h.tex.id).Nodup :=
  ⟨by decide, by decide, by decide, (leases_are_exclusive lease_calls).1.1.held_distinct⟩

theorem exact_host_pools_fresh : exact_host_pools fresh := by
  intro i k b hb
  simp [fresh] at hb

theorem usage_of_index (u v : usage) (h : u.index = v.index) : u = v := by
  cases u <;> cases v <;> simp [usage.index] at h <;> rfl

theorem create_buffer_exact (d : impl) (size : Nat) (u : usage) (hd : exact_host_pools d) :
    (create_buffer d size u).1.size = size ∧ (create_buffer d size u).1.usage = u ∧
    exact_host_pools (create_buffer d size u).2 ∧
    (∀ i k, i ≠ u.index →
      (create_buffer d size u).2.host_pools_ i k = d.host_pools_ i k) := by
  cases hb : d.host_pools_ u.index size with
  | nil =>
    refine ⟨by simp [create_buffer, hb], by simp [create_buffer, hb], ?_, ?_⟩
    · intro i k b hbm
      simp only [create_buffer, hb] at hbm
      exact hd i k b hbm
    · intro i k _
      simp [create_buffer, hb]
  | cons b0 rest =>
    have h0 := hd u.index size b0 (by rw [hb]; exact List.mem_cons_self _ _)
    refine ⟨?_, ?_, ?_, ?_⟩
    · simp only [create_buffer, hb]; exact h0.2
    · simp only [create_buffer, hb]; exact usage_of_index _ _ h0.1
    · intro i k b hbm
      simp only [create_buffer, hb, set_bucket] at hbm
      split at hbm
      · rename_i hik
        exact hd i k b (by rw [hik.1, hik.2, hb]; exact List.mem_cons_of_mem _ hbm)
      · exact hd i k b hbm
    · intro i k hne
      simp [create_buffer, hb, set_bucket, hne]

theorem release_buffer_exact (d : impl) (buf : buffer) (hd : exact_host_pools d) :
    exact_host_pools (release_buffer d buf) := by
  intro i k b hbm
  simp only [release_buffer, set_bucket] at hbm
  split at hbm
  · rename_i hik
    rcases List.mem_append.1 hbm with h1 | h1
    · exact hd i k b (by rw [hik.1, hik.2]; exact h1)
    · rw [List.mem_singleton.1 h1]
      exact ⟨hik.1.symm, hik.2.symm⟩
  · exact hd i k b hbm

theorem exact_host_pools_same (d d1 : impl) (hd : exact_host_pools d)
    (hp : d1.host_pools_ = d.host_pools_) : exact_host_pools d1 := by
  intro i k b hb
  rw [hp] at hb
  exact hd i k b hb

theorem copy_async_exact (d : impl) (source : array) (width height stride : Int)
    (mipmapped : Bool) (hd : exact_host_pools d) :
    exact_host_pools (copy_async d source width height stride mipmapped).2 := by
  cases hs : source.storage with
  | some n =>
    rw [copy_async_backed d source n width height stride mipmapped hs]
    exact exact_host_pools_same _ _ hd (upload_task_frame d n width height stride mipmapped).1
  | none =>
    have e : (copy_async d source width height stride mipmapped).2 =
        release_buffer
          (upload_task (create_buffer d source.size .write_only).2
            (create_buffer d source.size .write_only).1.id width height stride mipmapped).2
          (create_buffer d source.size .write_only).1 := by
      simp [copy_async, copy_to_buf, hs]
    rw [e]
    exact release_buffer_exact _ _
      (exact_host_pools_same _ _ (create_buffer_exact d source.size .write_only hd).2.2.1
        (upload_task_frame _ _ width height stride mipmapped).1)

theorem copy_async_mutable_exact (d : impl) (source : array) (width height stride : Int)
    (mipmapped : Bool) (hd : exact_host_pools d) :
    exact_host_pools (copy_async_mutable d source width height stride mipmapped).2 := by
  cases hs : source.storage with
  | some n =>
    have e : copy_async_mutable d source width height stride mipmapped =
        upload_task_mutable d n width height stride mipmapped := by
      simp [copy_async_mutable, copy_to_buf, hs]
    rw [e]
    exact exact_host_pools_same _ _ hd
      (upload_task_mutable_frame d n width height stride mipmapped).1
  | none =>
    have e : (copy_async_mutable d source width height stride mipmapped).2 =
        release_buffer
          (upload_task_mutable (create_buffer d source.size .write_only).2
            (create_buffer d source.size .write_only).1.id width height stride mipmapped).2
          (create_buffer d source.size .write_only).1 := by
      simp [copy_async_mutable, copy_to_buf, hs]
    rw [e]
    exact release_buffer_exact _ _
      (exact_host_pools_same _ _ (create_buffer_exact d source.size .write_only hd).2.2.1
        (upload_task_mutable_frame _ _ width height stride mipmapped).1)

theorem apply_exact (a : action) (s s1 : system) (h : exact_host_pools s.d)
    (ha : apply a s = some s1) : exact_host_pools s1.d := by
  cases a with
  | create_buffer size u =>
    simp only [apply, Option.some.injEq] at ha
    rw [← ha]
    exact (create_buffer_exact s.d size u h).2.2.1
  | release buf =>
    simp only [apply] at ha
    split at ha
    · simp only [Option.some.injEq] at ha
      rw [← ha]
      exact release_buffer_exact s.d buf h
    · exact absurd ha (by simp)
  | upload source width height stride mipmapped =>
    simp only [apply] at ha
    split at ha
    · have hi := copy_async_exact s.d source width height stride mipmapped h
      split at ha
      · exact absurd ha (by simp)
      · rename_i o d1 _ hr
        simp only [Option.some.injEq] at ha
        rw [← ha]
        rw [hr] at hi
        exact hi
    · exact absurd ha (by simp)
  | upload_mutable source width height stride mipmapped =>
    simp only [apply] at ha
    split at ha
    · have hi := copy_async_mutable_exact s.d source width height stride mipmapped h
      split at ha
      · exact absurd ha (by simp)
      · rename_i o d1 _ hr
        simp only [Option.some.injEq] at ha
        rw [← ha]
        rw [hr] at hi
        exact hi
    · exact absurd ha (by simp)

theorem run_exact (acts : List action) :
    ∀ s : system, exact_host_pools s.d → exact_host_pools (run acts s).d := by
  induction acts with
  | nil => intro s h; exact h
  | cons a rest ih =>
    intro s h
    simp only [run]
    cases ha : apply a s with
    | none => exact h
    | some s1 => exact ih s1 (apply_exact a s s1 h ha)

theorem create_buffer_cases (d : impl) (size : Nat) (u : usage) :
    ((create_buffer d size u).2.device_pools_ = d.device_pools_ ∧
      (create_buffer d size u).2.texture_cache_ = d.texture_cache_ ∧
      (create_buffer d size u).2.textures_allocated = d.textures_allocated) ∧
    ((d.host_pools_ u.index size = [] ∧
        (create_buffer d size u).1 = { id := d.buffers_allocated, size := size, usage := u } ∧
        (create_buffer d size u).2.host_pools_ = d.host_pools_ ∧
        (create_buffer d size u).2.buffers_allocated = d.buffers_allocated + 1) ∨
      (∃ b0 rest, d.host_pools_ u.index size = b0 :: rest ∧
        (create_buffer d size u).1 = b0 ∧
        (create_buffer d size u).2.host_pools_ = set_bucket d.host_pools_ u.index size rest ∧
        (create_buffer d size u).2.buffers_allocated = d.buffers_allocated)) := by
  cases hb : d.host_pools_ u.index size with
  | nil =>
    refine ⟨by simp [create_buffer, hb], Or.inl ⟨rfl, ?_, ?_, ?_⟩⟩ <;> simp [create_buffer, hb]
  | cons b0 rest =>
    refine ⟨by simp [create_buffer, hb], Or.inr ⟨b0, rest, rfl, ?_, ?_, ?_⟩⟩ <;>
      simp [create_buffer, hb]

theorem create_buffer_invariant (d : impl) (size : Nat) (u : usage) (held : List Nat)
    (h : pool_invariant buffer.id d.host_pools_ held d.buffers_allocated) :
    pool_invariant buffer.id (create_buffer d size u).2.host_pools_
      (held ++ [(create_buffer d size u).1.id]) (create_buffer d size u).2.buffers_allocated := by
  rcases (create_buffer_cases d size u).2 with ⟨_, h1, h2, h3⟩ | ⟨b0, rest, hb, h1, h2, h3⟩
  · rw [h1]
    exact pool_invariant_same _ _ _ _ _ _ (pool_invariant_alloc _ _ _ _ h) h2 h3
  · rw [h1]
    exact pool_invariant_same _ _ _ _ _ _ (pool_invariant_pop _ _ _ _ h u.index size b0 rest hb)
      h2 h3

theorem host_invariant_pool (s : system) (h : host_invariant s) :
    pool_invariant buffer.id s.d.host_pools_ (s.leased.map buffer.id) s.d.buffers_allocated where
  idle_not_held := by
    intro i k t ht hm
    obtain ⟨l, hl, e⟩ := List.mem_map.1 hm
    exact h.idle_not_held i k t ht l hl e
  idle_known := h.idle_known
  held_known := by
    intro n hn
    obtain ⟨l, hl, e⟩ := List.mem_map.1 hn
    rw [← e]
    exact h.held_known l hl
  idle_distinct := h.idle_distinct
  idle_one_bucket := h.idle_one_bucket
  held_distinct := h.held_distinct

end device

/-! ## Claims about rendering and frame allocation of the mixer -/

namespace image_mixer

theorem tree_items_append (xs ys : List layer) :
    tree_items (xs ++ ys) = tree_items xs ++ tree_items ys := by
  induction xs with
  | nil => simp [tree_items]
  | cons l ls ih => simp [tree_items, ih]

theorem layer_items_eq (l : layer) : layer_items l = tree_items l.sublayers ++ l.items := by
  cases l
  simp [layer_items]

theorem mem_tree_items_of_get (ls : List layer) :
    ∀ (i : Nat) (l : layer), ls.get? i = some l → ∀ x ∈ layer_items l, x ∈ tree_items ls := by
  induction ls with
  | nil => intro i l h; simp at h
  | cons l0 ls ih =>
    intro i l h x hx
    cases i with
    | zero =>
      simp only [List.get?_cons_zero, Option.some.injEq] at h
      rw [tree_items, h]
      exact List.mem_append_left _ hx
    | succ j =>
      simp only [List.get?_cons_succ] at h
      rw [tree_items]
      exact List.mem_append_right _ (ih j l h x hx)

theorem mem_tree_items_set (ls : List layer) :
    ∀ (i : Nat) (y : layer), ∀ x ∈ tree_items (ls.set i y),
      x ∈ tree_items ls ∨ x ∈ layer_items y := by
  induction ls with
  | nil => intro i y x hx; simp [tree_items] at hx
  | cons l0 ls ih =>
    intro i y x hx
    cases i with
    | zero =>
      simp only [List.set_cons_zero, tree_items, List.mem_append] at hx ⊢
      tauto
    | succ j =>
      simp only [List.set_cons_succ, tree_items, List.mem_append] at hx ⊢
      rcases hx with h | h
      · exact Or.inl (Or.inl h)
      · rcases ih j y x h with h1 | h1
        · exact Or.inl (Or.inr h1)
        · exact Or.inr h1

theorem modify_at_items (f : layer → layer) (P : item → Prop)
    (hf : ∀ (l : layer), ∀ x ∈ layer_items (f l), x ∈ layer_items l ∨ P x) (p : List Nat) :
    ∀ (ls ls1 : List layer), modify_at f ls p = some ls1 →
      ∀ x ∈ tree_items ls1, x ∈ tree_items ls ∨ P x := by
  induction p with
  | nil => intro ls ls1 h; simp [modify_at] at h
  | cons i p ih =>
    intro ls ls1 h x hx
    rw [modify_at] at h
    cases hg : ls.get? i with
    | none => rw [hg] at h; simp at h
    | some l =>
      rw [hg] at h
      simp only at h
      by_cases hp : p = []
      · simp only [hp, if_true, Option.some.injEq] at h
        rw [← h] at hx
        rcases mem_tree_items_set ls i (f l) x hx with h1 | h1
        · exact Or.inl h1
        · rcases hf l x h1 with h2 | h2
          · exact Or.inl (mem_tree_items_of_get ls i l hg x h2)
          · exact Or.inr h2
      · simp only [hp, if_false] at h
        cases hm : modify_at f l.sublayers p with
        | none => rw [hm] at h; simp at h
        | some subs =>
          rw [hm] at h
          simp only [Option.some.injEq] at h
          rw [← h] at hx
          rcases mem_tree_items_set ls i _ x hx with h1 | h1
          · exact Or.inl h1
          · rw [layer_items_eq] at h1
            simp only [List.mem_append] at h1
            rcases h1 with h2 | h2
            · rcases ih l.sublayers subs hm x h2 with h3 | h3
              · refine Or.inl (mem_tree_items_of_get ls i l hg x ?_)
                rw [layer_items_eq]
                exact List.mem_append_left _ h3
              · exact Or.inr h3
            · refine Or.inl (mem_tree_items_of_get ls i l hg x ?_)
              rw [layer_items_eq]
              exact List.mem_append_right _ h2

theorem push_items (mul : image_transform → image_transform → image_transform) (m m1 : impl)
    (t : frame_transform) (h : push mul m t = (.ok (), m1)) :
    ∀ x ∈ tree_items m1.layers_, x ∈ tree_items m.layers_ := by
  unfold push at h
  split at h
  · simp at h
  · rename_i top htop
    simp only at h
    split at h
    · split at h
      · simp only [Prod.mk.injEq, true_and] at h
        rw [← h]
        intro x hx
        simpa [tree_items_append, tree_items, layer_items, layer.create] using hx
      · simp at h
      · rename_i p hp
        split at h
        · rename_i l ls hl hm
          simp only [Prod.mk.injEq, true_and] at h
          rw [← h]
          intro x hx
          have := modify_at_items _ (fun _ => False) (fun l0 y hy => by
            left
            rw [layer_items_eq] at hy ⊢
            simpa [layer.push_sublayer, tree_items_append, tree_items, layer_items,
              layer.create] using hy) p _ _ hm x hx
          tauto
        · simp at h
    · simp only [Prod.mk.injEq, true_and] at h
      rw [← h]
      exact fun x hx => hx

theorem visit_items (m m1 : impl) (f : const_frame) (h : visit m f = (.ok (), m1)) :
    ∀ x ∈ tree_items m1.layers_, x ∈ tree_items m.layers_ ∨ made_from f x := by
  unfold visit at h
  split at h
  · simp only [Prod.mk.injEq, true_and] at h; subst h; exact fun x hx => Or.inl hx
  · split at h
    · simp only [Prod.mk.injEq, true_and] at h; subst h; exact fun x hx => Or.inl hx
    · split at h
      · simp at h
      · rename_i top htop
        split at h
        · simp only [Prod.mk.injEq, true_and] at h; subst h; exact fun x hx => Or.inl hx
        · simp only at h
          split at h
          · simp at h
          · simp at h
          · rename_i p hp
            split at h
            · simp at h
            · rename_i ls hm
              simp only [Prod.mk.injEq, true_and] at h
              rw [← h]
              intro x hx
              refine modify_at_items _ (made_from f) (fun l0 y hy => ?_) p _ _ hm x hx
              rw [layer_items_eq] at hy ⊢
              simp only [layer.push_item, List.mem_append, List.mem_singleton] at hy ⊢
              rcases hy with h1 | h1 | h1
              · exact Or.inl (Or.inl h1)
              · exact Or.inl (Or.inr h1)
              · right
                rw [h1]
                exact ⟨rfl, rfl, rfl⟩

theorem pop_layers (m m1 : impl) (h : pop m = (.ok (), m1)) : m1.layers_ = m.layers_ := by
  unfold pop at h
  split at h
  · simp at h
  · simp only at h
    split at h
    · simp at h
    · split at h
      · simp at h
      · simp only [Prod.mk.injEq, true_and] at h
        rw [← h]

theorem run_items (mul : image_transform → image_transform → image_transform)
    (cs : List call) :
    ∀ (m m2 : impl), run mul m cs = (.ok (), m2) →
      ∀ x ∈ tree_items m2.layers_,
        x ∈ tree_items m.layers_ ∨ ∃ f ∈ visited cs, made_from f x := by
  induction cs with
  | nil =>
    intro m m2 h x hx
    simp only [run, Prod.mk.injEq, true_and] at h
    rw [← h] at hx
    exact Or.inl hx
  | cons c cs ih =>
    intro m m2 h x hx
    simp only [run] at h
    rcases hs : step mul m c with ⟨o, m1⟩
    rw [hs] at h
    cases o with
    | thrown e => simp at h
    | undefined => simp at h
    | ok u =>
      simp only at h
      rcases ih m1 m2 h x hx with h1 | ⟨f, hf, hm⟩
      · cases c with
        | push t =>
          simp only [step] at hs
          exact Or.inl (push_items mul m m1 t hs x h1)
        | visit f0 =>
          simp only [step] at hs
          rcases visit_items m m1 f0 hs x h1 with h2 | h2
          · exact Or.inl h2
          · exact Or.inr ⟨f0, by simp [visited], h2⟩
        | pop =>
          simp only [step] at hs
          rw [pop_layers m m1 hs] at h1
          exact Or.inl h1
      · refine Or.inr ⟨f, ?_, hm⟩
        cases c <;> simp [visited, hf]

theorem visible_items_mem (items : List item) (pass : field_mode) :
    ∀ x ∈ image_renderer.visible_items items pass,
      ∃ y ∈ items, x = image_renderer.masked pass y := by
  intro x hx
  rw [image_renderer.visible_items_eq, List.mem_filter, List.mem_map] at hx
  obtain ⟨⟨y, hy, e⟩, _⟩ := hx
  exact ⟨y, hy, e.symm⟩

mutual
theorem pass_items_mem (pass : field_mode) :
    ∀ (ls : List layer), ∀ x ∈ image_renderer.pass_items pass ls,
      ∃ y ∈ tree_items ls, x = image_renderer.masked pass y
  | [], x, hx => by simp [image_renderer.pass_items] at hx
  | l :: ls, x, hx => by
    simp only [image_renderer.pass_items, List.mem_append] at hx
    rcases hx with h | h | h
    · obtain ⟨y, hy, e⟩ := sublayer_items_mem pass l x h
      exact ⟨y, by rw [tree_items]; exact List.mem_append_left _ hy, e⟩
    · obtain ⟨y, hy, e⟩ := visible_items_mem l.items pass x h
      refine ⟨y, ?_, e⟩
      rw [tree_items, layer_items_eq]
      exact List.mem_append_left _ (List.mem_append_right _ hy)
    · obtain ⟨y, hy, e⟩ := pass_items_mem pass ls x h
      exact ⟨y, by rw [tree_items]; exact List.mem_append_right _ hy, e⟩
theorem sublayer_items_mem (pass : field_mode) :
    ∀ (l : layer), ∀ x ∈ image_renderer.sublayer_items pass l,
      ∃ y ∈ layer_items l, x = image_renderer.masked pass y
  | ⟨sublayers, items, _⟩, x, hx => by
    simp only [image_renderer.sublayer_items] at hx
    obtain ⟨y, hy, e⟩ := pass_items_mem pass sublayers x hx
    exact ⟨y, by simp only [layer_items]; exact List.mem_append_left _ hy, e⟩
end

/-- C28: `render` hands the whole root layer sequence to the renderer and leaves the
root sequence of the mixer empty, with both stacks as they were. A second `render`
with no call in between takes the empty-tree path: its result is ready at once and the
device is not touched. After any later calls that end normally, every item in the tree,
and so every item a field pass of the next render draws, is one that a `visit` among
those later calls built. -/
theorem render_hands_over_layers (desc_of : video_format → video_format_desc)
    (mul : image_transform → image_transform → image_transform) (m : impl)
    (format_desc : video_format_desc) (straighten_alpha : Bool) (g : gpu) :
    (render desc_of m format_desc straighten_alpha g).1 =
      image_renderer.render desc_of m.layers_ format_desc straighten_alpha g ∧
    (render desc_of m format_desc straighten_alpha g).2.layers_ = [] ∧
    (render desc_of m format_desc straighten_alpha g).2.transform_stack_ =
      m.transform_stack_ ∧
    (render desc_of m format_desc straighten_alpha g).2.layer_stack_ = m.layer_stack_ ∧
    (∀ (format2 : video_format_desc) (straighten2 : Bool) (g2 : gpu),
      render desc_of (render desc_of m format_desc straighten_alpha g).2 format2
        straighten2 g2 =
        ((.ready { data := List.replicate (get_max_video_format_size desc_of) 0
                   size := format2.size
                   storage := none }, g2),
          (render desc_of m format_desc straighten_alpha g).2)) ∧
    (∀ (cs : List call) (m2 : impl),
      run mul (render desc_of m format_desc straighten_alpha g).2 cs = (.ok (), m2) →
      (∀ x ∈ tree_items m2.layers_, ∃ f ∈ visited cs, made_from f x) ∧
      (∀ (pass : field_mode), ∀ x ∈ image_renderer.pass_items pass m2.layers_,
        ∃ f ∈ visited cs, ∃ y, made_from f y ∧ x = image_renderer.masked pass y)) := by
  refine ⟨rfl, rfl, rfl, rfl, fun _ _ _ => rfl, ?_⟩
  intro cs m2 hrun
  have h1 : ∀ x ∈ tree_items m2.layers_, ∃ f ∈ visited cs, made_from f x := by
    intro x hx
    rcases run_items mul cs _ m2 hrun x hx with h | h
    · simp [render, tree_items] at h
    · exact h
  refine ⟨h1, ?_⟩
  intro pass x hx
  obtain ⟨y, hy, e⟩ := pass_items_mem pass m2.layers_ x hx
  obtain ⟨f, hf, hm⟩ := h1 y hy
  exact ⟨f, hf, y, hm, e⟩

/-- An instance of C28: after the sample tick the tree holds one root layer; `render`
hands it to the renderer, which answers with a pending readback, and leaves the mixer
with an empty tree, so that a second `render` is answered at once without a call to the
device. -/
theorem render_hands_over_layers_witness :
    after_tick.layers_.length = 1 ∧
    (render image_renderer.sample_table after_tick image_renderer.sample_format false
      { calls := [], created := 0 }).1.1 = .readback image_renderer.sample_target ∧
    (render image_renderer.sample_table after_tick image_renderer.sample_format false
      { calls := [], created := 0 }).2.layers_ = [] ∧
    (render image_renderer.sample_table
      (render image_renderer.sample_table after_tick image_renderer.sample_format false
        { calls := [], created := 0 }).2
      image_renderer.sample_format false image_renderer.sample_gpu).1.2 =
      image_renderer.sample_gpu :=
  ⟨by decide, by decide,
    (render_hands_over_layers image_renderer.sample_table image_transform.mul after_tick
      image_renderer.sample_format false { calls := [], created := 0 }).2.1,
    congrArg (fun r => r.1.2)
      ((render_hands_over_layers image_renderer.sample_table image_transform.mul after_tick
        image_renderer.sample_format false { calls := [], created := 0 }).2.2.2.2.1
        image_renderer.sample_format false image_renderer.sample_gpu)⟩

theorem size_t_of_nonneg (x : Int) (h : 0 ≤ x ∧ x < 18446744073709551616) :
    ((device.size_t x : Nat) : Int) = x := by
  unfold device.size_t
  rw [Int.emod_eq_of_lt h.1 h.2]
  exact Int.toNat_of_nonneg h.1

theorem create_arrays_spec (planes : List plane) :
    ∀ d : device.impl, device.exact_host_pools d →
      (∀ p ∈ planes, 0 ≤ p.size ∧ p.size < 18446744073709551616) →
      (create_arrays d planes).1.length = planes.length ∧
      (∀ i a, (create_arrays d planes).1.get? i = some a →
        ∃ p, planes.get? i = some p ∧ (a.size : Int) = p.size ∧
          (a.storage.size : Int) = p.size ∧ a.storage.usage = .write_only) ∧
      (∀ k, (create_arrays d planes).2.host_pools_ usage.read_only.index k =
        d.host_pools_ usage.read_only.index k) ∧
      device.exact_host_pools (create_arrays d planes).2 := by
  induction planes with
  | nil =>
    intro d hd _
    exact ⟨rfl, fun i a h => by simp [create_arrays] at h, fun _ => rfl, hd⟩
  | cons p ps ih =>
    intro d hd hp
    have hb := device.create_buffer_exact d (device.size_t p.size) .write_only hd
    have hsz := size_t_of_nonneg p.size (hp p (List.mem_cons_self _ _))
    obtain ⟨h1, h2, h3, h4⟩ := ih (device.create_array d p.size).2 hb.2.2.1
      (fun q hq => hp q (List.mem_cons_of_mem _ hq))
    refine ⟨?_, ?_, ?_, h4⟩
    · simp only [create_arrays, List.length_cons, h1]
    · intro i a ha
      cases i with
      | zero =>
        simp only [create_arrays, List.get?_cons_zero, Option.some.injEq] at ha
        refine ⟨p, rfl, ?_, ?_, ?_⟩
        · rw [← ha]
          simp only [device.create_array]
          rw [hb.1]
          exact hsz
        · rw [← ha]
          simp only [device.create_array]
          rw [hb.1]
          exact hsz
        · rw [← ha]
          simp only [device.create_array]
          exact hb.2.1
      | succ j =>
        simp only [create_arrays, List.get?_cons_succ] at ha
        exact h2 j a ha
    · intro k
      simp only [create_arrays]
      rw [h3 k]
      exact hb.2.2.2 _ k (by decide)

theorem create_arrays_invariant (planes : List plane) :
    ∀ (d : device.impl) (held : List Nat),
      device.pool_invariant buffer.id d.host_pools_ held d.buffers_allocated →
      device.pool_invariant buffer.id (create_arrays d planes).2.host_pools_
        (held ++ (create_arrays d planes).1.map fun a => a.storage.id)
        (create_arrays d planes).2.buffers_allocated := by
  induction planes with
  | nil =>
    intro d held h
    simpa [create_arrays] using h
  | cons p ps ih =>
    intro d held h
    have h1 := device.create_buffer_invariant d (device.size_t p.size) .write_only held h
    have h2 := ih (device.create_array d p.size).2 _ h1
    simpa [create_arrays, device.create_array, List.append_assoc] using h2

theorem create_arrays_frame (planes : List plane) :
    ∀ d : device.impl,
      (create_arrays d planes).2.device_pools_ = d.device_pools_ ∧
      (create_arrays d planes).2.texture_cache_ = d.texture_cache_ ∧
      (create_arrays d planes).2.textures_allocated = d.textures_allocated ∧
      d.buffers_allocated ≤ (create_arrays d planes).2.buffers_allocated ∧
      (∀ i k, i ≠ usage.write_only.index →
        (create_arrays d planes).2.host_pools_ i k = d.host_pools_ i k) := by
  induction planes with
  | nil => intro d; exact ⟨rfl, rfl, rfl, le_refl _, fun _ _ _ => rfl⟩
  | cons p ps ih =>
    intro d
    obtain ⟨h1, h2, h3, h4, h5⟩ := ih (device.create_array d p.size).2
    obtain ⟨⟨c1, c2, c3⟩, hc⟩ := device.create_buffer_cases d (device.size_t p.size) .write_only
    simp only [create_arrays]
    refine ⟨by rw [h1]; exact c1, by rw [h2]; exact c2, by rw [h3]; exact c3, ?_, ?_⟩
    · have : d.buffers_allocated ≤ (device.create_array d p.size).2.buffers_allocated := by
        simp only [device.create_array]
        rcases hc with ⟨_, _, _, e⟩ | ⟨_, _, _, _, _, e⟩
        · rw [e]; omega
        · rw [e]
      exact le_trans this h4
    · intro i k hi
      rw [h5 i k hi]
      simp only [device.create_array]
      rcases hc with ⟨_, _, e, _⟩ | ⟨_, _, _, _, e, _⟩
      · rw [e]
      · rw [e]
        simp [device.set_bucket, hi]

theorem create_arrays_bucket (k : Nat) (planes : List plane) :
    ∀ d : device.impl, device.exact_host_pools d →
      ∃ news : List buffer,
        ((create_arrays d planes).1.filter fun a => decide (a.size = k)).map
            (fun a => a.storage) =
          (d.host_pools_ usage.write_only.index k).take
              (planes.countP fun p => decide (device.size_t p.size = k)) ++ news ∧
        news.length =
          (planes.countP fun p => decide (device.size_t p.size = k)) -
            (d.host_pools_ usage.write_only.index k).length ∧
        (∀ b ∈ news, d.buffers_allocated ≤ b.id ∧ b.size = k ∧ b.usage = .write_only) ∧
        (create_arrays d planes).2.host_pools_ usage.write_only.index k =
          (d.host_pools_ usage.write_only.index k).drop
            (planes.countP fun p => decide (device.size_t p.size = k)) := by
  induction planes with
  | nil =>
    intro d _
    exact ⟨[], by simp [create_arrays], by simp, fun b hb => by simp at hb,
      by simp [create_arrays]⟩
  | cons p ps ih =>
    intro d hd
    have hb := device.create_buffer_exact d (device.size_t p.size) .write_only hd
    obtain ⟨_, hc⟩ := device.create_buffer_cases d (device.size_t p.size) .write_only
    obtain ⟨news, h1, h2, h3, h4⟩ := ih (device.create_array d p.size).2 hb.2.2.1
    have hsize : (device.create_array d p.size).1.size = device.size_t p.size := hb.1
    by_cases hk : device.size_t p.size = k
    · have hcount : (p :: ps).countP (fun q => decide (device.size_t q.size = k)) =
          ps.countP (fun q => decide (device.size_t q.size = k)) + 1 := by
        simp [List.countP_cons, hk]
      have hfilter : ((create_arrays d (p :: ps)).1.filter fun a => decide (a.size = k)) =
          (device.create_array d p.size).1 ::
            ((create_arrays (device.create_array d p.size).2 ps).1.filter fun a =>
              decide (a.size = k)) := by
        simp only [create_arrays]
        rw [List.filter_cons_of_pos]
        simp [hsize, hk]
      rw [hcount, hfilter]
      simp only [create_arrays, List.map_cons]
      rcases hc with ⟨he, e1, e2, e3⟩ | ⟨b0, rest, he, e1, e2, e3⟩
      · rw [hk] at he
        have hpool : (device.create_array d p.size).2.host_pools_ usage.write_only.index k =
            [] := by
          simp only [device.create_array]
          rw [e2, he]
        rw [hpool] at h1 h2 h4
        refine ⟨(device.create_array d p.size).1.storage :: news, ?_, ?_, ?_, ?_⟩
        · rw [h1, he]
          simp
        · rw [he]
          simp only [List.length_cons, List.length_nil, Nat.sub_zero] at h2 ⊢
          omega
        · intro b hbm
          rcases List.mem_cons.1 hbm with h5 | h5
          · rw [h5]
            simp only [device.create_array]
            rw [e1]
            exact ⟨le_refl _, hk, rfl⟩
          · obtain ⟨h6, h7, h8⟩ := h3 b h5
            refine ⟨?_, h7, h8⟩
            simp only [device.create_array] at h6
            rw [e3] at h6
            omega
        · rw [h4, he]
          simp
      · rw [hk] at he
        have hpool : (device.create_array d p.size).2.host_pools_ usage.write_only.index k =
            rest := by
          simp only [device.create_array]
          rw [e2, hk]
          simp [device.set_bucket]
        rw [hpool] at h1 h2 h4
        refine ⟨news, ?_, ?_, ?_, ?_⟩
        · rw [h1, he]
          simp only [device.create_array]
          rw [e1]
          simp
        · rw [he, h2]
          simp only [List.length_cons]
          omega
        · intro b hbm
          obtain ⟨h6, h7, h8⟩ := h3 b hbm
          refine ⟨?_, h7, h8⟩
          simp only [device.create_array] at h6
          rw [e3] at h6
          exact h6
        · rw [h4, he]
          simp
    · have hcount : (p :: ps).countP (fun q => decide (device.size_t q.size = k)) =
          ps.countP (fun q => decide (device.size_t q.size = k)) := by
        simp [List.countP_cons, hk]
      have hfilter : ((create_arrays d (p :: ps)).1.filter fun a => decide (a.size = k)) =
          ((create_arrays (device.create_array d p.size).2 ps).1.filter fun a =>
            decide (a.size = k)) := by
        simp only [create_arrays]
        rw [List.filter_cons_of_neg]
        simp [hsize, hk]
      have hpool : (device.create_array d p.size).2.host_pools_ usage.write_only.index k =
          d.host_pools_ usage.write_only.index k := by
        simp only [device.create_array]
        rcases hc with ⟨_, _, e2, _⟩ | ⟨_, _, _, _, e2, _⟩
        · rw [e2]
        · rw [e2]
          have hk2 : ¬ k = device.size_t p.size := fun e => hk e.symm
          simp [device.set_bucket, hk2]
      have halloc : d.buffers_allocated ≤ (device.create_array d p.size).2.buffers_allocated := by
        simp only [device.create_array]
        rcases hc with ⟨_, _, _, e⟩ | ⟨_, _, _, _, _, e⟩
        · rw [e]; omega
        · rw [e]
      rw [hcount, hfilter]
      rw [hpool] at h1 h2 h4
      refine ⟨news, h1, h2, ?_, ?_⟩
      · intro b hbm
        obtain ⟨h6, h7, h8⟩ := h3 b hbm
        exact ⟨le_trans halloc h6, h7, h8⟩
      · simp only [create_arrays]
        exact h4

/-- C21 fails as stated: for the pixel description with one plane of size -1 (the plane
built by `plane(-1, 1, 1)`) the size handed to `create_array` is converted to the
unsigned 18446744073709551615, which passes the check of `create_buffer` for a positive
size; the buffer requested, and the array wrapped around it, have that size and not the
size of the plane. -/
theorem create_frame_size_counterexample :
    negative_desc.planes = [plane.create (-1) 1 1] ∧
    (plane.create (-1) 1 1).size = -1 ∧
    device.size_t (-1) = 18446744073709551615 ∧
    (create_frame device.fresh 7 negative_desc 2).1.buffers =
      [ { size := 18446744073709551615
          storage := { id := 0, size := 18446744073709551615, usage := .write_only } } ] ∧
    ((18446744073709551615 : Nat) : Int) ≠ (plane.create (-1) 1 1).size := by
  decide

/-- C21 as amended: for a pixel description whose planes have a byte size that is not
negative, on a device whose idle host buffers each lie in the bucket of their own usage
and size and are exclusive of the buffers `held` through live handles, `create_frame`
returns a frame with the given tag, pixel description and channel layout and with
exactly one array per plane, in plane order; array `i` reports the size of plane `i`
and is backed by a write-only host buffer of that size. The buffers of the frame are
pairwise different, none of them was held before and none is idle in a pool afterwards.
For every size, the buffers of the arrays of that size are, in order, the idle buffers
at the front of the write-only bucket of that size, as many as there are planes of that
size, followed by newly allocated write-only buffers when the bucket has run empty; the
bucket has lost exactly those front buffers. The pools of every other usage, the image
pools and the upload cache are not touched, and the two properties of the pools hold
again afterwards with the buffers of the frame held, as they do in every state reached
from a new device by `create_buffer`, uploads and releases of host buffers. -/
theorem create_frame_allocates_write_only_buffers (ogl : device.impl) (held : List Nat)
    (tag : Nat) (desc : pixel_format_desc) (channel_layout : Nat)
    (hd : device.exact_host_pools ogl)
    (hi : device.pool_invariant buffer.id ogl.host_pools_ held ogl.buffers_allocated)
    (hp : ∀ p ∈ desc.planes, 0 ≤ p.size ∧ p.size < 18446744073709551616) :
    (create_frame ogl tag desc channel_layout).1.tag = tag ∧
    (create_frame ogl tag desc channel_layout).1.desc = desc ∧
    (create_frame ogl tag desc channel_layout).1.channel_layout = channel_layout ∧
    (create_frame ogl tag desc channel_layout).1.buffers.length = desc.planes.length ∧
    (∀ i a, (create_frame ogl tag desc channel_layout).1.buffers.get? i = some a →
      ∃ p, desc.planes.get? i = some p ∧ (a.size : Int) = p.size ∧
        (a.storage.size : Int) = p.size ∧ a.storage.usage = .write_only) ∧
    ((create_frame ogl tag desc channel_layout).1.buffers.map fun a => a.storage.id).Nodup ∧
    (∀ a ∈ (create_frame ogl tag desc channel_layout).1.buffers,
      a.storage.id ∉ held ∧
      ∀ i k, a.storage ∉ (create_frame ogl tag desc channel_layout).2.host_pools_ i k) ∧
    (∀ k : Nat, ∃ news : List buffer,
      ((create_frame ogl tag desc channel_layout).1.buffers.filter fun a =>
          decide (a.size = k)).map (fun a => a.storage) =
        (ogl.host_pools_ usage.write_only.index k).take
            (desc.planes.countP fun p => decide (device.size_t p.size = k)) ++ news ∧
      news.length =
        (desc.planes.countP fun p => decide (device.size_t p.size = k)) -
          (ogl.host_pools_ usage.write_only.index k).length ∧
      (∀ b ∈ news,
        ogl.buffers_allocated ≤ b.id ∧
        b.id < (create_frame ogl tag desc channel_layout).2.buffers_allocated ∧
        b.size = k ∧ b.usage = .write_only) ∧
      (create_frame ogl tag desc channel_layout).2.host_pools_ usage.write_only.index k =
        (ogl.host_pools_ usage.write_only.index k).drop
          (desc.planes.countP fun p => decide (device.size_t p.size = k))) ∧
    (∀ i k, i ≠ usage.write_only.index →
      (create_frame ogl tag desc channel_layout).2.host_pools_ i k = ogl.host_pools_ i k) ∧
    (create_frame ogl tag desc channel_layout).2.device_pools_ = ogl.device_pools_ ∧
    (create_frame ogl tag desc channel_layout).2.texture_cache_ = ogl.texture_cache_ ∧
    device.exact_host_pools (create_frame ogl tag desc channel_layout).2 ∧
    device.pool_invariant buffer.id (create_frame ogl tag desc channel_layout).2.host_pools_
      (held ++ (create_frame ogl tag desc channel_layout).1.buffers.map fun a => a.storage.id)
      (create_frame ogl tag desc channel_layout).2.buffers_allocated ∧
    (∀ acts : List device.action,
      device.exact_host_pools (device.run acts device.start).d ∧
      device.pool_invariant buffer.id (device.run acts device.start).d.host_pools_
        ((device.run acts device.start).leased.map buffer.id)
        (device.run acts device.start).d.buffers_allocated) := by
  obtain ⟨h1, h2, _, h4⟩ := create_arrays_spec desc.planes ogl hd hp
  obtain ⟨f1, f2, _, _, f5⟩ := create_arrays_frame desc.planes ogl
  have hinv := create_arrays_invariant desc.planes ogl held hi
  have hnd := hinv.held_distinct
  rw [List.nodup_append] at hnd
  have hmem : ∀ a ∈ (create_arrays ogl desc.planes).1,
      a.storage.id ∈ (create_arrays ogl desc.planes).1.map fun a => a.storage.id :=
    fun a ha => List.mem_map.2 ⟨a, ha, rfl⟩
  refine ⟨rfl, rfl, rfl, h1, h2, hnd.2.1, ?_, ?_, f5, f1, f2, h4, hinv, ?_⟩
  · intro a ha
    refine ⟨fun hh => hnd.2.2 hh (hmem a ha), ?_⟩
    intro i k hk
    exact hinv.idle_not_held i k a.storage hk (List.mem_append_right _ (hmem a ha))
  · intro k
    obtain ⟨news, b1, b2, b3, b4⟩ := create_arrays_bucket k desc.planes ogl hd
    refine ⟨news, b1, b2, ?_, b4⟩
    intro b hb
    obtain ⟨c1, c2, c3⟩ := b3 b hb
    refine ⟨c1, ?_, c2, c3⟩
    have hin : b ∈ ((create_arrays ogl desc.planes).1.filter fun a =>
        decide (a.size = k)).map (fun a => a.storage) := by
      rw [b1]
      exact List.mem_append_right _ hb
    obtain ⟨a, ha, e⟩ := List.mem_map.1 hin
    have ha2 := (List.mem_filter.1 ha).1
    rw [← e]
    exact hinv.held_known _ (List.mem_append_right _ (hmem a ha2))
  · intro acts
    exact ⟨device.run_exact acts device.start device.exact_host_pools_fresh,
      device.host_invariant_pool _
        (device.run_invariant acts device.start device.start_invariant)⟩

/-- An instance of C21 as amended: on a device whose write-only pool holds one idle
16-byte buffer (requested, used for an upload and released before), `create_frame` for
a planar description with planes of 16, 4 and 4 bytes returns three arrays of these
sizes: the first is backed by the idle buffer, which leaves its bucket, the other two by
newly allocated buffers; the three buffers are pairwise different. -/
theorem create_frame_allocates_write_only_buffers_witness :
    (device.run device.recycle_calls device.start).d.host_pools_ 0 16 =
      [{ id := 0, size := 16, usage := .write_only }] ∧
    (create_frame (device.run device.recycle_calls device.start).d 7 planar_desc 2).1 =
      { buffers :=
          [ { size := 16, storage := { id := 0, size := 16, usage := .write_only } },
            { size := 4, storage := { id := 1, size := 4, usage := .write_only } },
            { size := 4, storage := { id := 2, size := 4, usage := .write_only } } ]
        tag := 7
        desc := planar_desc
        channel_layout := 2 } ∧
    (create_frame (device.run device.recycle_calls device.start).d 7 planar_desc
      2).2.host_pools_ 0 16 = [] ∧
    ((create_frame (device.run device.recycle_calls device.start).d 7 planar_desc
      2).1.buffers.map fun a => a.storage.id).Nodup :=
  ⟨by decide, by decide, by decide,
    (create_frame_allocates_write_only_buffers
      (device.run device.recycle_calls device.start).d
      ((device.run device.recycle_calls device.start).leased.map buffer.id) 7 planar_desc 2
      (device.run_exact device.recycle_calls device.start device.exact_host_pools_fresh)
      (device.host_invariant_pool _
        (device.run_invariant device.recycle_calls device.start device.start_invariant))
      (by decide)).2.2.2.2.2.1⟩

theorem get_last_of_getLast (ls : List layer) (l0 : layer) (h : ls.getLast? = some l0) :
    ls.get? (ls.length - 1) = some l0 := by
  rw [List.get?_eq_getElem?, ← List.getLast?_eq_getElem?]
  exact h

theorem getLast_set_last (ls : List layer) (y l0 : layer) (h : ls.getLast? = some l0) :
    (ls.set (ls.length - 1) y).getLast? = some y := by
  have hne : ls ≠ [] := by
    intro e
    rw [e] at h
    simp at h
  rw [List.getLast?_eq_getElem?, List.length_set, List.getElem?_set_self]
  have := List.length_pos.2 hne
  omega

theorem layer_at_cons_ne (ls : List layer) (i : Nat) (p : List Nat) (l0 : layer)
    (hg : ls.get? i = some l0) (hp : p ≠ []) :
    layer_at ls (i :: p) = layer_at l0.sublayers p := by
  rw [layer_at, hg]
  simp only [hp, if_false]

theorem layer_at_ne_nil (ls : List layer) (p : List Nat) (l : layer)
    (h : layer_at ls p = some l) : p ≠ [] := by
  intro e
  rw [e] at h
  simp [layer_at] at h

theorem on_spine_cons (ls : List layer) (base : List Nat) (e : Option (List Nat))
    (rest : List (Option (List Nat))) (h : on_spine ls base (e :: rest) = true) :
    ∃ l0, ls.getLast? = some l0 ∧ e = some (base ++ [ls.length - 1]) ∧
      on_spine l0.sublayers (base ++ [ls.length - 1]) rest = true := by
  simp only [on_spine] at h
  cases hl : ls.getLast? with
  | none => rw [hl] at h; simp at h
  | some l0 =>
    rw [hl] at h
    simp only [Bool.and_eq_true, decide_eq_true_eq] at h
    exact ⟨l0, rfl, h.1, h.2⟩

theorem on_spine_intro (ls : List layer) (base : List Nat) (rest : List (Option (List Nat)))
    (l0 : layer) (hl : ls.getLast? = some l0)
    (h : on_spine l0.sublayers (base ++ [ls.length - 1]) rest = true) :
    on_spine ls base (some (base ++ [ls.length - 1]) :: rest) = true := by
  simp only [on_spine, hl, Bool.and_eq_true, decide_eq_true_eq]
  exact ⟨trivial, h⟩

theorem on_spine_take (stack : List (Option (List Nat))) :
    ∀ (ls : List layer) (base : List Nat) (n : Nat), on_spine ls base stack = true →
      on_spine ls base (stack.take n) = true := by
  induction stack with
  | nil => intro ls base n h; simpa using h
  | cons e rest ih =>
    intro ls base n h
    cases n with
    | zero => simp [on_spine]
    | succ k =>
      obtain ⟨l0, hl, he, hr⟩ := on_spine_cons ls base e rest h
      rw [List.take_succ_cons, he]
      exact on_spine_intro ls base _ l0 hl (ih _ _ k hr)

theorem on_spine_modify (f : layer → layer) (stack : List (Option (List Nat))) :
    ∀ (ls : List layer) (base : List Nat), on_spine ls base stack = true → stack ≠ [] →
      ∃ rel l ls1, stack.getLast? = some (some (base ++ rel)) ∧ layer_at ls rel = some l ∧
        modify_at f ls rel = some ls1 ∧ on_spine ls1 base stack = true ∧
        (∀ e ∈ stack, ∃ q, e = some (base ++ q) ∧ q <+: rel) ∧
        ((f l).sublayers.getLast? = none ∨
          ∃ last, (f l).sublayers.getLast? = some last ∧
            on_spine ls1 base
              (stack ++ [some (base ++ rel ++ [(f l).sublayers.length - 1])]) = true) := by
  induction stack with
  | nil => intro ls base _ hne; exact absurd rfl hne
  | cons e rest ih =>
    intro ls base h _
    obtain ⟨l0, hl, he, hr⟩ := on_spine_cons ls base e rest h
    have hg := get_last_of_getLast ls l0 hl
    cases rest with
    | nil =>
      have hset := getLast_set_last ls (f l0) l0 hl
      refine ⟨[ls.length - 1], l0, ls.set (ls.length - 1) (f l0), ?_, ?_, ?_, ?_, ?_, ?_⟩
      · rw [he]; rfl
      · rw [layer_at, hg]; simp
      · rw [modify_at, hg]; simp
      · rw [he]
        have := on_spine_intro (ls.set (ls.length - 1) (f l0)) base [] (f l0) hset
          (by simp [on_spine])
        simpa using this
      · intro e1 he1
        simp only [List.mem_singleton] at he1
        exact ⟨[ls.length - 1], by rw [he1, he], List.prefix_refl _⟩
      · cases hlast : (f l0).sublayers.getLast? with
        | none => exact Or.inl rfl
        | some last =>
          right
          refine ⟨last, rfl, ?_⟩
          rw [he]
          have h2 : on_spine (f l0).sublayers (base ++ [ls.length - 1])
              [some (base ++ [ls.length - 1] ++ [(f l0).sublayers.length - 1])] = true :=
            on_spine_intro _ _ [] last hlast (by simp [on_spine])
          have := on_spine_intro (ls.set (ls.length - 1) (f l0)) base _ (f l0) hset
            (by simpa using h2)
          simpa using this
    | cons e2 r2 =>
      obtain ⟨rel1, l, subs1, h1, h2, h3, h4, h5, h6⟩ :=
        ih l0.sublayers (base ++ [ls.length - 1]) hr (by simp)
      have hrel : rel1 ≠ [] := layer_at_ne_nil _ _ _ h2
      have hset := getLast_set_last ls { l0 with sublayers := subs1 } l0 hl
      refine ⟨(ls.length - 1) :: rel1, l, ls.set (ls.length - 1) { l0 with sublayers := subs1 },
        ?_, ?_, ?_, ?_, ?_, ?_⟩
      · rw [List.getLast?_cons_cons, h1]
        simp
      · rw [layer_at_cons_ne ls _ rel1 l0 hg hrel]
        exact h2
      · rw [modify_at, hg]
        simp only [hrel, if_false, h3]
      · rw [he]
        have := on_spine_intro (ls.set (ls.length - 1) { l0 with sublayers := subs1 }) base
          (e2 :: r2) { l0 with sublayers := subs1 } hset (by simpa using h4)
        simpa using this
      · intro e1 he1
        rcases List.mem_cons.1 he1 with h7 | h7
        · refine ⟨[ls.length - 1], by rw [h7, he], ?_⟩
          exact ⟨rel1, rfl⟩
        · obtain ⟨q, hq1, hq2⟩ := h5 e1 h7
          refine ⟨(ls.length - 1) :: q, by rw [hq1]; simp, ?_⟩
          exact (List.prefix_cons_inj _).2 hq2
      · rcases h6 with h6 | ⟨last, hl6, hs6⟩
        · exact Or.inl h6
        · right
          refine ⟨last, hl6, ?_⟩
          rw [he]
          have := on_spine_intro (ls.set (ls.length - 1) { l0 with sublayers := subs1 }) base
            ((e2 :: r2) ++ [some (base ++ [ls.length - 1] ++ rel1 ++
              [(f l).sublayers.length - 1])])
            { l0 with sublayers := subs1 } hset (by simpa using hs6)
          simpa using this

theorem push_cases (mul : image_transform → image_transform → image_transform) (m m1 : impl)
    (t : frame_transform) (h : push mul m t = (.ok (), m1)) :
    ∃ top, m.transform_stack_.getLast? = some top ∧
      m1.transform_stack_ = m.transform_stack_ ++ [mul top t.image_transform] ∧
      m1.ogl_ = m.ogl_ ∧
      ((¬ top.layer_depth < (mul top t.image_transform).layer_depth ∧
          m1.layers_ = m.layers_ ∧ m1.layer_stack_ = m.layer_stack_) ∨
        (top.layer_depth < (mul top t.image_transform).layer_depth ∧ m.layer_stack_ = [] ∧
          m1.layers_ =
            m.layers_ ++ [layer.create (mul top t.image_transform).blend_mode] ∧
          m1.layer_stack_ = [some [m.layers_.length]]) ∨
        (top.layer_depth < (mul top t.image_transform).layer_depth ∧
          ∃ p l, m.layer_stack_.getLast? = some (some p) ∧ layer_at m.layers_ p = some l ∧
            modify_at
              (layer.push_sublayer (layer.create (mul top t.image_transform).blend_mode))
              m.layers_ p = some m1.layers_ ∧
            m1.layer_stack_ = m.layer_stack_ ++ [some (p ++ [l.sublayers.length])])) := by
  unfold push at h
  split at h
  · simp at h
  · rename_i top htop
    refine ⟨top, htop, ?_⟩
    simp only at h
    split at h
    · rename_i hlt
      split at h
      · rename_i hnone
        simp only [Prod.mk.injEq, true_and] at h
        rw [← h]
        have he : m.layer_stack_ = [] := List.getLast?_eq_none_iff.1 hnone
        refine ⟨rfl, rfl, Or.inr (Or.inl ⟨hlt, he, rfl, ?_⟩)⟩
        simp [he]
      · simp at h
      · rename_i p hp
        split at h
        · rename_i l ls hl hm
          simp only [Prod.mk.injEq, true_and] at h
          rw [← h]
          exact ⟨rfl, rfl, Or.inr (Or.inr ⟨hlt, p, l, hp, hl, hm, rfl⟩)⟩
        · simp at h
    · rename_i hlt
      simp only [Prod.mk.injEq, true_and] at h
      rw [← h]
      exact ⟨rfl, rfl, Or.inl ⟨hlt, rfl, rfl⟩⟩

theorem push_spine (mul : image_transform → image_transform → image_transform) (m m1 : impl)
    (t : frame_transform) (hs : on_spine m.layers_ [] m.layer_stack_ = true)
    (h : push mul m t = (.ok (), m1)) :
    on_spine m1.layers_ [] m1.layer_stack_ = true ∧
    (∀ p, m.layer_stack_.getLast? = some (some p) →
      ∀ e ∈ m.layer_stack_, ∃ q, e = some q ∧ q <+: p) := by
  have hpre : ∀ p, m.layer_stack_.getLast? = some (some p) →
      ∀ e ∈ m.layer_stack_, ∃ q, e = some q ∧ q <+: p := by
    intro p hp
    have hne : m.layer_stack_ ≠ [] := by
      intro e0
      rw [e0] at hp
      simp at hp
    obtain ⟨rel, _, _, h1, _, _, _, h5, _⟩ :=
      on_spine_modify (fun l => l) m.layer_stack_ m.layers_ [] hs hne
    rw [hp] at h1
    simp only [List.nil_append, Option.some.injEq] at h1
    intro e he
    obtain ⟨q, hq1, hq2⟩ := h5 e he
    exact ⟨q, by simpa using hq1, by rw [h1]; exact hq2⟩
  refine ⟨?_, hpre⟩
  obtain ⟨top, _, _, _, hcase⟩ := push_cases mul m m1 t h
  rcases hcase with ⟨_, h1, h2⟩ | ⟨_, h0, h1, h2⟩ | ⟨_, p, l, hp, hl, hm, h2⟩
  · rw [h1, h2]; exact hs
  · rw [h1, h2]
    have := on_spine_intro
      (m.layers_ ++ [layer.create (mul top t.image_transform).blend_mode]) [] []
      (layer.create (mul top t.image_transform).blend_mode) (by simp) (by simp [on_spine])
    simpa using this
  · have hne : m.layer_stack_ ≠ [] := by
      intro e0
      rw [e0] at hp
      simp at hp
    obtain ⟨rel, l2, ls1, h3, h4, h5, _, _, h7⟩ :=
      on_spine_modify
        (layer.push_sublayer (layer.create (mul top t.image_transform).blend_mode))
        m.layer_stack_ m.layers_ [] hs hne
    rw [hp] at h3
    simp only [List.nil_append, Option.some.injEq] at h3
    subst h3
    rw [hl] at h4
    simp only [Option.some.injEq] at h4
    subst h4
    rw [hm] at h5
    simp only [Option.some.injEq] at h5
    subst h5
    rw [h2]
    rcases h7 with h7 | ⟨last, _, h8⟩
    · simp [layer.push_sublayer] at h7
    · simpa [layer.push_sublayer] using h8

theorem visit_cases (m m1 : impl) (f : const_frame) (h : visit m f = (.ok (), m1)) :
    m1 = m ∨
    ∃ top p it, m.transform_stack_.getLast? = some top ∧
      f.pixel_format_desc.format ≠ pixel_format.invalid ∧
      f.pixel_format_desc.planes.isEmpty = false ∧
      top.field_mode ≠ field_mode.empty ∧
      m.layer_stack_.getLast? = some (some p) ∧
      modify_at (layer.push_item it) m.layers_ p = some m1.layers_ ∧
      m1.layer_stack_ = m.layer_stack_ ∧ m1.transform_stack_ = m.transform_stack_ := by
  unfold visit at h
  split at h
  · simp only [Prod.mk.injEq, true_and] at h; exact Or.inl h.symm
  · rename_i hinv
    split at h
    · simp only [Prod.mk.injEq, true_and] at h; exact Or.inl h.symm
    · rename_i hpl
      split at h
      · simp at h
      · rename_i top htop
        split at h
        · simp only [Prod.mk.injEq, true_and] at h; exact Or.inl h.symm
        · rename_i hfm
          simp only at h
          split at h
          · simp at h
          · simp at h
          · rename_i p hp
            split at h
            · simp at h
            · rename_i ls hm
              simp only [Prod.mk.injEq, true_and] at h
              right
              refine ⟨top, p,
                { pix_desc := f.pixel_format_desc
                  textures := plane_uploads f top.use_mipmap f.pixel_format_desc.planes
                  transform := top
                  geometry := f.geometry },
                htop, hinv, by simpa using hpl, hfm, hp, ?_, ?_, ?_⟩
              · rw [← h]; exact hm
              · rw [← h]
              · rw [← h]

theorem visit_spine (m m1 : impl) (f : const_frame)
    (hs : on_spine m.layers_ [] m.layer_stack_ = true) (h : visit m f = (.ok (), m1)) :
    on_spine m1.layers_ [] m1.layer_stack_ = true := by
  rcases visit_cases m m1 f h with h1 | ⟨top, p, it, _, _, _, _, hp, hm, h2, _⟩
  · rw [h1]; exact hs
  · have hne : m.layer_stack_ ≠ [] := by
      intro e0
      rw [e0] at hp
      simp at hp
    obtain ⟨rel, l2, ls1, h3, _, h5, h6, _, _⟩ :=
      on_spine_modify (layer.push_item it) m.layer_stack_ m.layers_ [] hs hne
    rw [hp] at h3
    simp only [List.nil_append, Option.some.injEq] at h3
    subst h3
    rw [hm] at h5
    simp only [Option.some.injEq] at h5
    subst h5
    rw [h2]
    exact h6

theorem pop_reach (m m1 : impl) (hc : consistent m)
    (hs : on_spine m.layers_ [] m.layer_stack_ = true) (h : pop m = (.ok (), m1)) :
    consistent m1 ∧ on_spine m1.layers_ [] m1.layer_stack_ = true ∧
      m1.transform_stack_ = m.transform_stack_.dropLast ∧ m1.transform_stack_ ≠ [] := by
  obtain ⟨hts, top, htop, hls⟩ := pop_ok_stack m m1 h
  have hne : m.transform_stack_.dropLast ≠ [] := by
    intro e
    rw [e] at htop
    simp at htop
  have hlen : 2 ≤ m.transform_stack_.length := by
    have : m.transform_stack_.dropLast.length ≠ 0 := fun e => hne (List.length_eq_zero.1 e)
    simp only [List.length_dropLast] at this
    omega
  obtain ⟨m2, h2, hc2, _⟩ := pop_complete m hc hlen
  rw [h] at h2
  simp only [Prod.mk.injEq, true_and] at h2
  subst h2
  refine ⟨hc2, ?_, hts, by rw [hts]; exact hne⟩
  obtain ⟨top0, htop0⟩ : ∃ top0, m.transform_stack_.getLast? = some top0 := by
    cases h0 : m.transform_stack_.getLast? with
    | none => rw [List.getLast?_eq_none_iff.mp h0] at hlen; simp at hlen
    | some x => exact ⟨x, rfl⟩
  have hmem : top ∈ m.transform_stack_ :=
    (List.dropLast_sublist _).subset (List.mem_of_getLast?_eq_some htop)
  have hle : top.layer_depth ≤ top0.layer_depth :=
    le_top_of_sorted _ _ hc.depths_sorted htop0 _ hmem
  have hsz := hc.stack_size top0 htop0
  have hz : top.layer_depth.toNat - m.layer_stack_.length = 0 := by omega
  rw [pop_layers m m1 h, hls, resize, hz]
  simp only [List.replicate_zero, List.append_nil]
  exact on_spine_take _ _ _ _ hs

theorem visit_reach (m m1 : impl) (f : const_frame) (hc : consistent m)
    (hs : on_spine m.layers_ [] m.layer_stack_ = true) (h : visit m f = (.ok (), m1)) :
    consistent m1 ∧ on_spine m1.layers_ [] m1.layer_stack_ = true ∧
      m1.transform_stack_ = m.transform_stack_ := by
  refine ⟨?_, visit_spine m m1 f hs h, (visit_ok_stack m m1 f h).1⟩
  rcases visit_cases m m1 f h with h1 | ⟨top, p, it, htop, _, _, _, hp, _, _, _⟩
  · rw [h1]; exact hc
  · have hne : m.layer_stack_ ≠ [] := by
      intro e0
      rw [e0] at hp
      simp at hp
    have hsz := hc.stack_size top htop
    have hpos : 0 < m.layer_stack_.length := List.length_pos.2 hne
    obtain ⟨m2, h2, hc2, _⟩ := visit_complete m f top hc htop
      (Or.inr (Or.inr (Or.inr (by omega))))
    rw [h] at h2
    simp only [Prod.mk.injEq, true_and] at h2
    subst h2
    exact hc2

theorem push_reach (mul : image_transform → image_transform → image_transform) (m m1 : impl)
    (t : frame_transform) (top : image_transform) (hc : consistent m)
    (hs : on_spine m.layers_ [] m.layer_stack_ = true)
    (htop : m.transform_stack_.getLast? = some top)
    (hd : (mul top t.image_transform).layer_depth = top.layer_depth ∨
      (mul top t.image_transform).layer_depth = top.layer_depth + 1)
    (h : push mul m t = (.ok (), m1)) :
    consistent m1 ∧ on_spine m1.layers_ [] m1.layer_stack_ = true ∧
      m1.transform_stack_ = m.transform_stack_ ++ [mul top t.image_transform] := by
  obtain ⟨m2, h2, hc2, hts⟩ := push_complete mul m t top hc htop hd
  rw [h] at h2
  simp only [Prod.mk.injEq, true_and] at h2
  subst h2
  exact ⟨hc2, (push_spine mul m m1 t hs h).1, hts⟩

theorem run_reach (mul : image_transform → image_transform → image_transform)
    (cs : List call) :
    ∀ (m s : impl), consistent m → on_spine m.layers_ [] m.layer_stack_ = true →
      m.transform_stack_ ≠ [] → steady mul m.transform_stack_ cs = true →
      run mul m cs = (.ok (), s) →
      consistent s ∧ on_spine s.layers_ [] s.layer_stack_ = true ∧
        s.transform_stack_ ≠ [] := by
  induction cs with
  | nil =>
    intro m s hc hs hne _ hrun
    simp only [run, Prod.mk.injEq, true_and] at hrun
    rw [← hrun]
    exact ⟨hc, hs, hne⟩
  | cons c cs ih =>
    intro m s hc hs hne hst hrun
    simp only [run] at hrun
    rcases hstep : step mul m c with ⟨o, m1⟩
    rw [hstep] at hrun
    cases o with
    | thrown e => simp at hrun
    | undefined => simp at hrun
    | ok u =>
      simp only at hrun
      cases c with
      | push t =>
        simp only [step] at hstep
        obtain ⟨top, htop⟩ : ∃ top, m.transform_stack_.getLast? = some top := by
          cases h0 : m.transform_stack_.getLast? with
          | none => exact absurd (List.getLast?_eq_none_iff.mp h0) hne
          | some x => exact ⟨x, rfl⟩
        simp only [steady, htop, Bool.and_eq_true, Bool.or_eq_true, decide_eq_true_eq] at hst
        obtain ⟨hc1, hs1, hts1⟩ := push_reach mul m m1 t top hc hs htop hst.1 hstep
        refine ih m1 s hc1 hs1 (by rw [hts1]; simp) ?_ hrun
        rw [hts1]
        exact hst.2
      | visit f =>
        simp only [step] at hstep
        simp only [steady] at hst
        obtain ⟨hc1, hs1, hts1⟩ := visit_reach m m1 f hc hs hstep
        refine ih m1 s hc1 hs1 (by rw [hts1]; exact hne) ?_ hrun
        rw [hts1]
        exact hst
      | pop =>
        simp only [step] at hstep
        simp only [steady] at hst
        obtain ⟨hc1, hs1, hts1, hne1⟩ := pop_reach m m1 hc hs hstep
        refine ih m1 s hc1 hs1 hne1 ?_ hrun
        rw [hts1]
        exact hst

theorem on_spine_get (stack : List (Option (List Nat))) :
    ∀ (ls : List layer) (base : List Nat), on_spine ls base stack = true →
      (∀ first, stack.head? = some first →
        ls ≠ [] ∧ first = some (base ++ [ls.length - 1])) ∧
      (∀ i e e1, stack.get? i = some e → stack.get? (i + 1) = some e1 →
        ∃ rel l, e = some (base ++ rel) ∧ layer_at ls rel = some l ∧ l.sublayers ≠ [] ∧
          e1 = some (base ++ rel ++ [l.sublayers.length - 1])) := by
  induction stack with
  | nil =>
    intro ls base _
    exact ⟨fun first h => by simp at h, fun i e e1 h => by simp at h⟩
  | cons e0 rest ih =>
    intro ls base h
    obtain ⟨l0, hl, he, hr⟩ := on_spine_cons ls base e0 rest h
    have hg := get_last_of_getLast ls l0 hl
    obtain ⟨ih1, ih2⟩ := ih l0.sublayers (base ++ [ls.length - 1]) hr
    refine ⟨?_, ?_⟩
    · intro first hf
      simp only [List.head?_cons, Option.some.injEq] at hf
      refine ⟨?_, by rw [← hf, he]⟩
      intro e
      rw [e] at hl
      simp at hl
    · intro i e e1 h1 h2
      cases i with
      | zero =>
        simp only [List.get?_cons_zero, Option.some.injEq] at h1
        simp only [List.get?_cons_succ] at h2
        have hh : rest.head? = some e1 := by
          cases rest with
          | nil => simp at h2
          | cons a b => simpa using h2
        obtain ⟨hne, hf⟩ := ih1 e1 hh
        refine ⟨[ls.length - 1], l0, by rw [← h1, he], ?_, hne, hf⟩
        rw [layer_at, hg]
        simp
      | succ j =>
        simp only [List.get?_cons_succ] at h1 h2
        obtain ⟨rel, l, h3, h4, h5, h6⟩ := ih2 j e e1 h1 h2
        refine ⟨(ls.length - 1) :: rel, l, by rw [h3]; simp, ?_, h5, by rw [h6]; simp⟩
        rw [layer_at_cons_ne ls _ rel l0 hg (layer_at_ne_nil _ _ _ h4)]
        exact h4

/-- C26: in every state reached from the initial state by push, visit and pop calls
that end normally, where each push composes to the layer depth of the top or to one
more, the layer stack is the rightmost spine of the tree: its first entry points to the
last layer of the root sequence, and each further entry points to the last sublayer of
the layer the entry before it points to. A push in such a state leaves tree and layer
stack as they are, or appends a root layer while the layer stack is empty, or appends a
sublayer to the layer the top entry points to; in the last case every entry of the
layer stack points to that layer or to one of its ancestors, so no entry points into
the sequence that is appended to. The state after the push is again of this form. -/
theorem layer_stack_is_rightmost_spine
    (mul : image_transform → image_transform → image_transform) (cs : List call) (m : impl)
    (hsteady : steady mul fresh.transform_stack_ cs = true)
    (hrun : run mul fresh cs = (.ok (), m)) :
    on_spine m.layers_ [] m.layer_stack_ = true ∧
    (∀ first, m.layer_stack_.head? = some first →
      m.layers_ ≠ [] ∧ first = some [m.layers_.length - 1]) ∧
    (∀ i e e1, m.layer_stack_.get? i = some e → m.layer_stack_.get? (i + 1) = some e1 →
      ∃ p l, e = some p ∧ layer_at m.layers_ p = some l ∧ l.sublayers ≠ [] ∧
        e1 = some (p ++ [l.sublayers.length - 1])) ∧
    (∀ (t : frame_transform) (m1 : impl), push mul m t = (.ok (), m1) →
      on_spine m1.layers_ [] m1.layer_stack_ = true ∧
      ∃ top, m.transform_stack_.getLast? = some top ∧
        ((m1.layers_ = m.layers_ ∧ m1.layer_stack_ = m.layer_stack_) ∨
          (m.layer_stack_ = [] ∧
            m1.layers_ =
              m.layers_ ++ [layer.create (mul top t.image_transform).blend_mode] ∧
            m1.layer_stack_ = [some [m.layers_.length]]) ∨
          (∃ p l, m.layer_stack_.getLast? = some (some p) ∧
            layer_at m.layers_ p = some l ∧
            modify_at
              (layer.push_sublayer (layer.create (mul top t.image_transform).blend_mode))
              m.layers_ p = some m1.layers_ ∧
            m1.layer_stack_ = m.layer_stack_ ++ [some (p ++ [l.sublayers.length])] ∧
            ∀ e ∈ m.layer_stack_, ∃ q, e = some q ∧ q <+: p))) := by
  obtain ⟨_, hs, _⟩ := run_reach mul cs fresh m fresh_consistent (by decide) (by decide)
    hsteady hrun
  obtain ⟨hg1, hg2⟩ := on_spine_get m.layer_stack_ m.layers_ [] hs
  refine ⟨hs, ?_, ?_, ?_⟩
  · intro first hf
    simpa using hg1 first hf
  · intro i e e1 h1 h2
    obtain ⟨rel, l, h3, h4, h5, h6⟩ := hg2 i e e1 h1 h2
    exact ⟨rel, l, by simpa using h3, h4, h5, by simpa using h6⟩
  · intro t m1 hp
    obtain ⟨hs1, hpre⟩ := push_spine mul m m1 t hs hp
    refine ⟨hs1, ?_⟩
    obtain ⟨top, htop, _, _, hcase⟩ := push_cases mul m m1 t hp
    refine ⟨top, htop, ?_⟩
    rcases hcase with ⟨_, h1, h2⟩ | ⟨_, h0, h1, h2⟩ | ⟨_, p, l, hp1, hl, hm, h2⟩
    · exact Or.inl ⟨h1, h2⟩
    · exact Or.inr (Or.inl ⟨h0, h1, h2⟩)
    · exact Or.inr (Or.inr ⟨p, l, hp1, hl, hm, h2, hpre p hp1⟩)

/-- An instance of C26: after a layer was entered, a frame visited and a sublayer
entered, the layer stack holds the path of the only root layer and the path of its only
sublayer. -/
theorem layer_stack_is_rightmost_spine_witness :
    steady image_transform.mul fresh.transform_stack_ nesting_calls = true ∧
    (run image_transform.mul fresh nesting_calls).1 = .ok () ∧
    (run image_transform.mul fresh nesting_calls).2.layer_stack_ = [some [0], some [0, 0]] ∧
    on_spine (run image_transform.mul fresh nesting_calls).2.layers_ []
      (run image_transform.mul fresh nesting_calls).2.layer_stack_ = true :=
  ⟨by decide, by decide, by decide,
    (layer_stack_is_rightmost_spine image_transform.mul nesting_calls
      (run image_transform.mul fresh nesting_calls).2 (by decide)
      (Prod.ext (by decide) rfl)).1⟩

theorem visit_without_layer (m : impl) (f : const_frame) (top : image_transform)
    (hinv : f.pixel_format_desc.format ≠ pixel_format.invalid)
    (hpl : f.pixel_format_desc.planes ≠ [])
    (htop : m.transform_stack_.getLast? = some top)
    (hfm : top.field_mode ≠ field_mode.empty) (hst : m.layer_stack_ = []) :
    (visit m f).1 = .undefined := by
  have h2 : ¬ f.pixel_format_desc.planes.isEmpty = true := by
    intro h; exact hpl (List.isEmpty_iff.mp h)
  unfold visit
  rw [if_neg hinv, if_neg h2, htop]
  simp only
  rw [if_neg hfm]
  simp [hst]

/-- C27: in every state reached from the initial state by push, visit and pop calls
that end normally, where each push composes to the layer depth of the top or to one
more, the transform stack is not empty and the layer stack has as many entries as the
layer depth of the transform on top of the transform stack. For a contributing frame
(valid format, at least one plane, non-empty field mode on top) `visit` ends normally
exactly when that depth is at least 1, which is exactly when the top of the layer stack
points to a layer of the tree; at depth 0 the layer stack is empty and the append is
undefined. -/
theorem layer_stack_size_is_layer_depth
    (mul : image_transform → image_transform → image_transform) (cs : List call) (m : impl)
    (hsteady : steady mul fresh.transform_stack_ cs = true)
    (hrun : run mul fresh cs = (.ok (), m)) :
    ∃ top, m.transform_stack_.getLast? = some top ∧
      (m.layer_stack_.length : Int) = top.layer_depth ∧
      ∀ f : const_frame, f.pixel_format_desc.format ≠ pixel_format.invalid →
        f.pixel_format_desc.planes ≠ [] → top.field_mode ≠ field_mode.empty →
        ((visit m f).1 = .ok () ↔ 1 ≤ top.layer_depth) ∧
        (1 ≤ top.layer_depth ↔
          ∃ p l, m.layer_stack_.getLast? = some (some p) ∧ layer_at m.layers_ p = some l) ∧
        (top.layer_depth = 0 → m.layer_stack_ = [] ∧ (visit m f).1 = .undefined) := by
  obtain ⟨hc, _, hne⟩ := run_reach mul cs fresh m fresh_consistent (by decide) (by decide)
    hsteady hrun
  obtain ⟨top, htop⟩ : ∃ top, m.transform_stack_.getLast? = some top := by
    cases h0 : m.transform_stack_.getLast? with
    | none => exact absurd (List.getLast?_eq_none_iff.mp h0) hne
    | some x => exact ⟨x, rfl⟩
  have hsz := hc.stack_size top htop
  refine ⟨top, htop, hsz, ?_⟩
  intro f hinv hpl hfm
  have hzero : top.layer_depth = 0 → m.layer_stack_ = [] ∧ (visit m f).1 = .undefined := by
    intro h0
    have he : m.layer_stack_ = [] := List.length_eq_zero.1 (by omega)
    exact ⟨he, visit_without_layer m f top hinv hpl htop hfm he⟩
  refine ⟨⟨?_, ?_⟩, ⟨?_, ?_⟩, hzero⟩
  · intro hok
    by_contra hlt
    have h0 : top.layer_depth = 0 := by omega
    rw [(hzero h0).2] at hok
    simp at hok
  · intro h1
    obtain ⟨m1, hv, _, _⟩ := visit_complete m f top hc htop (Or.inr (Or.inr (Or.inr h1)))
    rw [hv]
  · intro h1
    have hpos : m.layer_stack_ ≠ [] := by
      intro e
      rw [e] at hsz
      simp at hsz
      omega
    cases hl : m.layer_stack_.getLast? with
    | none => exact absurd (List.getLast?_eq_none_iff.mp hl) hpos
    | some e =>
      obtain ⟨p, l, he, hp⟩ := hc.stack_valid e (List.mem_of_getLast?_eq_some hl)
      exact ⟨p, l, by rw [he], hp⟩
  · rintro ⟨p, l, hp, _⟩
    have hpos : m.layer_stack_ ≠ [] := by
      intro e
      rw [e] at hp
      simp at hp
    have := List.length_pos.2 hpos
    omega

/-- Instances of C27: in the initial state, at depth 0, the visit of the sample frame is
undefined; after one layer was entered the layer stack has one entry, the depth is 1,
and the visit ends normally. -/
theorem layer_stack_size_is_layer_depth_witness :
    (visit fresh sample_frame).1 = .undefined ∧
    (run image_transform.mul fresh [.push enter_layer]).2.layer_stack_.length = 1 ∧
    (visit (run image_transform.mul fresh [.push enter_layer]).2 sample_frame).1 = .ok () ∧
    (∃ top,
      (run image_transform.mul fresh [.push enter_layer]).2.transform_stack_.getLast? =
        some top ∧
      ((run image_transform.mul fresh [.push enter_layer]).2.layer_stack_.length : Int) =
        top.layer_depth) :=
  ⟨by decide, by decide, by decide,
    (layer_stack_size_is_layer_depth image_transform.mul [.push enter_layer]
      (run image_transform.mul fresh [.push enter_layer]).2 (by decide)
      (Prod.ext (by decide) rfl)).elim fun top h => ⟨top, h.1, h.2.1⟩⟩

end image_mixer

end caspar
